import Mathlib

/-!
Verification of the archive extraction / zip-creation engine of the drive
backend (`core/archive/{security,limits,extract,zip_create,extract_mount}.py`).

Strings are embedded as `List Char` (Python `str` is a sequence of code
points), byte streams as `List Nat`.  Fallible Python functions (those that
`raise`) become `Except`-valued Lean functions.  The Django tree store and the
mount filesystem are embedded as explicit states threaded through the
functions, and Python mutable loops become structural recursions carrying the
same state.
-/

deriving instance DecidableEq for Except

namespace DriveSpec

abbrev Str := List Char
abbrev Bytes := List Nat

/-- Coerce a Lean string literal to the character-list embedding. -/
def strOf (s : String) : Str := s.data

/-! ## `core/archive/security.py` -/

/-- Error cases of `UnsafeArchivePath` (`security.py`), one per `raise` site. -/
inductive UnsafePathError
  | empty
  | absolute
  | traversal
  | invalid
  deriving DecidableEq, Repr

/-- `path.replace("\\", "/")` (`security.py` line 50). -/
def replaceBackslashes (s : Str) : Str :=
  s.map (fun c => if c = '\\' then '/' else c)

/-- `while path.startswith("./"): path = path[2:]` (`security.py` lines 52-53). -/
def stripDotSlash : Str → Str
  | c1 :: c2 :: rest =>
    if c1 = '.' ∧ c2 = '/' then stripDotSlash rest else c1 :: c2 :: rest
  | s => s

/-- `PurePosixPath(path).is_absolute()` for a string path: starts with `/`. -/
def isAbsoluteStr (s : Str) : Bool :=
  match s with
  | c :: _ => decide (c = '/')
  | [] => false

/-- Python `str.split("/")`: the empty string yields one empty field, and each
separator starts a new field. -/
def splitSlash : Str → List Str
  | [] => [[]]
  | c :: rest =>
    if c = '/' then [] :: splitSlash rest
    else
      match splitSlash rest with
      | [] => [[c]]
      | h :: t => (c :: h) :: t

/-- `"/".join(parts)` (`security.py` line 70). -/
def joinSlash : List Str → Str
  | [] => []
  | [p] => p
  | p :: rest => p ++ '/' :: joinSlash rest

/-- `PurePosixPath(path).parts` for a relative path: the slash-split fields
with empty and `.` fields collapsed. -/
def purePosixParts (s : Str) : List Str :=
  (splitSlash s).filter (fun seg => decide (seg ≠ [] ∧ seg ≠ ['.']))

/-- The `for part in posix.parts` loop of `normalize_archive_path`
(`security.py` lines 59-65): skip empty and `.` fields, fail on the first
`..`, collect the rest in order. -/
def collectSafeParts : List Str → Except UnsafePathError (List Str)
  | [] => .ok []
  | seg :: rest =>
    if seg = [] ∨ seg = ['.'] then collectSafeParts rest
    else if seg = ['.', '.'] then .error .traversal
    else do
      let tail ← collectSafeParts rest
      .ok (seg :: tail)

/-- `NormalizedArchivePath` (`security.py` lines 13-34). -/
structure NormalizedArchivePath where
  raw : Str
  normalized : Str
  parts : List Str
  deriving DecidableEq, Repr

/-- `NormalizedArchivePath.depth`. -/
def NormalizedArchivePath.depth (n : NormalizedArchivePath) : Nat :=
  n.parts.length

/-- `NormalizedArchivePath.name` (basename, empty for no parts). -/
def NormalizedArchivePath.name (n : NormalizedArchivePath) : Str :=
  n.parts.getLastD []

/-- `NormalizedArchivePath.parent_parts`. -/
def NormalizedArchivePath.parent_parts (n : NormalizedArchivePath) : List Str :=
  n.parts.dropLast

/-- `normalize_archive_path` (`security.py` lines 37-71). -/
def normalize_archive_path (path : Str) :
    Except UnsafePathError NormalizedArchivePath :=
  if path = [] then .error .empty
  else
    let raw := path
    let p1 := replaceBackslashes path
    let p2 := stripDotSlash p1
    if isAbsoluteStr p2 then .error .absolute
    else do
      let parts ← collectSafeParts (purePosixParts p2)
      if parts = [] then .error .invalid
      else .ok { raw := raw, normalized := joinSlash parts, parts := parts }

/-- The backslash-converted, `./`-stripped form of an input path; the error
conditions of `normalize_archive_path` are phrased over this form. -/
def convertedPath (p : Str) : Str :=
  stripDotSlash (replaceBackslashes p)

/-- The input contains a `..` segment (after conversion). -/
def hasTraversalSegment (p : Str) : Prop :=
  ['.', '.'] ∈ splitSlash (convertedPath p)

instance (p : Str) : Decidable (hasTraversalSegment p) := by
  unfold hasTraversalSegment; infer_instance

/-- All slash-separated segments of the converted input canonicalize to
empty (only empty or `.` fields remain). -/
def allSegmentsEmpty (p : Str) : Prop :=
  purePosixParts (convertedPath p) = []

instance (p : Str) : Decidable (allSegmentsEmpty p) := by
  unfold allSegmentsEmpty; infer_instance

/-- `isErr` for `Except` results. -/
def isErr {ε α : Type} : Except ε α → Bool
  | .error _ => true
  | .ok _ => false

/-! ### Basic facts about the string helpers -/

theorem splitSlash_ne_nil (s : Str) : splitSlash s ≠ [] := by
  induction s with
  | nil => simp [splitSlash]
  | cons c rest ih =>
    simp only [splitSlash]
    split
    · simp
    · cases h : splitSlash rest with
      | nil => simp
      | cons h t => simp

theorem mem_splitSlash_no_slash {s : Str} {seg : Str}
    (h : seg ∈ splitSlash s) : '/' ∉ seg := by
  induction s generalizing seg with
  | nil =>
    simp only [splitSlash, List.mem_singleton] at h
    simp [h]
  | cons c rest ih =>
    by_cases hc : c = '/'
    · simp only [splitSlash, if_pos hc] at h
      rcases List.mem_cons.mp h with h1 | h1
      · simp [h1]
      · exact ih h1
    · simp only [splitSlash, if_neg hc] at h
      cases hsp : splitSlash rest with
      | nil => exact absurd hsp (splitSlash_ne_nil rest)
      | cons hd tl =>
        rw [hsp] at h
        rcases List.mem_cons.mp h with h1 | h1
        · subst h1
          intro hmem
          rcases List.mem_cons.mp hmem with h2 | h2
          · exact hc h2.symm
          · exact ih (hsp ▸ List.mem_cons_self hd tl) h2
        · exact ih (hsp ▸ List.mem_cons_of_mem hd h1)

theorem mem_splitSlash_subset {s : Str} {seg : Str}
    (h : seg ∈ splitSlash s) : ∀ c ∈ seg, c ∈ s := by
  induction s generalizing seg with
  | nil =>
    simp only [splitSlash, List.mem_singleton] at h
    simp [h]
  | cons a rest ih =>
    by_cases ha : a = '/'
    · simp only [splitSlash, if_pos ha] at h
      rcases List.mem_cons.mp h with h1 | h1
      · simp [h1]
      · intro c hc; exact List.mem_cons_of_mem a (ih h1 c hc)
    · simp only [splitSlash, if_neg ha] at h
      cases hsp : splitSlash rest with
      | nil => exact absurd hsp (splitSlash_ne_nil rest)
      | cons hd tl =>
        rw [hsp] at h
        rcases List.mem_cons.mp h with h1 | h1
        · subst h1
          intro c hc
          rcases List.mem_cons.mp hc with h2 | h2
          · simp [h2]
          · exact List.mem_cons_of_mem a
              (ih (hsp ▸ List.mem_cons_self hd tl) c h2)
        · intro c hc
          exact List.mem_cons_of_mem a
            (ih (hsp ▸ List.mem_cons_of_mem hd h1) c hc)

theorem splitSlash_no_slash {p : Str} (h : '/' ∉ p) : splitSlash p = [p] := by
  induction p with
  | nil => simp [splitSlash]
  | cons c rest ih =>
    have hc : c ≠ '/' := fun hc => h (hc ▸ List.mem_cons_self c rest)
    have hrest : '/' ∉ rest := fun hr => h (List.mem_cons_of_mem c hr)
    simp only [splitSlash, if_neg (fun hh : c = '/' => hc hh), ih hrest]

theorem splitSlash_append_slash {p t : Str} (h : '/' ∉ p) :
    splitSlash (p ++ '/' :: t) = p :: splitSlash t := by
  induction p with
  | nil => simp [splitSlash]
  | cons c rest ih =>
    have hc : c ≠ '/' := fun hc => h (hc ▸ List.mem_cons_self c rest)
    have hrest : '/' ∉ rest := fun hr => h (List.mem_cons_of_mem c hr)
    simp only [List.cons_append, splitSlash, if_neg (fun hh : c = '/' => hc hh)]
    rw [List.append_eq, ih hrest]

theorem splitSlash_joinSlash {l : List Str} (hl : l ≠ [])
    (h : ∀ s ∈ l, '/' ∉ s) : splitSlash (joinSlash l) = l := by
  induction l with
  | nil => exact absurd rfl hl
  | cons p rest ih =>
    cases rest with
    | nil => simpa [joinSlash] using splitSlash_no_slash (h p (by simp))
    | cons q rest' =>
      have hp : '/' ∉ p := h p (by simp)
      calc splitSlash (joinSlash (p :: q :: rest'))
          = splitSlash (p ++ '/' :: joinSlash (q :: rest')) := rfl
        _ = p :: splitSlash (joinSlash (q :: rest')) := splitSlash_append_slash hp
        _ = p :: (q :: rest') := by
            rw [ih (by simp) (fun s hs => h s (List.mem_cons_of_mem p hs))]

theorem mem_joinSlash {l : List Str} {c : Char} (h : c ∈ joinSlash l) :
    c = '/' ∨ ∃ s ∈ l, c ∈ s := by
  induction l with
  | nil => simp [joinSlash] at h
  | cons p rest ih =>
    cases rest with
    | nil => right; exact ⟨p, by simp, by simpa [joinSlash] using h⟩
    | cons q rest' =>
      have : c ∈ p ++ '/' :: joinSlash (q :: rest') := h
      rcases List.mem_append.mp this with h1 | h1
      · right; exact ⟨p, by simp, h1⟩
      · rcases List.mem_cons.mp h1 with h2 | h2
        · left; exact h2
        · rcases ih h2 with h3 | ⟨s, hs, hcs⟩
          · left; exact h3
          · right; exact ⟨s, List.mem_cons_of_mem p hs, hcs⟩

theorem joinSlash_ne_nil {p : Str} {rest : List Str} (hp : p ≠ []) :
    joinSlash (p :: rest) ≠ [] := by
  cases p with
  | nil => exact absurd rfl hp
  | cons c cs => cases rest <;> simp [joinSlash]

theorem isAbsoluteStr_joinSlash {p : Str} {rest : List Str} (hp : p ≠ [])
    (hs : '/' ∉ p) : isAbsoluteStr (joinSlash (p :: rest)) = false := by
  cases p with
  | nil => exact absurd rfl hp
  | cons c cs =>
    have hc : c ≠ '/' := fun h => hs (h ▸ List.mem_cons_self c cs)
    cases rest <;> simp [joinSlash, isAbsoluteStr, hc]

theorem stripDotSlash_joinSlash {p : Str} {rest : List Str} (hp : p ≠ [])
    (hdot : p ≠ ['.']) (hs : '/' ∉ p) :
    stripDotSlash (joinSlash (p :: rest)) = joinSlash (p :: rest) := by
  cases p with
  | nil => exact absurd rfl hp
  | cons c cs =>
    cases cs with
    | nil =>
      have hc : c ≠ '.' := fun h => hdot (by simp [h])
      cases rest with
      | nil => simp [joinSlash, stripDotSlash]
      | cons q rest' => simp [joinSlash, stripDotSlash, hc]
    | cons c2 cs' =>
      have hc2 : c2 ≠ '/' := fun h =>
        hs (h ▸ List.mem_cons_of_mem c (List.mem_cons_self c2 cs'))
      cases rest with
      | nil => simp [joinSlash, stripDotSlash, hc2]
      | cons q rest' => simp [joinSlash, stripDotSlash, hc2]

theorem replaceBackslashes_no_backslash (s : Str) :
    '\\' ∉ replaceBackslashes s := by
  intro h
  rcases List.mem_map.mp h with ⟨c, _, hc⟩
  by_cases hcc : c = '\\' <;> simp [hcc] at hc

theorem replaceBackslashes_eq_self {s : Str} (h : '\\' ∉ s) :
    replaceBackslashes s = s := by
  induction s with
  | nil => rfl
  | cons c rest ih =>
    have hc : c ≠ '\\' := fun hc => h (hc ▸ List.mem_cons_self c rest)
    have hrest : '\\' ∉ rest := fun hr => h (List.mem_cons_of_mem c hr)
    simp [replaceBackslashes, if_neg hc] at *
    exact ih hrest

theorem stripDotSlash_sublist : ∀ s : Str, (stripDotSlash s).Sublist s
  | [] => by simp [stripDotSlash]
  | [c] => by simp [stripDotSlash]
  | c1 :: c2 :: rest => by
    simp only [stripDotSlash]
    split
    · exact (stripDotSlash_sublist rest).trans
        (((List.Sublist.refl rest).cons c2).cons c1)
    · exact List.Sublist.refl _

theorem collect_error_of_dotdot {l : List Str} (h : ['.', '.'] ∈ l) :
    collectSafeParts l = .error .traversal := by
  induction l with
  | nil => simp at h
  | cons seg rest ih =>
    rcases List.mem_cons.mp h with h1 | h1
    · subst h1
      simp [collectSafeParts]
    · by_cases hskip : seg = [] ∨ seg = ['.']
      · simp only [collectSafeParts, if_pos hskip]
        exact ih h1
      · by_cases hdd : seg = ['.', '.']
        · simp only [collectSafeParts, if_neg hskip, if_pos hdd]
        · simp only [collectSafeParts, if_neg hskip, if_neg hdd]
          rw [ih h1]
          rfl

theorem collect_ok_of_no_dotdot {l : List Str} (h : ['.', '.'] ∉ l) :
    collectSafeParts l =
      .ok (l.filter (fun s => decide (s ≠ [] ∧ s ≠ ['.']))) := by
  induction l with
  | nil => rfl
  | cons seg rest ih =>
    have hseg : seg ≠ ['.', '.'] := fun hh => h (hh ▸ List.mem_cons_self seg rest)
    have hrest : ['.', '.'] ∉ rest := fun hr => h (List.mem_cons_of_mem seg hr)
    by_cases hskip : seg = [] ∨ seg = ['.']
    · have hpred : ¬ (seg ≠ [] ∧ seg ≠ ['.']) := by tauto
      simp only [collectSafeParts, if_pos hskip, ih hrest, List.filter_cons]
      rw [if_neg (by simpa using hpred)]
    · have hpred : (seg ≠ [] ∧ seg ≠ ['.']) := by tauto
      simp only [collectSafeParts, if_neg hskip, if_neg hseg, ih hrest,
        List.filter_cons]
      rw [if_pos (by simpa using hpred)]
      rfl

theorem bindOk {ε α β : Type} (a : α) (f : α → Except ε β) :
    (Except.ok a : Except ε α) >>= f = f a := rfl

theorem bindErr {ε α β : Type} (e : ε) (f : α → Except ε β) :
    (Except.error e : Except ε α) >>= f = Except.error e := rfl

/-- Closed-form characterization of `normalize_archive_path`: the four error
conditions in the order the source tests them, else the normalized value. -/
theorem normalize_spec (p : Str) :
    normalize_archive_path p =
      if p = [] then .error .empty
      else if isAbsoluteStr (convertedPath p) then .error .absolute
      else if hasTraversalSegment p then .error .traversal
      else if allSegmentsEmpty p then .error .invalid
      else .ok { raw := p
                 normalized := joinSlash (purePosixParts (convertedPath p))
                 parts := purePosixParts (convertedPath p) } := by
  by_cases hp : p = []
  · simp [normalize_archive_path, hp]
  · simp only [normalize_archive_path, if_neg hp]
    rw [show stripDotSlash (replaceBackslashes p) = convertedPath p from rfl]
    by_cases habs : isAbsoluteStr (convertedPath p) = true
    · rw [if_pos habs, if_pos habs]
    · rw [if_neg habs, if_neg habs]
      by_cases ht : hasTraversalSegment p
      · have hmem : ['.', '.'] ∈ purePosixParts (convertedPath p) :=
          List.mem_filter.mpr ⟨ht, by decide⟩
        rw [collect_error_of_dotdot hmem, if_pos ht]
        rfl
      · have hnm : ['.', '.'] ∉ purePosixParts (convertedPath p) := fun hmm =>
          ht (List.mem_filter.mp hmm).1
        rw [collect_ok_of_no_dotdot hnm, if_neg ht]
        have hself : (purePosixParts (convertedPath p)).filter
            (fun s => decide (s ≠ [] ∧ s ≠ ['.'])) =
            purePosixParts (convertedPath p) :=
          List.filter_eq_self.mpr (fun a ha => by
            simp only [purePosixParts] at ha
            exact (List.mem_filter.mp ha).2)
        by_cases hall : allSegmentsEmpty p
        · rw [if_pos hall]
          unfold allSegmentsEmpty at hall
          rw [hall, bindOk]
          rfl
        · rw [if_neg hall]
          unfold allSegmentsEmpty at hall
          rw [hself, bindOk, if_neg hall]

/-- Inversion of a successful normalization. -/
theorem normalize_ok_inv {p : Str} {n : NormalizedArchivePath}
    (h : normalize_archive_path p = .ok n) :
    p ≠ [] ∧ isAbsoluteStr (convertedPath p) = false ∧ ¬ hasTraversalSegment p ∧
    ¬ allSegmentsEmpty p ∧
    n = { raw := p
          normalized := joinSlash (purePosixParts (convertedPath p))
          parts := purePosixParts (convertedPath p) } := by
  rw [normalize_spec p] at h
  by_cases hp : p = []
  · rw [if_pos hp] at h; exact absurd h (by simp)
  · rw [if_neg hp] at h
    by_cases habs : isAbsoluteStr (convertedPath p) = true
    · rw [if_pos habs] at h; exact absurd h (by simp)
    · rw [if_neg habs] at h
      by_cases ht : hasTraversalSegment p
      · rw [if_pos ht] at h; exact absurd h (by simp)
      · rw [if_neg ht] at h
        by_cases hall : allSegmentsEmpty p
        · rw [if_pos hall] at h; exact absurd h (by simp)
        · rw [if_neg hall] at h
          refine ⟨hp, by simpa using habs, ht, hall, ?_⟩
          exact (Except.ok.injEq _ _ ▸ h).symm

/-- Segments produced by a successful normalization are non-empty, free of
`/`, `\`, and are neither `.` nor `..`. -/
theorem normalize_ok_parts {p : Str} {n : NormalizedArchivePath}
    (h : normalize_archive_path p = .ok n) :
    n.parts ≠ [] ∧ ∀ seg ∈ n.parts,
      seg ≠ [] ∧ seg ≠ ['.'] ∧ seg ≠ ['.', '.'] ∧ '/' ∉ seg ∧ '\\' ∉ seg := by
  obtain ⟨hp, habs, ht, hall, hn⟩ := normalize_ok_inv h
  subst hn
  refine ⟨hall, fun seg hs => ?_⟩
  have hsplit : seg ∈ splitSlash (convertedPath p) := (List.mem_filter.mp hs).1
  have hpred := List.of_mem_filter hs
  simp only [decide_eq_true_eq] at hpred
  refine ⟨hpred.1, hpred.2, fun hdd => ht ?_, ?_, ?_⟩
  · show ['.', '.'] ∈ splitSlash (convertedPath p)
    rw [← hdd]; exact hsplit
  · exact mem_splitSlash_no_slash hsplit
  · intro hbs
    have h1 : '\\' ∈ convertedPath p := mem_splitSlash_subset hsplit '\\' hbs
    have h2 : '\\' ∈ replaceBackslashes p :=
      (stripDotSlash_sublist (replaceBackslashes p)).mem h1
    exact replaceBackslashes_no_backslash p h2

/-- C4.  `normalize_archive_path` rejects exactly the empty input, inputs
with a `..` segment, absolute inputs, and inputs all of whose segments
canonicalize to empty — all evaluated after backslash conversion and `./`
stripping (`convertedPath`), which are therefore converted/stripped rather
than rejected; every accepted value has non-empty `parts`, no empty or `..`
segment, and a `normalized` form that cannot be absolute. -/
theorem normalize_archive_path_contract (p : Str) :
    (isErr (normalize_archive_path p) = true ↔
      (p = [] ∨ isAbsoluteStr (convertedPath p) = true ∨ hasTraversalSegment p ∨
        allSegmentsEmpty p))
    ∧ (∀ n, normalize_archive_path p = .ok n →
        n.parts ≠ [] ∧ (∀ seg ∈ n.parts, seg ≠ [] ∧ seg ≠ ['.', '.']) ∧
        isAbsoluteStr n.normalized = false ∧
        n.parts = purePosixParts (convertedPath p) ∧
        n.normalized = joinSlash n.parts) := by
  constructor
  · rw [normalize_spec p]
    by_cases hp : p = []
    · simp [hp, isErr]
    · rw [if_neg hp]
      by_cases habs : isAbsoluteStr (convertedPath p) = true
      · simp [habs, isErr]
      · rw [if_neg habs]
        by_cases ht : hasTraversalSegment p
        · simp [ht, isErr, hp, habs]
        · rw [if_neg ht]
          by_cases hall : allSegmentsEmpty p
          · simp [hall, isErr, hp, habs, ht]
          · simp [hall, isErr, hp, habs, ht]
  · intro n h
    obtain ⟨hne, hsegs⟩ := normalize_ok_parts h
    obtain ⟨hp, habs, ht, hall, hn⟩ := normalize_ok_inv h
    refine ⟨hne, fun seg hs => ⟨(hsegs seg hs).1, (hsegs seg hs).2.2.1⟩, ?_, ?_, ?_⟩
    · cases hparts : n.parts with
      | nil => exact absurd hparts hne
      | cons p0 rest =>
        have hp0 : p0 ∈ n.parts := by rw [hparts]; exact List.mem_cons_self p0 rest
        have hnorm : n.normalized = joinSlash n.parts := by rw [hn]
        rw [hnorm, hparts]
        exact isAbsoluteStr_joinSlash (hsegs p0 hp0).1 (hsegs p0 hp0).2.2.2.1
    · rw [hn]
    · rw [hn]

/-- Re-normalizing the `normalized` string of an accepted value succeeds and
reproduces the same `normalized` string and `parts`. -/
theorem renormalize_ok (p : Str) (n : NormalizedArchivePath)
    (h : normalize_archive_path p = .ok n) :
    normalize_archive_path n.normalized =
      .ok { raw := n.normalized, normalized := n.normalized, parts := n.parts } := by
  obtain ⟨hne, hsegs⟩ := normalize_ok_parts h
  obtain ⟨hp, habs, ht, hall, hn⟩ := normalize_ok_inv h
  have hnorm_eq : n.normalized = joinSlash n.parts := by rw [hn]
  cases hps : n.parts with
  | nil => exact absurd hps hne
  | cons p0 rest =>
    have hp0 := hsegs p0 (by rw [hps]; exact List.mem_cons_self p0 rest)
    have hnoslash : ∀ s ∈ n.parts, '/' ∉ s := fun s hs => (hsegs s hs).2.2.2.1
    have hnobs : '\\' ∉ joinSlash n.parts := by
      intro hb
      rcases mem_joinSlash hb with h1 | ⟨s, hs, hcs⟩
      · exact absurd h1 (by decide)
      · exact (hsegs s hs).2.2.2.2 hcs
    have hjoin_ne : joinSlash n.parts ≠ [] := by
      rw [hps]; exact joinSlash_ne_nil hp0.1
    have hconv : convertedPath (joinSlash n.parts) = joinSlash n.parts := by
      unfold convertedPath
      rw [replaceBackslashes_eq_self hnobs, hps]
      exact stripDotSlash_joinSlash hp0.1 hp0.2.1 hp0.2.2.2.1
    have hsplit : splitSlash (joinSlash n.parts) = n.parts := by
      rw [hps]
      exact splitSlash_joinSlash (by simp)
        (fun s hs => hnoslash s (by rw [hps]; exact hs))
    have hpp : purePosixParts (convertedPath (joinSlash n.parts)) = n.parts := by
      rw [hconv]
      unfold purePosixParts
      rw [hsplit]
      exact List.filter_eq_self.mpr (fun a ha => by
        have hfacts := hsegs a ha
        simp only [decide_eq_true_eq]
        exact ⟨hfacts.1, hfacts.2.1⟩)
    have habs2 : isAbsoluteStr (convertedPath (joinSlash n.parts)) = false := by
      rw [hconv, hps]
      exact isAbsoluteStr_joinSlash hp0.1 hp0.2.2.2.1
    have ht2 : ¬ hasTraversalSegment (joinSlash n.parts) := by
      unfold hasTraversalSegment
      rw [hconv, hsplit]
      intro hmm
      exact (hsegs _ hmm).2.2.1 rfl
    have hall2 : ¬ allSegmentsEmpty (joinSlash n.parts) := by
      unfold allSegmentsEmpty
      intro hmm
      rw [hpp] at hmm
      exact hne hmm
    rw [hnorm_eq, normalize_spec (joinSlash n.parts), if_neg hjoin_ne,
      if_neg (by simp [habs2]), if_neg ht2, if_neg hall2, hpp, hps]

/-- C10.  Normalization is idempotent on its own output: re-normalizing the
`normalized` string of any accepted value succeeds and reproduces the same
`normalized` string and the same `parts`, as the extraction engine assumes
when it re-normalizes plan paths (`extract.py` lines 429-437). -/
theorem normalize_archive_path_idempotent (p : Str) (n : NormalizedArchivePath)
    (h : normalize_archive_path p = .ok n) :
    normalize_archive_path n.normalized =
      .ok { raw := n.normalized, normalized := n.normalized, parts := n.parts } :=
  renormalize_ok p n h

/-- Witness for `normalize_archive_path_idempotent` at the concrete input
`./a\b` (normalizing to `a/b`). -/
theorem normalize_archive_path_idempotent_witness :
    normalize_archive_path (strOf "a/b") =
      .ok { raw := strOf "a/b", normalized := strOf "a/b",
            parts := [strOf "a", strOf "b"] } :=
  normalize_archive_path_idempotent (strOf "./a\\b")
    { raw := strOf "./a\\b", normalized := strOf "a/b",
      parts := [strOf "a", strOf "b"] }
    (by decide)

/-- Witness for `normalize_archive_path_contract`: the traversal input
`../evil.txt` is rejected, and the accepted input `a\b` (backslash converted,
not rejected) yields non-empty parts. -/
theorem normalize_archive_path_contract_witness :
    isErr (normalize_archive_path (strOf "../evil.txt")) = true ∧
    ([strOf "a", strOf "b"] : List Str) ≠ [] :=
  ⟨(normalize_archive_path_contract (strOf "../evil.txt")).1.mpr
      (Or.inr (Or.inr (Or.inl (by decide)))),
    ((normalize_archive_path_contract (strOf "a\\b")).2
      { raw := strOf "a\\b", normalized := strOf "a/b",
        parts := [strOf "a", strOf "b"] }
      (by decide)).1⟩

/-! ## `core/archive/limits.py` -/

/-- `ArchiveExtractionLimits` (`limits.py` lines 27-36). -/
structure ArchiveExtractionLimits where
  max_files : Nat
  max_total_size : Nat
  max_file_size : Nat
  max_path_length : Nat
  max_depth : Nat
  max_compression_ratio : Nat
  deriving DecidableEq, Repr

/-- The default limit values of `get_archive_extraction_limits`
(`limits.py` lines 42-48), with every environment variable unset. -/
def defaultLimits : ArchiveExtractionLimits where
  max_files := 10000
  max_total_size := 5 * 1024 ^ 3
  max_file_size := 1 * 1024 ^ 3
  max_path_length := 512
  max_depth := 32
  max_compression_ratio := 1000

/-! ## Zip / tar container model

A zip entry carries the metadata fields `_plan_zip` and the extraction loop
read (`zipfile.ZipInfo`: `filename`, `file_size`, `compress_size`,
`external_attr`) together with its decompressed byte stream (`zf.open`). -/

structure ZipEntry where
  filename : Str
  file_size : Nat
  compress_size : Nat
  external_attr : Nat
  content : Bytes
  deriving DecidableEq, Repr

/-- `ZipInfo.is_dir()`: the stored name ends with a slash. -/
def ZipEntry.isDirEntry (e : ZipEntry) : Bool :=
  e.filename.getLast? = some '/'

/-- `_zipinfo_is_symlink` (`extract.py` lines 274-282):
`((external_attr >> 16) & 0o170000) == stat.S_IFLNK` with
`S_IFLNK = 0o120000`. -/
def zipinfo_is_symlink (e : ZipEntry) : Bool :=
  decide ((e.external_attr >>> 16) &&& 0o170000 = 0o120000)

/-- `zf.getinfo(raw)`: `ZipFile` builds `NameToInfo` in order, so a
duplicated name resolves to the last entry carrying it. -/
def getinfo (entries : List ZipEntry) (raw : Str) : Option ZipEntry :=
  entries.reverse.find? (fun e => decide (e.filename = raw))

/-- A tar member as consumed by `_plan_tar` (`tarfile.TarInfo`): name, size
and the regular-file flag, plus its byte stream. -/
structure TarMember where
  name : Str
  size : Nat
  isfile : Bool
  content : Bytes
  deriving DecidableEq, Repr

/-! ## Planning (`core/archive/extract.py`) -/

inductive ArchiveMode
  | all
  | selection
  deriving DecidableEq, Repr

inductive CollisionPolicy
  | rename
  | skip
  | overwrite
  deriving DecidableEq, Repr

/-- One constructor per distinct `raise` site reachable from the planners:
the `ValueError` messages of `_plan_zip` / `_plan_tar` /
`_selection_matchers`, plus propagated `UnsafeArchivePath`. `missingEntry`
stands for the `KeyError` of `zf.getinfo` on an unknown name. -/
inductive PlanError
  | symlinkNotAllowed
  | pathTooLong
  | pathTooDeep
  | fileTooLarge
  | suspiciousRatio
  | tooManyFiles
  | archiveTooLarge
  | unsafePath (e : UnsafePathError)
  | missingEntry
  deriving DecidableEq, Repr

/-- `ExtractionPlan` (`extract.py` lines 113-119). -/
structure ExtractionPlan where
  paths : List Str
  total_files : Nat
  total_bytes : Nat
  deriving DecidableEq, Repr

/-- Matchers built by `_selection_matchers` (`extract.py` lines 122-133). -/
structure SelectionMatchers where
  exact : List Str
  prefixes : List Str
  deriving DecidableEq, Repr

/-- `_selection_matchers`: an unsafe selection path raises (propagates) at
the first offending element. -/
def selection_matchers : List Str → Except PlanError SelectionMatchers
  | [] => .ok ⟨[], []⟩
  | p :: rest =>
    let isDirSel := (replaceBackslashes p).getLast? = some '/'
    match normalize_archive_path p with
    | .error e => .error (.unsafePath e)
    | .ok n => do
      let m ← selection_matchers rest
      if isDirSel then
        .ok ⟨m.exact, (n.normalized ++ ['/']) :: m.prefixes⟩
      else
        .ok ⟨n.normalized :: m.exact, m.prefixes⟩

/-- The membership test of `_filter_paths`:
`n in exact or any(n.startswith(prefix) for prefix in prefixes)`. -/
def matchesSelection (m : SelectionMatchers) (n : Str) : Bool :=
  decide (n ∈ m.exact) || m.prefixes.any (fun pre => decide (pre <+: n))

/-- `_filter_paths` (`extract.py` lines 136-151): `mode=all` keeps every raw
path; `mode=selection` keeps paths whose normalization succeeds and matches
the selection (normalization failures are silently dropped here). -/
def filter_paths (paths : List Str) (mode : ArchiveMode) (selection : List Str) :
    Except PlanError (List Str) :=
  match mode with
  | .all => .ok paths
  | .selection => do
    let m ← selection_matchers selection
    .ok (paths.filter (fun p =>
      match normalize_archive_path p with
      | .error _ => false
      | .ok n => matchesSelection m n.normalized))

/-- Accumulator of the planning loops: running totals and the normalized
paths collected so far (in order). -/
structure PlanAcc where
  total_files : Nat
  total_bytes : Nat
  normalized_paths : List Str
  deriving DecidableEq, Repr

/-- The `for raw in selected` loop of `_plan_zip` (`extract.py` lines
170-188).  The float comparison `size / compressed > max_compression_ratio`
is embedded as the exact rational comparison
`size > max_compression_ratio * compressed`. -/
def plan_zip_loop (limits : ArchiveExtractionLimits) (entries : List ZipEntry) :
    List Str → PlanAcc → Except PlanError PlanAcc
  | [], acc => .ok acc
  | raw :: rest, acc =>
    match normalize_archive_path raw with
    | .error e => .error (.unsafePath e)
    | .ok n =>
      if n.normalized.length > limits.max_path_length then .error .pathTooLong
      else if n.depth > limits.max_depth then .error .pathTooDeep
      else
        match getinfo entries raw with
        | none => .error .missingEntry
        | some info =>
          if zipinfo_is_symlink info then plan_zip_loop limits entries rest acc
          else if info.file_size > limits.max_file_size then .error .fileTooLarge
          else if info.file_size > 0 ∧ info.compress_size > 0 ∧
              info.file_size > limits.max_compression_ratio * info.compress_size then
            .error .suspiciousRatio
          else
            plan_zip_loop limits entries rest
              { total_files := acc.total_files + 1
                total_bytes := acc.total_bytes + info.file_size
                normalized_paths := acc.normalized_paths ++ [n.normalized] }

/-- The raw zip names the planner draws entries from: non-directory,
non-symlink entries, in order (`_plan_zip` lines 159-163). -/
def zipAllPaths (entries : List ZipEntry) : List Str :=
  (entries.filter (fun i => !i.isDirEntry && !zipinfo_is_symlink i)).map
    (·.filename)

/-- `_plan_zip` (`extract.py` lines 154-197).  `strict` is
`_archive_fs_strict()` (the `ARCHIVE_FS_STRICT` environment flag). -/
def plan_zip (strict : Bool) (limits : ArchiveExtractionLimits)
    (entries : List ZipEntry) (mode : ArchiveMode) (selection : List Str) :
    Except PlanError ExtractionPlan :=
  if strict ∧ entries.any (fun i => zipinfo_is_symlink i) then
    .error .symlinkNotAllowed
  else do
    let selected ← filter_paths (zipAllPaths entries) mode selection
    let acc ← plan_zip_loop limits entries selected ⟨0, 0, []⟩
    if acc.total_files > limits.max_files then .error .tooManyFiles
    else if acc.total_bytes > limits.max_total_size then .error .archiveTooLarge
    else .ok ⟨acc.normalized_paths, acc.total_files, acc.total_bytes⟩

/-- The `for m in members` loop of `_plan_tar` (`extract.py` lines 210-223):
members are the regular files; a member not in the selected set is skipped. -/
def plan_tar_loop (limits : ArchiveExtractionLimits) (selected : List Str) :
    List TarMember → PlanAcc → Except PlanError PlanAcc
  | [], acc => .ok acc
  | m :: rest, acc =>
    if ¬ (m.name ∈ selected) then plan_tar_loop limits selected rest acc
    else
      match normalize_archive_path m.name with
      | .error e => .error (.unsafePath e)
      | .ok n =>
        if n.normalized.length > limits.max_path_length then .error .pathTooLong
        else if n.depth > limits.max_depth then .error .pathTooDeep
        else if m.size > limits.max_file_size then .error .fileTooLarge
        else
          plan_tar_loop limits selected rest
            { total_files := acc.total_files + 1
              total_bytes := acc.total_bytes + m.size
              normalized_paths := acc.normalized_paths ++ [n.normalized] }

/-- The regular-file members `_plan_tar` works over (`extract.py` line 203). -/
def tarFileMembers (members0 : List TarMember) : List TarMember :=
  members0.filter (·.isfile)

/-- `_plan_tar` (`extract.py` lines 200-232). -/
def plan_tar (limits : ArchiveExtractionLimits) (members0 : List TarMember)
    (mode : ArchiveMode) (selection : List Str) :
    Except PlanError ExtractionPlan := do
  let members := tarFileMembers members0
  let all_paths := members.map (·.name)
  let selected ← filter_paths all_paths mode selection
  let acc ← plan_tar_loop limits selected members ⟨0, 0, []⟩
  if acc.total_files > limits.max_files then .error .tooManyFiles
  else if acc.total_bytes > limits.max_total_size then .error .archiveTooLarge
  else .ok ⟨acc.normalized_paths, acc.total_files, acc.total_bytes⟩

/-! ### Characterization of the planners (for C5)

The predicates below are *derived characterizations* phrased in terms of the
embedded source functions; the theorems show they coincide with what the
planning loops do. -/

/-- A selected raw name makes the zip planning loop fail: its normalization
fails, or the normalized path is too long or too deep, or its (last-wins)
entry is a non-symlink whose size exceeds `max_file_size` or whose
compression ratio is suspicious. -/
def zipEntryViolationB (limits : ArchiveExtractionLimits)
    (entries : List ZipEntry) (raw : Str) : Bool :=
  match normalize_archive_path raw with
  | .error _ => true
  | .ok n =>
    decide (n.normalized.length > limits.max_path_length) ||
    decide (n.depth > limits.max_depth) ||
    (match getinfo entries raw with
     | none => true
     | some info =>
       !zipinfo_is_symlink info &&
         (decide (info.file_size > limits.max_file_size) ||
          (decide (info.file_size > 0) && decide (info.compress_size > 0) &&
           decide (info.file_size >
             limits.max_compression_ratio * info.compress_size))))

/-- A selected raw name contributes to the plan totals: it normalizes, its
entry resolves, and that entry is not a symlink. -/
def zipCountsEntry (entries : List ZipEntry) (raw : Str) : Bool :=
  match normalize_archive_path raw, getinfo entries raw with
  | .ok _, some info => !zipinfo_is_symlink info
  | _, _ => false

/-- Size the planner attributes to a selected raw name. -/
def zipRawSize (entries : List ZipEntry) (raw : Str) : Nat :=
  match getinfo entries raw with
  | some info => info.file_size
  | none => 0

/-- The normalized form of a raw name (empty when normalization fails). -/
def zipRawNormalized (raw : Str) : Str :=
  match normalize_archive_path raw with
  | .ok n => n.normalized
  | .error _ => []

/-- Number of selected entries counted by the zip planner. -/
def zipSelectedFiles (entries : List ZipEntry) (selected : List Str) : Nat :=
  (selected.filter (zipCountsEntry entries)).length

/-- Total bytes counted by the zip planner over the selection. -/
def zipSelectedBytes (entries : List ZipEntry) (selected : List Str) : Nat :=
  ((selected.filter (zipCountsEntry entries)).map (zipRawSize entries)).sum

/-- Normalized paths collected by the zip planner over the selection. -/
def zipSelectedPaths (entries : List ZipEntry) (selected : List Str) : List Str :=
  (selected.filter (zipCountsEntry entries)).map zipRawNormalized

/-- A tar member makes the tar planning loop fail (given the selected set):
it is selected and either fails normalization, or is too long / too deep /
too large. -/
def tarMemberViolationB (limits : ArchiveExtractionLimits)
    (selected : List Str) (m : TarMember) : Bool :=
  decide (m.name ∈ selected) &&
  (match normalize_archive_path m.name with
   | .error _ => true
   | .ok n =>
     decide (n.normalized.length > limits.max_path_length) ||
     decide (n.depth > limits.max_depth) ||
     decide (m.size > limits.max_file_size))

/-- Number of members counted by the tar planner. -/
def tarSelectedFiles (selected : List Str) (members : List TarMember) : Nat :=
  (members.filter (fun m => decide (m.name ∈ selected))).length

/-- Total bytes counted by the tar planner. -/
def tarSelectedBytes (selected : List Str) (members : List TarMember) : Nat :=
  ((members.filter (fun m => decide (m.name ∈ selected))).map (·.size)).sum

theorem plan_zip_loop_cons_violation {limits : ArchiveExtractionLimits}
    {entries : List ZipEntry} {raw : Str} (rest : List Str) (acc : PlanAcc)
    (h : zipEntryViolationB limits entries raw = true) :
    isErr (plan_zip_loop limits entries (raw :: rest) acc) = true := by
  unfold zipEntryViolationB at h
  unfold plan_zip_loop
  cases hn : normalize_archive_path raw with
  | error e => rfl
  | ok n =>
    rw [hn] at h
    simp only [] at h ⊢
    by_cases hlen : n.normalized.length > limits.max_path_length
    · rw [if_pos hlen]; rfl
    · rw [if_neg hlen]
      by_cases hdep : n.depth > limits.max_depth
      · rw [if_pos hdep]; rfl
      · rw [if_neg hdep]
        cases hg : getinfo entries raw with
        | none => rfl
        | some info =>
          rw [hg] at h
          simp only [] at h ⊢
          by_cases hsym : zipinfo_is_symlink info = true
          · exfalso
            rw [hsym] at h
            simp [hlen, hdep] at h
          · have hsym' : zipinfo_is_symlink info = false := by simpa using hsym
            rw [if_neg hsym, hsym'] at *
            by_cases hbig : info.file_size > limits.max_file_size
            · rw [if_pos hbig]; rfl
            · rw [if_neg hbig,
                if_pos (show info.file_size > 0 ∧ info.compress_size > 0 ∧
                  info.file_size >
                    limits.max_compression_ratio * info.compress_size by
                  have h2 := h
                  simp [hlen, hdep, hbig] at h2
                  tauto)]
              rfl

/-- Inversion of "no planning violation" for a raw name. -/
theorem zip_no_violation_inv {limits : ArchiveExtractionLimits}
    {entries : List ZipEntry} {raw : Str}
    (hv : zipEntryViolationB limits entries raw = false) :
    ∃ n info, normalize_archive_path raw = .ok n ∧
      getinfo entries raw = some info ∧
      ¬ n.normalized.length > limits.max_path_length ∧
      ¬ n.depth > limits.max_depth ∧
      (zipinfo_is_symlink info = false →
        ¬ info.file_size > limits.max_file_size ∧
        ¬ (info.file_size > 0 ∧ info.compress_size > 0 ∧
          info.file_size > limits.max_compression_ratio * info.compress_size)) := by
  unfold zipEntryViolationB at hv
  cases hn : normalize_archive_path raw with
  | error e => rw [hn] at hv; exact absurd hv (by simp)
  | ok n =>
    rw [hn] at hv
    simp only [] at hv
    cases hg : getinfo entries raw with
    | none =>
      rw [hg] at hv
      simp at hv
    | some info =>
      rw [hg] at hv
      simp only [] at hv
      by_cases hsym : zipinfo_is_symlink info = true
      · rw [hsym] at hv
        refine ⟨n, info, rfl, rfl, ?_, ?_, fun hs => absurd hsym (by simp [hs])⟩
        · intro hlen; simp [hlen] at hv
        · intro hdep; simp [hdep] at hv
      · have hsym' : zipinfo_is_symlink info = false := by simpa using hsym
        rw [hsym'] at hv
        refine ⟨n, info, rfl, rfl, ?_, ?_, fun _ => ⟨?_, ?_⟩⟩
        · intro hlen; simp [hlen] at hv
        · intro hdep; simp [hdep] at hv
        · intro hbig; simp [hbig] at hv
        · intro hc; simp [hc.1, hc.2.1, hc.2.2] at hv

theorem plan_zip_loop_cons_skip {limits : ArchiveExtractionLimits}
    {entries : List ZipEntry} {raw : Str} (rest : List Str) (acc : PlanAcc)
    (hv : zipEntryViolationB limits entries raw = false)
    (hc : zipCountsEntry entries raw = false) :
    plan_zip_loop limits entries (raw :: rest) acc =
      plan_zip_loop limits entries rest acc := by
  obtain ⟨n, info, hn, hg, hlen, hdep, _⟩ := zip_no_violation_inv hv
  have hsym : zipinfo_is_symlink info = true := by
    unfold zipCountsEntry at hc
    rw [hn, hg] at hc
    simpa using hc
  conv_lhs => rw [plan_zip_loop.eq_def]
  simp only [hn, hg, if_neg hlen, if_neg hdep, hsym, if_pos]

theorem plan_zip_loop_cons_count {limits : ArchiveExtractionLimits}
    {entries : List ZipEntry} {raw : Str} (rest : List Str) (acc : PlanAcc)
    (hv : zipEntryViolationB limits entries raw = false)
    (hc : zipCountsEntry entries raw = true) :
    plan_zip_loop limits entries (raw :: rest) acc =
      plan_zip_loop limits entries rest
        { total_files := acc.total_files + 1
          total_bytes := acc.total_bytes + zipRawSize entries raw
          normalized_paths := acc.normalized_paths ++ [zipRawNormalized raw] } := by
  obtain ⟨n, info, hn, hg, hlen, hdep, hrest⟩ := zip_no_violation_inv hv
  have hsym : zipinfo_is_symlink info = false := by
    unfold zipCountsEntry at hc
    rw [hn, hg] at hc
    simpa using hc
  obtain ⟨hbig, hratio⟩ := hrest hsym
  have hsize : zipRawSize entries raw = info.file_size := by
    unfold zipRawSize; rw [hg]
  have hnrm : zipRawNormalized raw = n.normalized := by
    unfold zipRawNormalized; rw [hn]
  conv_lhs => rw [plan_zip_loop.eq_def]
  simp only [hn, hg, if_neg hlen, if_neg hdep, hsym, if_neg hbig,
    if_neg hratio, hsize, hnrm, Bool.false_eq_true, if_false]

theorem plan_zip_loop_err_iff (limits : ArchiveExtractionLimits)
    (entries : List ZipEntry) :
    ∀ (selected : List Str) (acc : PlanAcc),
      isErr (plan_zip_loop limits entries selected acc) = true ↔
        ∃ raw ∈ selected, zipEntryViolationB limits entries raw = true
  | [], acc => by simp [plan_zip_loop, isErr]
  | raw :: rest, acc => by
    by_cases hv : zipEntryViolationB limits entries raw = true
    · constructor
      · intro _; exact ⟨raw, List.mem_cons_self _ _, hv⟩
      · intro _; exact plan_zip_loop_cons_violation rest acc hv
    · have hv' : zipEntryViolationB limits entries raw = false := by simpa using hv
      have hiff :
          (∃ r ∈ raw :: rest, zipEntryViolationB limits entries r = true) ↔
            ∃ r ∈ rest, zipEntryViolationB limits entries r = true := by
        constructor
        · rintro ⟨r, hr, hrv⟩
          rcases List.mem_cons.mp hr with h1 | h1
          · subst h1; exact absurd hrv hv
          · exact ⟨r, h1, hrv⟩
        · rintro ⟨r, hr, hrv⟩
          exact ⟨r, List.mem_cons_of_mem _ hr, hrv⟩
      by_cases hc : zipCountsEntry entries raw = true
      · rw [plan_zip_loop_cons_count rest acc hv' hc,
          plan_zip_loop_err_iff limits entries rest _]
        exact hiff.symm
      · have hc' : zipCountsEntry entries raw = false := by simpa using hc
        rw [plan_zip_loop_cons_skip rest acc hv' hc',
          plan_zip_loop_err_iff limits entries rest _]
        exact hiff.symm

theorem plan_zip_loop_ok_val (limits : ArchiveExtractionLimits)
    (entries : List ZipEntry) :
    ∀ (selected : List Str) (acc : PlanAcc),
      (∀ raw ∈ selected, zipEntryViolationB limits entries raw = false) →
      plan_zip_loop limits entries selected acc =
        .ok { total_files := acc.total_files + zipSelectedFiles entries selected
              total_bytes := acc.total_bytes + zipSelectedBytes entries selected
              normalized_paths :=
                acc.normalized_paths ++ zipSelectedPaths entries selected }
  | [], acc, _ => by
    simp [plan_zip_loop, zipSelectedFiles, zipSelectedBytes, zipSelectedPaths]
  | raw :: rest, acc, h => by
    have hv := h raw (List.mem_cons_self _ _)
    have hrest : ∀ r ∈ rest, zipEntryViolationB limits entries r = false :=
      fun r hr => h r (List.mem_cons_of_mem _ hr)
    by_cases hc : zipCountsEntry entries raw = true
    · rw [plan_zip_loop_cons_count rest acc hv hc,
        plan_zip_loop_ok_val limits entries rest _ hrest]
      apply congrArg
      unfold zipSelectedFiles zipSelectedBytes zipSelectedPaths
      rw [List.filter_cons, if_pos hc]
      simp only [List.length_cons, List.map_cons, List.sum_cons,
        List.cons_append, List.append_assoc, List.singleton_append,
        PlanAcc.mk.injEq]
      refine ⟨by omega, by omega, rfl⟩
    · have hc' : zipCountsEntry entries raw = false := by simpa using hc
      rw [plan_zip_loop_cons_skip rest acc hv hc',
        plan_zip_loop_ok_val limits entries rest _ hrest]
      apply congrArg
      unfold zipSelectedFiles zipSelectedBytes zipSelectedPaths
      rw [List.filter_cons, if_neg (by simp [hc'])]

/-- Normalized paths collected by the tar planner. -/
def tarSelectedPaths (selected : List Str) (members : List TarMember) : List Str :=
  (members.filter (fun m => decide (m.name ∈ selected))).map
    (fun m => zipRawNormalized m.name)

theorem plan_tar_loop_cons_unselected {limits : ArchiveExtractionLimits}
    {selected : List Str} {m : TarMember} (rest : List TarMember) (acc : PlanAcc)
    (h : ¬ m.name ∈ selected) :
    plan_tar_loop limits selected (m :: rest) acc =
      plan_tar_loop limits selected rest acc := by
  conv_lhs => rw [plan_tar_loop.eq_def]
  simp only []
  rw [if_pos h]

theorem plan_tar_loop_cons_violation {limits : ArchiveExtractionLimits}
    {selected : List Str} {m : TarMember} (rest : List TarMember) (acc : PlanAcc)
    (h : tarMemberViolationB limits selected m = true) :
    isErr (plan_tar_loop limits selected (m :: rest) acc) = true := by
  unfold tarMemberViolationB at h
  simp only [Bool.and_eq_true, decide_eq_true_eq] at h
  obtain ⟨hmem, h⟩ := h
  conv_lhs => rw [plan_tar_loop.eq_def]
  simp only []
  rw [if_neg (by simpa using hmem)]
  cases hn : normalize_archive_path m.name with
  | error e => rfl
  | ok n =>
    rw [hn] at h
    simp only [] at h ⊢
    by_cases hlen : n.normalized.length > limits.max_path_length
    · rw [if_pos hlen]; rfl
    · rw [if_neg hlen]
      by_cases hdep : n.depth > limits.max_depth
      · rw [if_pos hdep]; rfl
      · rw [if_neg hdep]
        rw [if_pos (show m.size > limits.max_file_size by
          simpa [hlen, hdep] using h)]
        rfl

theorem plan_tar_loop_cons_count {limits : ArchiveExtractionLimits}
    {selected : List Str} {m : TarMember} (rest : List TarMember) (acc : PlanAcc)
    (hmem : m.name ∈ selected)
    (hv : tarMemberViolationB limits selected m = false) :
    plan_tar_loop limits selected (m :: rest) acc =
      plan_tar_loop limits selected rest
        { total_files := acc.total_files + 1
          total_bytes := acc.total_bytes + m.size
          normalized_paths := acc.normalized_paths ++ [zipRawNormalized m.name] } := by
  unfold tarMemberViolationB at hv
  simp only [Bool.and_eq_false_iff, decide_eq_false_iff_not] at hv
  rcases hv with hv | hv
  · exact absurd hmem hv
  · cases hn : normalize_archive_path m.name with
    | error e => rw [hn] at hv; exact absurd hv (by simp)
    | ok n =>
      rw [hn] at hv
      simp only [] at hv
      have hnrm : zipRawNormalized m.name = n.normalized := by
        unfold zipRawNormalized; rw [hn]
      conv_lhs => rw [plan_tar_loop.eq_def]
      simp only []
      rw [if_neg (by simpa using hmem), hn]
      simp only []
      rw [if_neg (show ¬ n.normalized.length > limits.max_path_length by
          intro hc; simp [hc] at hv),
        if_neg (show ¬ n.depth > limits.max_depth by
          intro hc; simp [hc] at hv),
        if_neg (show ¬ m.size > limits.max_file_size by
          intro hc; simp [hc] at hv),
        hnrm]

theorem plan_tar_loop_err_iff (limits : ArchiveExtractionLimits)
    (selected : List Str) :
    ∀ (members : List TarMember) (acc : PlanAcc),
      isErr (plan_tar_loop limits selected members acc) = true ↔
        ∃ m ∈ members, tarMemberViolationB limits selected m = true
  | [], acc => by simp [plan_tar_loop, isErr]
  | m :: rest, acc => by
    by_cases hv : tarMemberViolationB limits selected m = true
    · constructor
      · intro _; exact ⟨m, List.mem_cons_self _ _, hv⟩
      · intro _; exact plan_tar_loop_cons_violation rest acc hv
    · have hv' : tarMemberViolationB limits selected m = false := by simpa using hv
      have hiff :
          (∃ x ∈ m :: rest, tarMemberViolationB limits selected x = true) ↔
            ∃ x ∈ rest, tarMemberViolationB limits selected x = true := by
        constructor
        · rintro ⟨x, hx, hxv⟩
          rcases List.mem_cons.mp hx with h1 | h1
          · subst h1; exact absurd hxv hv
          · exact ⟨x, h1, hxv⟩
        · rintro ⟨x, hx, hxv⟩
          exact ⟨x, List.mem_cons_of_mem _ hx, hxv⟩
      by_cases hmem : m.name ∈ selected
      · rw [plan_tar_loop_cons_count rest acc hmem hv',
          plan_tar_loop_err_iff limits selected rest _]
        exact hiff.symm
      · rw [plan_tar_loop_cons_unselected rest acc hmem,
          plan_tar_loop_err_iff limits selected rest _]
        exact hiff.symm

theorem plan_tar_loop_ok_val (limits : ArchiveExtractionLimits)
    (selected : List Str) :
    ∀ (members : List TarMember) (acc : PlanAcc),
      (∀ m ∈ members, tarMemberViolationB limits selected m = false) →
      plan_tar_loop limits selected members acc =
        .ok { total_files := acc.total_files + tarSelectedFiles selected members
              total_bytes := acc.total_bytes + tarSelectedBytes selected members
              normalized_paths :=
                acc.normalized_paths ++ tarSelectedPaths selected members }
  | [], acc, _ => by
    simp [plan_tar_loop, tarSelectedFiles, tarSelectedBytes, tarSelectedPaths]
  | m :: rest, acc, h => by
    have hv := h m (List.mem_cons_self _ _)
    have hrest : ∀ x ∈ rest, tarMemberViolationB limits selected x = false :=
      fun x hx => h x (List.mem_cons_of_mem _ hx)
    by_cases hmem : m.name ∈ selected
    · rw [plan_tar_loop_cons_count rest acc hmem hv,
        plan_tar_loop_ok_val limits selected rest _ hrest]
      apply congrArg
      unfold tarSelectedFiles tarSelectedBytes tarSelectedPaths
      rw [List.filter_cons, if_pos (by simpa using hmem)]
      simp only [List.length_cons, List.map_cons, List.sum_cons,
        List.cons_append, List.append_assoc, List.singleton_append,
        PlanAcc.mk.injEq]
      refine ⟨by omega, by omega, rfl⟩
    · rw [plan_tar_loop_cons_unselected rest acc hmem,
        plan_tar_loop_ok_val limits selected rest _ hrest]
      apply congrArg
      unfold tarSelectedFiles tarSelectedBytes tarSelectedPaths
      rw [List.filter_cons, if_neg (by simpa using hmem)]

/-- `plan_tar` fails exactly when some selected regular-file member violates
a per-entry check or the selected totals exceed the aggregate limits. -/
theorem plan_tar_err_iff (limits : ArchiveExtractionLimits)
    (members0 : List TarMember) (mode : ArchiveMode) (selection : List Str)
    (selected : List Str)
    (hsel : filter_paths ((tarFileMembers members0).map (·.name)) mode selection
      = .ok selected) :
    isErr (plan_tar limits members0 mode selection) = true ↔
      ((∃ m ∈ tarFileMembers members0,
          tarMemberViolationB limits selected m = true) ∨
        tarSelectedFiles selected (tarFileMembers members0) > limits.max_files ∨
        tarSelectedBytes selected (tarFileMembers members0) >
          limits.max_total_size) := by
  unfold plan_tar
  simp only []
  rw [hsel, bindOk]
  by_cases hex : ∃ m ∈ tarFileMembers members0,
      tarMemberViolationB limits selected m = true
  · cases hloop : plan_tar_loop limits selected (tarFileMembers members0)
        ⟨0, 0, []⟩ with
    | error e => simp [bindErr, isErr, hex]
    | ok acc =>
      exfalso
      have := (plan_tar_loop_err_iff limits selected
        (tarFileMembers members0) ⟨0, 0, []⟩).mpr hex
      rw [hloop] at this
      exact absurd this (by simp [isErr])
  · have hnov : ∀ m ∈ tarFileMembers members0,
        tarMemberViolationB limits selected m = false := by
      intro x hx
      by_contra hcon
      exact hex ⟨x, hx, by simpa using hcon⟩
    rw [plan_tar_loop_ok_val limits selected (tarFileMembers members0)
      ⟨0, 0, []⟩ hnov, bindOk]
    simp only [Nat.zero_add, List.nil_append]
    by_cases hfiles : tarSelectedFiles selected (tarFileMembers members0) >
        limits.max_files
    · rw [if_pos hfiles]
      simp [isErr, hfiles]
    · rw [if_neg hfiles]
      by_cases hbytes : tarSelectedBytes selected (tarFileMembers members0) >
          limits.max_total_size
      · rw [if_pos hbytes]
        simp [isErr, hbytes]
      · rw [if_neg hbytes]
        simp [isErr, hex, hfiles, hbytes]

/-- `plan_zip` in non-strict mode fails exactly when some selected raw name
violates a per-entry check or the selected totals exceed the aggregate
limits. -/
theorem plan_zip_err_iff (limits : ArchiveExtractionLimits)
    (entries : List ZipEntry) (mode : ArchiveMode) (selection : List Str)
    (selected : List Str)
    (hsel : filter_paths (zipAllPaths entries) mode selection = .ok selected) :
    isErr (plan_zip false limits entries mode selection) = true ↔
      ((∃ raw ∈ selected, zipEntryViolationB limits entries raw = true) ∨
        zipSelectedFiles entries selected > limits.max_files ∨
        zipSelectedBytes entries selected > limits.max_total_size) := by
  unfold plan_zip
  rw [if_neg (by simp)]
  rw [hsel, bindOk]
  by_cases hex : ∃ raw ∈ selected, zipEntryViolationB limits entries raw = true
  · cases hloop : plan_zip_loop limits entries selected ⟨0, 0, []⟩ with
    | error e => simp [bindErr, isErr, hex]
    | ok acc =>
      exfalso
      have := (plan_zip_loop_err_iff limits entries selected ⟨0, 0, []⟩).mpr hex
      rw [hloop] at this
      exact absurd this (by simp [isErr])
  · have hnov : ∀ raw ∈ selected, zipEntryViolationB limits entries raw = false := by
      intro r hr
      by_contra hcon
      exact hex ⟨r, hr, by simpa using hcon⟩
    rw [plan_zip_loop_ok_val limits entries selected ⟨0, 0, []⟩ hnov, bindOk]
    simp only [Nat.zero_add, List.nil_append]
    by_cases hfiles : zipSelectedFiles entries selected > limits.max_files
    · rw [if_pos hfiles]
      simp [isErr, hfiles]
    · rw [if_neg hfiles]
      by_cases hbytes : zipSelectedBytes entries selected > limits.max_total_size
      · rw [if_pos hbytes]
        simp [isErr, hbytes]
      · rw [if_neg hbytes]
        simp [isErr, hex, hfiles, hbytes]

/-- The filter predicate of `_filter_paths` in `mode=selection`. -/
def selectionPred (m : SelectionMatchers) (p : Str) : Bool :=
  match normalize_archive_path p with
  | .error _ => false
  | .ok n => matchesSelection m n.normalized

theorem filter_paths_selection_eq (paths : List Str) (selection : List Str)
    (m : SelectionMatchers) (hm : selection_matchers selection = .ok m) :
    filter_paths paths .selection selection =
      .ok (paths.filter (selectionPred m)) := by
  unfold filter_paths
  rw [hm, bindOk]
  rfl

theorem getinfo_append_ne {l1 l2 : List ZipEntry} {e : ZipEntry} {raw : Str}
    (hne : e.filename ≠ raw) :
    getinfo (l1 ++ e :: l2) raw = getinfo (l1 ++ l2) raw := by
  unfold getinfo
  rw [List.reverse_append, List.reverse_cons, List.reverse_append]
  rw [List.find?_append, List.find?_append, List.find?_append]
  have : List.find? (fun x => decide (x.filename = raw)) [e] = none := by
    simp [List.find?, hne]
  rw [this]
  cases List.find? (fun x => decide (x.filename = raw)) l2.reverse <;> rfl

/-- The zip planning loop depends on the container only through
`getinfo` lookups of the selected names. -/
theorem plan_zip_loop_congr (limits : ArchiveExtractionLimits)
    {entries entries' : List ZipEntry} :
    ∀ (selected : List Str) (acc : PlanAcc),
      (∀ raw ∈ selected, getinfo entries raw = getinfo entries' raw) →
      plan_zip_loop limits entries selected acc =
        plan_zip_loop limits entries' selected acc
  | [], acc, _ => rfl
  | raw :: rest, acc, h => by
    have hhead := h raw (List.mem_cons_self _ _)
    have hrest : ∀ r ∈ rest, getinfo entries r = getinfo entries' r :=
      fun r hr => h r (List.mem_cons_of_mem _ hr)
    rw [plan_zip_loop.eq_def]
    conv_rhs => rw [plan_zip_loop.eq_def]
    simp only []
    cases hn : normalize_archive_path raw with
    | error e => rfl
    | ok n =>
      simp only []
      by_cases hlen : n.normalized.length > limits.max_path_length
      · rw [if_pos hlen, if_pos hlen]
      · rw [if_neg hlen, if_neg hlen]
        by_cases hdep : n.depth > limits.max_depth
        · rw [if_pos hdep, if_pos hdep]
        · rw [if_neg hdep, if_neg hdep, hhead]
          cases hg : getinfo entries' raw with
          | none => rfl
          | some info =>
            simp only []
            by_cases hsym : zipinfo_is_symlink info = true
            · rw [if_pos hsym, if_pos hsym]
              exact plan_zip_loop_congr limits rest acc hrest
            · rw [if_neg hsym, if_neg hsym]
              by_cases hbig : info.file_size > limits.max_file_size
              · rw [if_pos hbig, if_pos hbig]
              · rw [if_neg hbig, if_neg hbig]
                by_cases hratio : info.file_size > 0 ∧ info.compress_size > 0 ∧
                    info.file_size >
                      limits.max_compression_ratio * info.compress_size
                · rw [if_pos hratio, if_pos hratio]
                · rw [if_neg hratio, if_neg hratio]
                  exact plan_zip_loop_congr limits rest _ hrest

/-- Removing a zip entry that the selection does not match (or whose name
fails normalization) leaves the non-strict `mode=selection` plan unchanged. -/
theorem plan_zip_unselected_invariant (limits : ArchiveExtractionLimits)
    (l1 l2 : List ZipEntry) (e : ZipEntry) (selection : List Str)
    (m : SelectionMatchers)
    (hm : selection_matchers selection = .ok m)
    (hnm : ∀ n, normalize_archive_path e.filename = .ok n →
      matchesSelection m n.normalized = false) :
    plan_zip false limits (l1 ++ e :: l2) .selection selection =
      plan_zip false limits (l1 ++ l2) .selection selection := by
  have hpred : selectionPred m e.filename = false := by
    unfold selectionPred
    cases hn : normalize_archive_path e.filename with
    | error er => rfl
    | ok n => simp only []; exact hnm n hn
  have hfilter_eq :
      (zipAllPaths (l1 ++ e :: l2)).filter (selectionPred m) =
        (zipAllPaths (l1 ++ l2)).filter (selectionPred m) := by
    unfold zipAllPaths
    rw [List.filter_append, List.filter_append, List.filter_cons]
    by_cases hk : (!e.isDirEntry && !zipinfo_is_symlink e) = true
    · rw [if_pos hk]
      simp only [List.map_append, List.map_cons, List.filter_append,
        List.filter_cons, hpred, Bool.false_eq_true, if_false]
    · rw [if_neg hk]
  set S := (zipAllPaths (l1 ++ l2)).filter (selectionPred m) with hSdef
  have hS1 : filter_paths (zipAllPaths (l1 ++ e :: l2)) .selection selection =
      .ok S := by
    rw [filter_paths_selection_eq _ _ m hm, hfilter_eq]
  have hS2 : filter_paths (zipAllPaths (l1 ++ l2)) .selection selection =
      .ok S := filter_paths_selection_eq _ _ m hm
  have hloop : plan_zip_loop limits (l1 ++ e :: l2) S ⟨0, 0, []⟩ =
      plan_zip_loop limits (l1 ++ l2) S ⟨0, 0, []⟩ := by
    apply plan_zip_loop_congr
    intro raw hraw
    apply getinfo_append_ne
    intro hEq
    have hmem : raw ∈ S := hraw
    have := List.of_mem_filter (hSdef ▸ hmem)
    rw [hEq] at hpred
    rw [hpred] at this
    exact absurd this (by simp)
  unfold plan_zip
  rw [if_neg (by simp), if_neg (by simp)]
  rw [hS1, hS2, bindOk, bindOk, hloop]

/-- One tar-loop pass over a member whose name is not selected is a no-op,
anywhere in the member list. -/
theorem plan_tar_loop_remove_unselected (limits : ArchiveExtractionLimits)
    (S : List Str) (x : TarMember) (hx : ¬ x.name ∈ S) :
    ∀ (A B : List TarMember) (acc : PlanAcc),
      plan_tar_loop limits S (A ++ x :: B) acc =
        plan_tar_loop limits S (A ++ B) acc
  | [], B, acc => plan_tar_loop_cons_unselected B acc hx
  | a :: A', B, acc => by
    rw [List.cons_append, List.cons_append]
    rw [plan_tar_loop.eq_def]
    conv_rhs => rw [plan_tar_loop.eq_def]
    simp only []
    by_cases hmem : a.name ∈ S
    · rw [if_neg (by simpa using hmem), if_neg (by simpa using hmem)]
      cases hn : normalize_archive_path a.name with
      | error er => rfl
      | ok n =>
        simp only []
        by_cases hlen : n.normalized.length > limits.max_path_length
        · rw [if_pos hlen, if_pos hlen]
        · rw [if_neg hlen, if_neg hlen]
          by_cases hdep : n.depth > limits.max_depth
          · rw [if_pos hdep, if_pos hdep]
          · rw [if_neg hdep, if_neg hdep]
            by_cases hbig : a.size > limits.max_file_size
            · rw [if_pos hbig, if_pos hbig]
            · rw [if_neg hbig, if_neg hbig]
              exact plan_tar_loop_remove_unselected limits S x hx A' B _
    · rw [if_pos hmem, if_pos hmem]
      exact plan_tar_loop_remove_unselected limits S x hx A' B acc

/-- Removing a tar member that the selection does not match leaves the
`mode=selection` tar plan unchanged. -/
theorem plan_tar_unselected_invariant (limits : ArchiveExtractionLimits)
    (l1 l2 : List TarMember) (t : TarMember) (selection : List Str)
    (m : SelectionMatchers)
    (hm : selection_matchers selection = .ok m)
    (hnm : ∀ n, normalize_archive_path t.name = .ok n →
      matchesSelection m n.normalized = false) :
    plan_tar limits (l1 ++ t :: l2) .selection selection =
      plan_tar limits (l1 ++ l2) .selection selection := by
  have hpred : selectionPred m t.name = false := by
    unfold selectionPred
    cases hn : normalize_archive_path t.name with
    | error er => rfl
    | ok n => simp only []; exact hnm n hn
  have hmem_split : tarFileMembers (l1 ++ t :: l2) =
      tarFileMembers l1 ++ (if t.isfile then [t] else []) ++ tarFileMembers l2 := by
    unfold tarFileMembers
    rw [List.filter_append, List.filter_cons]
    by_cases ht : t.isfile
    · rw [if_pos (by simpa using ht), if_pos ht]
      simp
    · rw [if_neg (by simpa using ht), if_neg ht]
      simp
  have hmem_split' : tarFileMembers (l1 ++ l2) =
      tarFileMembers l1 ++ tarFileMembers l2 := by
    unfold tarFileMembers
    rw [List.filter_append]
  have hfilter_eq :
      ((tarFileMembers (l1 ++ t :: l2)).map (·.name)).filter (selectionPred m) =
        ((tarFileMembers (l1 ++ l2)).map (·.name)).filter (selectionPred m) := by
    rw [hmem_split, hmem_split']
    by_cases ht : t.isfile
    · rw [if_pos ht]
      simp only [List.map_append, List.filter_append, List.map_cons,
        List.map_nil, List.filter_cons, hpred, Bool.false_eq_true, if_false,
        List.filter_nil]
      simp
    · rw [if_neg ht]
      simp
  set S := ((tarFileMembers (l1 ++ l2)).map (·.name)).filter (selectionPred m)
    with hSdef
  have hS1 : filter_paths ((tarFileMembers (l1 ++ t :: l2)).map (·.name))
      .selection selection = .ok S := by
    rw [filter_paths_selection_eq _ _ m hm, hfilter_eq]
  have hS2 : filter_paths ((tarFileMembers (l1 ++ l2)).map (·.name))
      .selection selection = .ok S := filter_paths_selection_eq _ _ m hm
  have htS : ¬ t.name ∈ S := by
    intro hmem
    have := List.of_mem_filter (hSdef ▸ hmem)
    rw [hpred] at this
    exact absurd this (by simp)
  have hloop : plan_tar_loop limits S (tarFileMembers (l1 ++ t :: l2)) ⟨0, 0, []⟩ =
      plan_tar_loop limits S (tarFileMembers (l1 ++ l2)) ⟨0, 0, []⟩ := by
    rw [hmem_split, hmem_split']
    by_cases ht : t.isfile
    · rw [if_pos ht]
      have := plan_tar_loop_remove_unselected limits S t htS
        (tarFileMembers l1) (tarFileMembers l2) ⟨0, 0, []⟩
      simpa using this
    · rw [if_neg ht]
      simp
  unfold plan_tar
  simp only []
  rw [hS1, hS2, bindOk, bindOk, hloop]

/-- `plan_zip` in non-strict mode, when every selected entry passes the
per-entry checks and the totals fit, returns exactly the selected normalized
paths and totals. -/
theorem plan_zip_ok_val (limits : ArchiveExtractionLimits)
    (entries : List ZipEntry) (mode : ArchiveMode) (selection : List Str)
    (selected : List Str)
    (hsel : filter_paths (zipAllPaths entries) mode selection = .ok selected)
    (hnov : ∀ raw ∈ selected, zipEntryViolationB limits entries raw = false)
    (hfiles : ¬ zipSelectedFiles entries selected > limits.max_files)
    (hbytes : ¬ zipSelectedBytes entries selected > limits.max_total_size) :
    plan_zip false limits entries mode selection =
      .ok { paths := zipSelectedPaths entries selected
            total_files := zipSelectedFiles entries selected
            total_bytes := zipSelectedBytes entries selected } := by
  unfold plan_zip
  rw [if_neg (by simp), hsel, bindOk,
    plan_zip_loop_ok_val limits entries selected ⟨0, 0, []⟩ hnov, bindOk]
  simp only [Nat.zero_add, List.nil_append]
  rw [if_neg hfiles, if_neg hbytes]

/-! ## The tree store and the extraction engine (`extract.py` lines 235-703)

The Django tree store is embedded as an explicit `Drive` state: the item
table (in creation order, which stands in for the default manager ordering
that `.first()` uses), an id counter, and the blob storage keyed by
`file_key` (embedded as the item id).  Engine mutations thread this state. -/

inductive ItemType
  | file
  | folder
  deriving DecidableEq, Repr

inductive UploadState
  | pending
  | ready
  | suspicious
  deriving DecidableEq, Repr

/-- A tree-store item (`models.Item`), with the fields the archive engines
read or write.  `path` is the materialized ltree path (ancestor ids ending
in the item's own id); `retrievable` embeds
`item.get_abilities(user)["retrieve"]` for the acting user. -/
structure Item where
  id : Nat
  path : List Nat
  type : ItemType
  title : Str
  filename : Option Str
  mimetype : Option Str
  size : Option Nat
  upload_state : UploadState
  deleted : Bool
  retrievable : Bool
  deriving DecidableEq, Repr

structure Drive where
  items : List Item
  nextId : Nat
  storage : List (Nat × Bytes)
  deriving DecidableEq, Repr

def storageSet : List (Nat × Bytes) → Nat → Bytes → List (Nat × Bytes)
  | [], k, v => [(k, v)]
  | (k', v') :: rest, k, v =>
    if k' = k then (k, v) :: rest else (k', v') :: storageSet rest k v

def storageGet (st : List (Nat × Bytes)) (k : Nat) : Option Bytes :=
  (st.find? (fun p => decide (p.1 = k))).map (·.2)

/-- Direct (one-level) child relation through materialized paths. -/
def isChildOf (parent : Item) (i : Item) : Bool :=
  decide (i.path.length = parent.path.length + 1) &&
    decide (parent.path <+: i.path)

/-- `_get_existing_child` (`extract.py` lines 285-297): first non-deleted
direct child with the given title, any type. -/
def get_existing_child (d : Drive) (parent : Item) (title : Str) : Option Item :=
  d.items.find? (fun i =>
    isChildOf parent i && decide (i.title = title) && !i.deleted)

/-- `Item.objects.create_child`: a fresh item appended to the table. -/
def create_child (d : Drive) (parent : Item) (ty : ItemType) (title : Str)
    (filename : Option Str) (mimetype : Option Str) : Item × Drive :=
  let it : Item :=
    { id := d.nextId, path := parent.path ++ [d.nextId], type := ty
      title := title, filename := filename, mimetype := mimetype
      size := none, upload_state := .pending, deleted := false
      retrievable := true }
  (it, { d with items := d.items ++ [it], nextId := d.nextId + 1 })

/-- Replace the item with the given id (a `save(update_fields=...)`). -/
def updateItem (d : Drive) (itemId : Nat) (f : Item → Item) : Drive :=
  { d with items := d.items.map (fun i => if i.id = itemId then f i else i) }

abbrev FolderCache := List ((Nat × Str) × Item)

def cacheGet (c : FolderCache) (k : Nat × Str) : Option Item :=
  (c.find? (fun p => decide (p.1 = k))).map (·.2)

/-- `_get_or_create_folder_child` (`extract.py` lines 235-265): consult the
per-job cache, else reuse an existing non-deleted folder child with the
title, else create one. -/
def get_or_create_folder_child (d : Drive) (cache : FolderCache)
    (parent : Item) (title : Str) : Item × Drive × FolderCache :=
  match cacheGet cache (parent.id, title) with
  | some it => (it, d, cache)
  | none =>
    match d.items.find? (fun i =>
        isChildOf parent i && decide (i.type = ItemType.folder) &&
          decide (i.title = title) && !i.deleted) with
    | some existing => (existing, d, ((parent.id, title), existing) :: cache)
    | none =>
      let (folder, d') := create_child d parent .folder title none none
      (folder, d', ((parent.id, title), folder) :: cache)

/-! ### Job status payloads (the status-cache wire contract) -/

structure Progress where
  files_done : Nat
  total : Nat
  bytes_done : Nat
  bytes_total : Nat
  deriving DecidableEq, Repr

inductive JobState
  | queued
  | running
  | done
  | failed
  | unknown
  deriving DecidableEq, Repr

structure JobStatus where
  state : JobState
  progress : Progress
  skipped_symlinks_count : Nat
  skipped_unsafe_paths_count : Nat
  errors : List Str
  deriving DecidableEq, Repr

/-- Engine errors, one per `raise` site reachable from
`extract_archive_to_drive`. -/
inductive ExtractError
  | destinationNotFolder
  | archiveNotFile
  | unsupportedFormat
  | planError (e : PlanError)
  | cannotOverwriteFileWithFolder
  | cannotOverwriteFolderWithFile
  | existingFileHasNoFilename
  deriving DecidableEq, Repr

/-- The per-job mutable engine state: the drive, the folder cache, the
running counters, and every status payload published so far (each
`set_archive_extraction_job_status` call appends one). -/
structure EngineSt where
  drive : Drive
  folderCache : FolderCache
  files_done : Nat
  bytes_done : Nat
  skipped_symlinks_count : Nat
  skipped_unsafe_paths_count : Nat
  statusLog : List JobStatus
  deriving DecidableEq, Repr

def runningStatus (st : EngineSt) (total_files total_bytes : Nat) : JobStatus :=
  { state := .running
    progress := { files_done := st.files_done, total := total_files
                  bytes_done := st.bytes_done, bytes_total := total_bytes }
    skipped_symlinks_count := st.skipped_symlinks_count
    skipped_unsafe_paths_count := st.skipped_unsafe_paths_count
    errors := [] }

/-- `update_progress` (`extract.py` lines 398-414). -/
def update_progress (st : EngineSt) (total_files total_bytes : Nat) : EngineSt :=
  { st with statusLog := st.statusLog ++ [runningStatus st total_files total_bytes] }

/-- Advance counters for one finished entry (written, skipped or collided)
and publish progress: `files_done += 1; bytes_done += size; update_progress`. -/
def progressedEntry (st : EngineSt) (size : Nat) (total_files total_bytes : Nat) :
    EngineSt :=
  update_progress
    { st with files_done := st.files_done + 1, bytes_done := st.bytes_done + size }
    total_files total_bytes

inductive WalkOutcome
  | proceed (parent : Item)
  | skipEntry
  | fatal
  deriving Repr

/-- The parent-segment walk of the extraction loop (`extract.py` lines
439-459): reuse/create folder children, applying the collision policy when
an existing same-titled child is not a folder.  `fatal` is the
`Cannot overwrite a file with a folder.` raise under `overwrite`. -/
def walkParents (policy : CollisionPolicy) :
    List Str → EngineSt → Item → EngineSt × WalkOutcome
  | [], st, parent => (st, .proceed parent)
  | part :: rest, st, parent =>
    match get_existing_child st.drive parent part with
    | some existing =>
      if existing.type = ItemType.folder then
        let g := get_or_create_folder_child st.drive st.folderCache parent part
        walkParents policy rest
          { st with drive := g.2.1, folderCache := g.2.2 } g.1
      else
        if policy = CollisionPolicy.rename then
          let g :=
            get_or_create_folder_child st.drive st.folderCache parent part
          walkParents policy rest
            { st with drive := g.2.1, folderCache := g.2.2 } g.1
        else if policy = CollisionPolicy.skip then (st, .skipEntry)
        else (st, .fatal)
    | none =>
      let g := get_or_create_folder_child st.drive st.folderCache parent part
      walkParents policy rest
        { st with drive := g.2.1, folderCache := g.2.2 } g.1

/-- `_guess_mimetype` wraps Python's `mimetypes` table; none of the engine's
control flow depends on the guessed value, so it is embedded as the
octet-stream fallback. -/
def guess_mimetype (_filename : Str) : Str :=
  strOf "application/octet-stream"

/-- Create a new file node and stream the entry into its storage key, then
mark it ready (`extract.py` lines 515-542, the per-file transaction). -/
def createNewFile (st : EngineSt) (parent : Item) (filename : Str)
    (mimetype : Str) (info : ZipEntry) (total_files total_bytes : Nat) :
    EngineSt :=
  let (item, d1) := create_child st.drive parent .file filename
    (some filename) (some mimetype)
  let d2 := { d1 with storage := storageSet d1.storage item.id info.content }
  let d3 := updateItem d2 item.id (fun it =>
    { it with upload_state := .ready, size := some info.file_size })
  progressedEntry { st with drive := d3 } info.file_size total_files total_bytes

/-- Stream into an existing node's storage key and refresh its metadata
(`extract.py` lines 490-513, the `overwrite` branch). -/
def overwriteFile (st : EngineSt) (ex : Item) (mimetype : Str)
    (info : ZipEntry) (total_files total_bytes : Nat) :
    EngineSt × Option ExtractError :=
  if ex.filename = none ∨ ex.filename = some [] then
    (st, some .existingFileHasNoFilename)
  else
    let d1 := { st.drive with
      storage := storageSet st.drive.storage ex.id info.content }
    let d2 := updateItem d1 ex.id (fun it =>
      { it with
          upload_state := .ready
          mimetype := some mimetype
          size := some info.file_size })
    (progressedEntry { st with drive := d2 } info.file_size
      total_files total_bytes, none)

/-- One pass of the zip extraction loop over a single entry (`extract.py`
lines 422-542).  Returns the updated state and the fatal error, if any
(state mutations made before a raise persist, as in the source). -/
def processZipEntry (policy : CollisionPolicy) (plan : ExtractionPlan)
    (destination : Item) (info : ZipEntry) (st : EngineSt) :
    EngineSt × Option ExtractError :=
  if info.isDirEntry then (st, none)
  else if zipinfo_is_symlink info then
    ({ st with skipped_symlinks_count := st.skipped_symlinks_count + 1 }, none)
  else
    match normalize_archive_path info.filename with
    | .error _ =>
      ({ st with
        skipped_unsafe_paths_count := st.skipped_unsafe_paths_count + 1 }, none)
    | .ok n0 =>
      if n0.normalized ∈ plan.paths then
        match normalize_archive_path n0.normalized with
        | .error e => (st, some (.planError (.unsafePath e)))
        | .ok npath =>
          match walkParents policy npath.parent_parts st destination with
          | (st1, .fatal) => (st1, some .cannotOverwriteFileWithFolder)
          | (st1, .skipEntry) =>
            (progressedEntry st1 info.file_size plan.total_files
              plan.total_bytes, none)
          | (st1, .proceed parent_folder) =>
            let filename := npath.name
            let mimetype := guess_mimetype filename
            match get_existing_child st1.drive parent_folder filename with
            | some ex =>
              if ex.type = ItemType.file then
                match policy with
                | .skip =>
                  (progressedEntry st1 info.file_size plan.total_files
                    plan.total_bytes, none)
                | .overwrite =>
                  overwriteFile st1 ex mimetype info plan.total_files
                    plan.total_bytes
                | .rename =>
                  (createNewFile st1 parent_folder filename mimetype info
                    plan.total_files plan.total_bytes, none)
              else
                match policy with
                | .skip =>
                  (progressedEntry st1 info.file_size plan.total_files
                    plan.total_bytes, none)
                | .rename =>
                  (createNewFile st1 parent_folder filename mimetype info
                    plan.total_files plan.total_bytes, none)
                | .overwrite => (st1, some .cannotOverwriteFolderWithFile)
            | none =>
              (createNewFile st1 parent_folder filename mimetype info
                plan.total_files plan.total_bytes, none)
      else (st, none)

/-- The `for info in zf.infolist()` loop. -/
def extractZipEntries (policy : CollisionPolicy) (plan : ExtractionPlan)
    (destination : Item) :
    List ZipEntry → EngineSt → EngineSt × Option ExtractError
  | [], st => (st, none)
  | info :: rest, st =>
    match processZipEntry policy plan destination info st with
    | (st', none) => extractZipEntries policy plan destination rest st'
    | (st', some e) => (st', some e)

/-! ### Filename classification and root-folder naming -/

def lowerStr (s : Str) : Str := s.map Char.toLower

def endsWith (suf s : Str) : Bool := decide (suf <:+ s)

/-- `_is_zip_filename` (`extract.py` lines 101-103). -/
def is_zip_filename (f : Str) : Bool := endsWith (strOf ".zip") (lowerStr f)

/-- `_is_tar_filename` (`extract.py` lines 87-98). -/
def is_tar_filename (f : Str) : Bool :=
  let l := lowerStr f
  endsWith (strOf ".tar") l || endsWith (strOf ".tar.gz") l ||
  endsWith (strOf ".tgz") l || endsWith (strOf ".tar.bz2") l ||
  endsWith (strOf ".tbz") l || endsWith (strOf ".tar.xz") l ||
  endsWith (strOf ".txz") l

/-- `is_supported_archive_for_server_extraction` (`extract.py` lines
106-110). -/
def is_supported_archive (it : Item) : Bool :=
  decide (it.type = ItemType.file) &&
    (match it.filename with
     | none => false
     | some f =>
       if f = [] then false else is_zip_filename f || is_tar_filename f)

def stripWS (s : Str) : Str :=
  ((s.dropWhile Char.isWhitespace).reverse.dropWhile Char.isWhitespace).reverse

def replaceSlashesWithUnderscore (s : Str) : Str :=
  s.map (fun c => if c = '/' ∨ c = '\\' then '_' else c)

/-- Index of the last `.`, if any. -/
def lastDotIndex (s : Str) : Option Nat :=
  let k := (s.reverse.takeWhile (fun c => !(decide (c = '.')))).length
  if k = s.length then none else some (s.length - 1 - k)

/-- `os.path.splitext(s)[0]` for a separator-free name: cut at the last dot
unless every character before it is a dot. -/
def splitextBase (s : Str) : Str :=
  match lastDotIndex s with
  | none => s
  | some i => if (s.take i).all (fun c => decide (c = '.')) then s else s.take i

/-- `_default_root_folder_title` (`extract.py` lines 300-312). -/
def default_root_folder_title (archive : Item) : Str :=
  let raw0 : Str :=
    if archive.title = [] then
      match archive.filename with
      | some f => if f = [] then strOf "archive.zip" else f
      | none => strOf "archive.zip"
    else archive.title
  let raw := replaceSlashesWithUnderscore (stripWS raw0)
  let base :=
    if endsWith (strOf ".zip") (lowerStr raw) then raw.take (raw.length - 4)
    else splitextBase raw
  let base2 := stripWS (if base = [] then strOf "archive" else base)
  base2.take 240

/-! ### The whole-job run (zip containers) -/

/-- Outcome of one extraction run: the final engine state (status payloads
published, drive mutations applied) and the propagated exception, if any. -/
structure ExtractRunResult where
  st : EngineSt
  result : Option ExtractError
  deriving Repr

def initialEngineSt (d0 : Drive) : EngineSt :=
  { drive := d0, folderCache := [], files_done := 0, bytes_done := 0
    skipped_symlinks_count := 0, skipped_unsafe_paths_count := 0
    statusLog := [] }

/-- The first `running` payload (`extract.py` lines 355-370), all zeros. -/
def initialRunningStatus : JobStatus :=
  { state := .running
    progress := { files_done := 0, total := 0, bytes_done := 0, bytes_total := 0 }
    skipped_symlinks_count := 0, skipped_unsafe_paths_count := 0, errors := [] }

/-- The terminal `done` payload (`extract.py` lines 680-692). -/
def doneStatus (st : EngineSt) (plan : ExtractionPlan) : JobStatus :=
  { state := .done
    progress := { files_done := st.files_done, total := plan.total_files
                  bytes_done := st.bytes_done, bytes_total := plan.total_bytes }
    skipped_symlinks_count := st.skipped_symlinks_count
    skipped_unsafe_paths_count := st.skipped_unsafe_paths_count
    errors := [] }

/-- `extract_archive_to_drive` (`extract.py` lines 315-703), zip branch: the
container arrives as its parsed entry list (the temp-file download is pure
I/O).  The tar branch differs only in container access and is not needed by
the claims' cited runs. -/
def extract_zip_archive_to_drive (strict : Bool)
    (limits : ArchiveExtractionLimits) (d0 : Drive) (archive : Item)
    (zipEntries : List ZipEntry) (destination0 : Item) (mode : ArchiveMode)
    (selection_paths : List Str) (policy : CollisionPolicy)
    (create_root_folder : Bool) : ExtractRunResult :=
  let st0 := initialEngineSt d0
  if destination0.type ≠ ItemType.folder then ⟨st0, some .destinationNotFolder⟩
  else if archive.type ≠ ItemType.file ∨ archive.filename = none ∨
      archive.filename = some [] then ⟨st0, some .archiveNotFile⟩
  else if ¬ is_supported_archive archive then ⟨st0, some .unsupportedFormat⟩
  else
    let (destination, d1) :=
      if create_root_folder then
        create_child d0 destination0 .folder
          (default_root_folder_title archive) none none
      else (destination0, d0)
    let st1 : EngineSt :=
      { initialEngineSt d1 with statusLog := [initialRunningStatus] }
    match plan_zip strict limits zipEntries mode selection_paths with
    | .error e => ⟨st1, some (.planError e)⟩
    | .ok plan =>
      let st2 := update_progress st1 plan.total_files plan.total_bytes
      match extractZipEntries policy plan destination zipEntries st2 with
      | (st3, some e) => ⟨st3, some e⟩
      | (st3, none) =>
        ⟨{ st3 with statusLog := st3.statusLog ++ [doneStatus st3 plan] }, none⟩

/-- The "unknown" placeholder payload of
`get_archive_extraction_job_status`. -/
def unknownStatus : JobStatus :=
  { state := .unknown
    progress := { files_done := 0, total := 0, bytes_done := 0, bytes_total := 0 }
    skipped_symlinks_count := 0, skipped_unsafe_paths_count := 0, errors := [] }

/-- `str(exc)` for each engine error (the Python exception messages). -/
def errMessage : ExtractError → Str
  | .destinationNotFolder => strOf "Destination must be a folder."
  | .archiveNotFile => strOf "Archive item must be a file."
  | .unsupportedFormat =>
    strOf "Unsupported archive format for server extraction."
  | .planError .symlinkNotAllowed => strOf "Symlink entries are not allowed."
  | .planError .pathTooLong => strOf "Path too long."
  | .planError .pathTooDeep => strOf "Path too deep."
  | .planError .fileTooLarge => strOf "File too large."
  | .planError .suspiciousRatio => strOf "Suspicious compression ratio."
  | .planError .tooManyFiles => strOf "Too many files."
  | .planError .archiveTooLarge => strOf "Archive too large to extract."
  | .planError (.unsafePath .empty) => strOf "Empty path."
  | .planError (.unsafePath .absolute) =>
    strOf "Absolute paths are not allowed."
  | .planError (.unsafePath .traversal) =>
    strOf "Path traversal is not allowed."
  | .planError (.unsafePath .invalid) => strOf "Invalid path."
  | .planError .missingEntry => strOf "Archive member not found."
  | .cannotOverwriteFileWithFolder =>
    strOf "Cannot overwrite a file with a folder."
  | .cannotOverwriteFolderWithFile =>
    strOf "Cannot overwrite a folder with a file."
  | .existingFileHasNoFilename => strOf "Existing file has no filename."

/-- The Celery wrapper `extract_archive_to_drive_task`
(`core/tasks/archive.py`): on an exception it takes the last cached status
(or the unknown placeholder), marks it `failed` with the detail, and
republishes it. -/
def extract_zip_archive_to_drive_task (strict : Bool)
    (limits : ArchiveExtractionLimits) (d0 : Drive) (archive : Item)
    (zipEntries : List ZipEntry) (destination0 : Item) (mode : ArchiveMode)
    (selection_paths : List Str) (policy : CollisionPolicy)
    (create_root_folder : Bool) : ExtractRunResult :=
  let r := extract_zip_archive_to_drive strict limits d0 archive zipEntries
    destination0 mode selection_paths policy create_root_folder
  match r.result with
  | none => r
  | some e =>
    let base := r.st.statusLog.getLastD unknownStatus
    let failed := { base with state := JobState.failed, errors := [errMessage e] }
    ⟨{ r.st with statusLog := r.st.statusLog ++ [failed] }, some e⟩

/-- Unfolding of a run that passes the submission validations. -/
theorem extract_run_eq (strict : Bool) (limits : ArchiveExtractionLimits)
    (d0 : Drive) (archive : Item) (zipEntries : List ZipEntry)
    (destination0 : Item) (mode : ArchiveMode) (selection_paths : List Str)
    (policy : CollisionPolicy) (crf : Bool)
    (hdest : destination0.type = ItemType.folder)
    (harch : archive.type = ItemType.file)
    (f : Str) (hf : archive.filename = some f) (hfne : f ≠ [])
    (hzip : is_zip_filename f = true) :
    extract_zip_archive_to_drive strict limits d0 archive zipEntries
      destination0 mode selection_paths policy crf =
      (let dd := if crf then
          create_child d0 destination0 .folder
            (default_root_folder_title archive) none none
        else (destination0, d0)
       let st1 : EngineSt :=
         { initialEngineSt dd.2 with statusLog := [initialRunningStatus] }
       match plan_zip strict limits zipEntries mode selection_paths with
       | .error e => ⟨st1, some (.planError e)⟩
       | .ok plan =>
         let st2 := update_progress st1 plan.total_files plan.total_bytes
         match extractZipEntries policy plan dd.1 zipEntries st2 with
         | (st3, some e) => ⟨st3, some e⟩
         | (st3, none) =>
           ⟨{ st3 with statusLog := st3.statusLog ++ [doneStatus st3 plan] },
             none⟩) := by
  have hsupp : is_supported_archive archive = true := by
    unfold is_supported_archive
    rw [hf]
    simp only [harch, hzip]
    rw [if_neg hfne]
    simp
  unfold extract_zip_archive_to_drive
  rw [if_neg (by simp [hdest]),
    if_neg (by
      push_neg
      refine ⟨by simp [harch], by simp [hf], ?_⟩
      rw [hf]
      simp [hfne]),
    if_neg (by simp [hsupp])]

/-! ### Sample fixtures for concrete runs -/

def sampleDest : Item :=
  { id := 0, path := [0], type := .folder, title := strOf "dest"
    filename := none, mimetype := none, size := none, upload_state := .ready
    deleted := false, retrievable := true }

def sampleDrive : Drive := { items := [sampleDest], nextId := 1, storage := [] }

def sampleArchive : Item :=
  { id := 99, path := [99], type := .file, title := strOf "arch"
    filename := some (strOf "arch.zip"), mimetype := none, size := none
    upload_state := .ready, deleted := false, retrievable := true }

/-- C1 counterexample: a job with `create_root_folder` requested whose
planning fails (`max_files = 0` against a one-entry zip) terminates failed,
yet a folder node has already been written to the destination — refuting
"no destination mutation has occurred ... including when create_root_folder
is requested". -/
theorem planning_failure_mutation_counterexample :
    (extract_zip_archive_to_drive_task false ⟨0, 100, 100, 100, 100, 100⟩
        sampleDrive sampleArchive [⟨strOf "a.txt", 1, 1, 0, [97]⟩] sampleDest
        .all [] .rename true).result.isSome = true
    ∧ (extract_zip_archive_to_drive_task false ⟨0, 100, 100, 100, 100, 100⟩
        sampleDrive sampleArchive [⟨strOf "a.txt", 1, 1, 0, [97]⟩] sampleDest
        .all [] .rename true).st.drive.items.length =
      sampleDrive.items.length + 1 := by
  constructor <;> decide

/-- C1 (amended).  When planning fails, the job terminates `failed` with the
validation detail, no byte content has been written, and no file node has
been created; the only possible destination mutation is the empty root
folder node, created before planning when `create_root_folder` is
requested. -/
theorem planning_failure_no_destination_mutation
    (strict : Bool) (limits : ArchiveExtractionLimits) (d0 : Drive)
    (archive : Item) (zipEntries : List ZipEntry) (destination0 : Item)
    (mode : ArchiveMode) (selection_paths : List Str)
    (policy : CollisionPolicy) (crf : Bool)
    (hdest : destination0.type = ItemType.folder)
    (harch : archive.type = ItemType.file)
    (f : Str) (hf : archive.filename = some f) (hfne : f ≠ [])
    (hzip : is_zip_filename f = true)
    (e : PlanError)
    (hplan : plan_zip strict limits zipEntries mode selection_paths = .error e)
    (r : ExtractRunResult)
    (hr : r = extract_zip_archive_to_drive_task strict limits d0 archive
      zipEntries destination0 mode selection_paths policy crf) :
    r.result = some (.planError e)
    ∧ r.st.drive.storage = d0.storage
    ∧ r.st.drive.items =
        (if crf then d0.items ++
            [(create_child d0 destination0 .folder
               (default_root_folder_title archive) none none).1]
         else d0.items)
    ∧ (r.st.statusLog.getLastD unknownStatus).state = JobState.failed
    ∧ (r.st.statusLog.getLastD unknownStatus).errors =
        [errMessage (.planError e)]
    ∧ (∀ i ∈ r.st.drive.items, i.type = ItemType.file → i ∈ d0.items) := by
  subst hr
  unfold extract_zip_archive_to_drive_task
  rw [extract_run_eq strict limits d0 archive zipEntries destination0 mode
    selection_paths policy crf hdest harch f hf hfne hzip]
  simp only [hplan]
  cases crf with
  | false =>
    simp only [Bool.false_eq_true, if_false]
    refine ⟨by trivial, by trivial, by trivial, by trivial, by trivial, ?_⟩
    intro i hi _
    exact hi
  | true =>
    simp only [if_true]
    refine ⟨by trivial, by trivial, by trivial, by trivial, by trivial, ?_⟩
    intro i hi hif
    simp only [create_child, initialEngineSt] at hi ⊢
    rcases List.mem_append.mp hi with h1 | h1
    · exact h1
    · exfalso
      rcases List.mem_singleton.mp h1 with h2
      rw [h2] at hif
      exact absurd hif (by simp)

/-- Witness for `planning_failure_no_destination_mutation` at the concrete
failing run of the counterexample input (with `create_root_folder`). -/
theorem planning_failure_no_destination_mutation_witness :
    (extract_zip_archive_to_drive_task false ⟨0, 100, 100, 100, 100, 100⟩
        sampleDrive sampleArchive [⟨strOf "a.txt", 1, 1, 0, [97]⟩] sampleDest
        .all [] .rename true).result =
      some (.planError .tooManyFiles) :=
  (planning_failure_no_destination_mutation false ⟨0, 100, 100, 100, 100, 100⟩
    sampleDrive sampleArchive [⟨strOf "a.txt", 1, 1, 0, [97]⟩] sampleDest
    .all [] .rename true (by decide) (by decide) (strOf "arch.zip") (by decide)
    (by decide) (by decide) .tooManyFiles (by decide) _ rfl).1

/-- A loop pass over entries that are all symlinks only counts the non-dir
ones; nothing else in the state changes. -/
theorem extractZipEntries_all_symlink (policy : CollisionPolicy)
    (plan : ExtractionPlan) (dest : Item) :
    ∀ (l : List ZipEntry) (st : EngineSt),
      (∀ e ∈ l, zipinfo_is_symlink e = true) →
      extractZipEntries policy plan dest l st =
        ({ st with skipped_symlinks_count :=
            st.skipped_symlinks_count +
              (l.filter (fun e => !e.isDirEntry && zipinfo_is_symlink e)).length },
          none)
  | [], st, _ => by
    simp [extractZipEntries]
  | info :: rest, st, h => by
    have hsym := h info (List.mem_cons_self _ _)
    have hrest : ∀ e ∈ rest, zipinfo_is_symlink e = true :=
      fun e he => h e (List.mem_cons_of_mem _ he)
    rw [extractZipEntries.eq_def]
    simp only []
    by_cases hdir : info.isDirEntry = true
    · rw [show processZipEntry policy plan dest info st = (st, none) by
        unfold processZipEntry; rw [if_pos hdir]]
      simp only []
      rw [extractZipEntries_all_symlink policy plan dest rest st hrest]
      simp only [List.filter_cons, hdir, hsym, Bool.not_true, Bool.false_and,
        Bool.false_eq_true, if_false]
    · have hdir' : info.isDirEntry = false := by simpa using hdir
      rw [show processZipEntry policy plan dest info st =
          ({ st with skipped_symlinks_count := st.skipped_symlinks_count + 1 },
            none) by
        unfold processZipEntry; rw [if_neg hdir, if_pos hsym]]
      simp only []
      rw [extractZipEntries_all_symlink policy plan dest rest _ hrest]
      simp only [List.filter_cons, hdir', hsym, Bool.not_false, Bool.true_and,
        if_pos, List.length_cons, Prod.mk.injEq, EngineSt.mk.injEq, and_true,
        true_and]
      omega

/-- C3 counterexample: a zip entry whose external attributes mark it as a
symlink but whose stored name ends in `/` is skipped by the directory check
before the symlink check, so `skipped_symlinks_count` stays 0 — refuting
"increments by exactly one per such entry". -/
theorem symlink_count_counterexample :
    (extract_zip_archive_to_drive_task false defaultLimits sampleDrive
        sampleArchive [⟨strOf "link/", 1, 1, 0xA000 <<< 16, []⟩] sampleDest
        .all [] .rename false).result = none
    ∧ (extract_zip_archive_to_drive_task false defaultLimits sampleDrive
        sampleArchive [⟨strOf "link/", 1, 1, 0xA000 <<< 16, []⟩] sampleDest
        .all [] .rename false).st.skipped_symlinks_count = 0 := by
  constructor <;> decide

/-- C3 (amended).  A non-directory-named zip entry whose Unix mode bits mark
it as a symlink is never materialized and bumps `skipped_symlinks_count` by
exactly one (entries whose stored name ends in `/` are consumed by the
directory check first, without counting); in strict (`ARCHIVE_FS_STRICT`)
mode any symlink entry fails planning and hence the job; and a non-strict
job over a zip containing only symlink entries completes `done` with an
unchanged destination and one count per non-directory symlink entry. -/
theorem symlink_entry_handling :
    (∀ (policy : CollisionPolicy) (plan : ExtractionPlan) (destination : Item)
        (info : ZipEntry) (st : EngineSt),
      info.isDirEntry = false → zipinfo_is_symlink info = true →
      processZipEntry policy plan destination info st =
        ({ st with skipped_symlinks_count := st.skipped_symlinks_count + 1 },
          none))
    ∧ (∀ (limits : ArchiveExtractionLimits) (entries : List ZipEntry)
        (mode : ArchiveMode) (selection : List Str) (e : ZipEntry),
      e ∈ entries → zipinfo_is_symlink e = true →
      plan_zip true limits entries mode selection = .error .symlinkNotAllowed)
    ∧ (∀ (limits : ArchiveExtractionLimits) (d0 : Drive) (archive : Item)
        (zipEntries : List ZipEntry) (destination0 : Item)
        (selection_paths : List Str) (policy : CollisionPolicy)
        (f : Str),
      destination0.type = ItemType.folder → archive.type = ItemType.file →
      archive.filename = some f → f ≠ [] → is_zip_filename f = true →
      (∀ e ∈ zipEntries, zipinfo_is_symlink e = true) →
      ∀ r, r = extract_zip_archive_to_drive_task false limits d0 archive
        zipEntries destination0 .all selection_paths policy false →
      r.result = none ∧ r.st.drive = d0 ∧
      r.st.skipped_symlinks_count =
        (zipEntries.filter
          (fun e => !e.isDirEntry && zipinfo_is_symlink e)).length ∧
      (r.st.statusLog.getLastD unknownStatus).state = JobState.done)
    ∧ (∀ (limits : ArchiveExtractionLimits) (d0 : Drive) (archive : Item)
        (zipEntries : List ZipEntry) (destination0 : Item)
        (mode : ArchiveMode) (selection_paths : List Str)
        (policy : CollisionPolicy) (f : Str) (e : ZipEntry),
      destination0.type = ItemType.folder → archive.type = ItemType.file →
      archive.filename = some f → f ≠ [] → is_zip_filename f = true →
      e ∈ zipEntries → zipinfo_is_symlink e = true →
      ∀ r, r = extract_zip_archive_to_drive_task true limits d0 archive
        zipEntries destination0 mode selection_paths policy false →
      r.result = some (.planError .symlinkNotAllowed) ∧ r.st.drive = d0 ∧
      (r.st.statusLog.getLastD unknownStatus).state = JobState.failed) := by
  have hstep : ∀ (policy : CollisionPolicy) (plan : ExtractionPlan)
      (destination : Item) (info : ZipEntry) (st : EngineSt),
      info.isDirEntry = false → zipinfo_is_symlink info = true →
      processZipEntry policy plan destination info st =
        ({ st with skipped_symlinks_count := st.skipped_symlinks_count + 1 },
          none) := by
    intro policy plan destination info st hdir hsym
    unfold processZipEntry
    rw [if_neg (by simp [hdir]), if_pos hsym]
  have hgate : ∀ (limits : ArchiveExtractionLimits) (entries : List ZipEntry)
      (mode : ArchiveMode) (selection : List Str) (e : ZipEntry),
      e ∈ entries → zipinfo_is_symlink e = true →
      plan_zip true limits entries mode selection =
        .error .symlinkNotAllowed := by
    intro limits entries mode selection e he hsym
    unfold plan_zip
    rw [if_pos ⟨rfl, List.any_eq_true.mpr ⟨e, he, hsym⟩⟩]
  refine ⟨hstep, hgate, ?_, ?_⟩
  · intro limits d0 archive zipEntries destination0 selection_paths policy f
      hdest harch hf hfne hzip hsyms r hr
    subst hr
    have hall : (zipEntries.filter
        (fun i => !i.isDirEntry && !zipinfo_is_symlink i)) = [] := by
      rw [List.filter_eq_nil_iff]
      intro e he
      simp [hsyms e he]
    have hplan : plan_zip false limits zipEntries .all selection_paths =
        .ok ⟨[], 0, 0⟩ := by
      unfold plan_zip
      rw [if_neg (by simp)]
      unfold zipAllPaths
      rw [hall]
      simp only [List.map_nil]
      rw [show filter_paths [] .all selection_paths = .ok [] from rfl, bindOk,
        show plan_zip_loop limits zipEntries [] ⟨0, 0, []⟩ = .ok ⟨0, 0, []⟩
          from rfl, bindOk]
      rw [if_neg (by simp), if_neg (by simp)]
    unfold extract_zip_archive_to_drive_task
    rw [extract_run_eq false limits d0 archive zipEntries destination0 .all
      selection_paths policy false hdest harch f hf hfne hzip]
    simp only [hplan, Bool.false_eq_true, if_false]
    rw [extractZipEntries_all_symlink policy ⟨[], 0, 0⟩ destination0 zipEntries
      _ hsyms]
    simp only []
    refine ⟨by trivial, by trivial,
      by simp [update_progress, initialEngineSt, runningStatus], by trivial⟩
  · intro limits d0 archive zipEntries destination0 mode selection_paths
      policy f e hdest harch hf hfne hzip he hsym r hr
    subst hr
    unfold extract_zip_archive_to_drive_task
    rw [extract_run_eq true limits d0 archive zipEntries destination0 mode
      selection_paths policy false hdest harch f hf hfne hzip]
    simp only [hgate limits zipEntries mode selection_paths e he hsym,
      Bool.false_eq_true, if_false]
    exact ⟨by trivial, by trivial, by trivial⟩

/-- Witness for `symlink_entry_handling`: a one-symlink zip completes `done`
with the counter at 1 in non-strict mode. -/
theorem symlink_entry_handling_witness :
    (extract_zip_archive_to_drive_task false defaultLimits sampleDrive
        sampleArchive [⟨strOf "link", 1, 1, 0xA000 <<< 16, [7]⟩] sampleDest
        .all [] .rename false).result = none
    ∧ (extract_zip_archive_to_drive_task false defaultLimits sampleDrive
        sampleArchive [⟨strOf "link", 1, 1, 0xA000 <<< 16, [7]⟩] sampleDest
        .all [] .rename false).st.skipped_symlinks_count = 1 := by
  have h := symlink_entry_handling.2.2.1 defaultLimits sampleDrive
    sampleArchive [⟨strOf "link", 1, 1, 0xA000 <<< 16, [7]⟩] sampleDest []
    .rename (strOf "arch.zip") (by decide) (by decide) (by decide) (by decide)
    (by decide) (by decide) _ rfl
  exact ⟨h.1, by rw [h.2.2.1]; decide⟩

/-! ### Destination-subtree confinement (for C2)

Every node the engine writes lies strictly under the destination folder:
its materialized path extends the destination's path.  The invariant is
stated on paths, which every engine mutation preserves. -/

/-- `p` lies strictly under `base` in the tree. -/
def underPath (base p : List Nat) : Prop :=
  base <+: p ∧ base.length < p.length

def driveUnder (d0 : Drive) (base : List Nat) (d : Drive) : Prop :=
  ∀ i ∈ d.items, i.path ∈ d0.items.map (·.path) ∨ underPath base i.path

def cacheUnder (base : List Nat) (c : FolderCache) : Prop :=
  ∀ p ∈ c, underPath base p.2.path

theorem create_child_under (d0 : Drive) (base : List Nat) (d : Drive)
    (parent : Item) (ty : ItemType) (t : Str) (fn mt : Option Str)
    (hd : driveUnder d0 base d) (hp : base <+: parent.path) :
    driveUnder d0 base (create_child d parent ty t fn mt).2 ∧
      underPath base (create_child d parent ty t fn mt).1.path := by
  have hlen := hp.length_le
  have hup : underPath base (parent.path ++ [d.nextId]) :=
    ⟨hp.trans (List.prefix_append _ _), by simp; omega⟩
  constructor
  · intro i hi
    simp only [create_child, List.mem_append, List.mem_singleton] at hi
    rcases hi with hi | hi
    · exact hd i hi
    · right; rw [hi]; exact hup
  · exact hup

theorem get_or_create_under {d0 : Drive} {base : List Nat} {d : Drive}
    {cache : FolderCache} {parent : Item} (t : Str)
    (hd : driveUnder d0 base d) (hc : cacheUnder base cache)
    (hp : base <+: parent.path)  :
    driveUnder d0 base (get_or_create_folder_child d cache parent t).2.1 ∧
      cacheUnder base (get_or_create_folder_child d cache parent t).2.2 ∧
      underPath base (get_or_create_folder_child d cache parent t).1.path := by
  unfold get_or_create_folder_child
  cases hcg : cacheGet cache (parent.id, t) with
  | some it =>
    simp only []
    have : ∃ p ∈ cache, p.2 = it := by
      unfold cacheGet at hcg
      cases hfind : cache.find? (fun p => decide (p.1 = (parent.id, t))) with
      | none => rw [hfind] at hcg; simp at hcg
      | some pr =>
        rw [hfind] at hcg
        refine ⟨pr, List.mem_of_find?_eq_some hfind, ?_⟩
        simpa using hcg
    obtain ⟨pr, hpr, hpe⟩ := this
    exact ⟨hd, hc, hpe ▸ hc pr hpr⟩
  | none =>
    simp only []
    cases hfind : d.items.find? (fun i =>
        isChildOf parent i && decide (i.type = ItemType.folder) &&
          decide (i.title = t) && !i.deleted) with
    | some existing =>
      simp only []
      have hmem := List.mem_of_find?_eq_some hfind
      have hprop := List.find?_some hfind
      simp only [Bool.and_eq_true, decide_eq_true_eq] at hprop
      have hchild : isChildOf parent existing = true := hprop.1.1.1
      unfold isChildOf at hchild
      simp only [Bool.and_eq_true, decide_eq_true_eq] at hchild
      have hup : underPath base existing.path := by
        refine ⟨hp.trans hchild.2, ?_⟩
        have := hp.length_le
        omega
      refine ⟨hd, ?_, hup⟩
      intro p hpmem
      rcases List.mem_cons.mp hpmem with h1 | h1
      · rw [h1]; exact hup
      · exact hc p h1
    | none =>
      simp only []
      obtain ⟨hd', hup⟩ := create_child_under d0 base d parent .folder t
        none none hd hp
      refine ⟨hd', ?_, hup⟩
      intro p hpmem
      rcases List.mem_cons.mp hpmem with h1 | h1
      · rw [h1]; exact hup
      · exact hc p h1

theorem walkParents_under (d0 : Drive) (base : List Nat)
    (policy : CollisionPolicy) :
    ∀ (parts : List Str) (st : EngineSt) (parent : Item),
      driveUnder d0 base st.drive → cacheUnder base st.folderCache →
      base <+: parent.path →
      driveUnder d0 base (walkParents policy parts st parent).1.drive ∧
      cacheUnder base (walkParents policy parts st parent).1.folderCache ∧
      (∀ p', (walkParents policy parts st parent).2 = .proceed p' →
        base <+: p'.path)
  | [], st, parent, hd, hc, hp => by
    refine ⟨hd, hc, fun p' hp' => ?_⟩
    have he : walkParents policy [] st parent = (st, .proceed parent) := rfl
    rw [he] at hp'
    cases hp'
    exact hp
  | part :: rest, st, parent, hd, hc, hp => by
    rw [walkParents.eq_def]
    simp only []
    have hrec := fun (st' : EngineSt) (par : Item)
        (h1 : driveUnder d0 base st'.drive)
        (h2 : cacheUnder base st'.folderCache) (h3 : base <+: par.path) =>
      walkParents_under d0 base policy rest st' par h1 h2 h3
    cases hex : get_existing_child st.drive parent part with
    | some existing =>
      simp only []
      by_cases hty : existing.type = ItemType.folder
      · rw [if_pos hty]
        obtain ⟨h1, h2, h3⟩ := get_or_create_under part hd hc hp
        exact hrec _ _ h1 h2 h3.1
      · rw [if_neg hty]
        by_cases hrn : policy = CollisionPolicy.rename
        · rw [if_pos hrn]
          obtain ⟨h1, h2, h3⟩ := get_or_create_under part hd hc hp
          exact hrec _ _ h1 h2 h3.1
        · rw [if_neg hrn]
          by_cases hsk : policy = CollisionPolicy.skip
          · rw [if_pos hsk]
            exact ⟨hd, hc, fun p' hp' => by cases hp'⟩
          · rw [if_neg hsk]
            exact ⟨hd, hc, fun p' hp' => by cases hp'⟩
    | none =>
      simp only []
      obtain ⟨h1, h2, h3⟩ := get_or_create_under part hd hc hp
      exact hrec _ _ h1 h2 h3.1

theorem updateItem_paths (d : Drive) (itemId : Nat) (f : Item → Item)
    (hf : ∀ i, (f i).path = i.path) :
    ∀ i' ∈ (updateItem d itemId f).items, ∃ i ∈ d.items, i'.path = i.path := by
  intro i' hi'
  unfold updateItem at hi'
  simp only [List.mem_map] at hi'
  obtain ⟨i, hi, hmap⟩ := hi'
  refine ⟨i, hi, ?_⟩
  by_cases hid : i.id = itemId
  · rw [← hmap]
    simp [hid, hf]
  · rw [← hmap]
    simp [hid]

theorem driveUnder_updateItem (d0 : Drive) (base : List Nat) (d : Drive)
    (itemId : Nat) (f : Item → Item) (hf : ∀ i, (f i).path = i.path)
    (hd : driveUnder d0 base d) (st : List (Nat × Bytes)) :
    driveUnder d0 base { updateItem d itemId f with storage := st } := by
  intro i' hi'
  obtain ⟨i, hi, hpath⟩ := updateItem_paths d itemId f hf i' hi'
  rw [hpath]
  exact hd i hi

theorem createNewFile_under {d0 : Drive} {base : List Nat} {st : EngineSt}
    {parent : Item} (filename mimetype : Str) (info : ZipEntry) (tf tb : Nat)
    (hd : driveUnder d0 base st.drive) (hc : cacheUnder base st.folderCache)
    (hp : base <+: parent.path) :
    driveUnder d0 base
      (createNewFile st parent filename mimetype info tf tb).drive ∧
    cacheUnder base
      (createNewFile st parent filename mimetype info tf tb).folderCache := by
  unfold createNewFile progressedEntry update_progress
  constructor
  · intro i' hi'
    simp only [] at hi'
    obtain ⟨hd', _⟩ := create_child_under d0 base st.drive parent
      .file filename (some filename) (some mimetype) hd hp
    have hstep := driveUnder_updateItem d0 base
      (create_child st.drive parent .file filename
        (some filename) (some mimetype)).2
      (create_child st.drive parent .file filename
        (some filename) (some mimetype)).1.id
      (fun it => { it with upload_state := .ready, size := some info.file_size })
      (fun i => rfl) hd'
    exact hstep _ i' hi'
  · exact hc

theorem overwriteFile_under {d0 : Drive} {base : List Nat} {st : EngineSt}
    {ex : Item} (mimetype : Str) (info : ZipEntry) (tf tb : Nat)
    (hd : driveUnder d0 base st.drive) (hc : cacheUnder base st.folderCache) :
    driveUnder d0 base (overwriteFile st ex mimetype info tf tb).1.drive ∧
    cacheUnder base (overwriteFile st ex mimetype info tf tb).1.folderCache := by
  unfold overwriteFile
  by_cases hfn : ex.filename = none ∨ ex.filename = some []
  · rw [if_pos hfn]
    exact ⟨hd, hc⟩
  · rw [if_neg hfn]
    simp only [progressedEntry, update_progress]
    constructor
    · intro i' hi'
      have hstep := driveUnder_updateItem d0 base st.drive ex.id
        (fun it => { it with
          upload_state := .ready
          mimetype := some mimetype
          size := some info.file_size })
        (fun i => rfl) hd
      exact hstep _ i' hi'
    · exact hc

theorem processZipEntry_under (d0 : Drive) (base : List Nat)
    (policy : CollisionPolicy) (plan : ExtractionPlan) (destination : Item)
    (info : ZipEntry) (st : EngineSt)
    (hd : driveUnder d0 base st.drive) (hc : cacheUnder base st.folderCache)
    (hdest : base <+: destination.path) :
    driveUnder d0 base
      (processZipEntry policy plan destination info st).1.drive ∧
    cacheUnder base
      (processZipEntry policy plan destination info st).1.folderCache := by
  unfold processZipEntry
  by_cases h1 : info.isDirEntry = true
  · rw [if_pos h1]; exact ⟨hd, hc⟩
  · rw [if_neg h1]
    by_cases h2 : zipinfo_is_symlink info = true
    · rw [if_pos h2]; exact ⟨hd, hc⟩
    · rw [if_neg h2]
      cases hn : normalize_archive_path info.filename with
      | error e => exact ⟨hd, hc⟩
      | ok n0 =>
        simp only []
        by_cases h3 : n0.normalized ∈ plan.paths
        · rw [if_pos h3]
          cases hn2 : normalize_archive_path n0.normalized with
          | error e => exact ⟨hd, hc⟩
          | ok npath =>
            simp only []
            obtain ⟨hw1, hw2, hw3⟩ := walkParents_under d0 base policy
              npath.parent_parts st destination hd hc hdest
            cases hwalk : walkParents policy npath.parent_parts st destination
              with
            | mk st1 outcome =>
              rw [hwalk] at hw1 hw2 hw3
              cases outcome with
              | fatal => exact ⟨hw1, hw2⟩
              | skipEntry =>
                simp only [progressedEntry, update_progress]
                exact ⟨hw1, hw2⟩
              | proceed parent_folder =>
                simp only []
                have hpf : base <+: parent_folder.path := hw3 _ rfl
                cases hex : get_existing_child st1.drive parent_folder
                    npath.name with
                | some ex =>
                  simp only []
                  have hexin : ∃ j ∈ st1.drive.items, j = ex := by
                    unfold get_existing_child at hex
                    exact ⟨ex, List.mem_of_find?_eq_some hex, rfl⟩
                  by_cases hty : ex.type = ItemType.file
                  · rw [if_pos hty]
                    cases policy with
                    | skip =>
                      simp only [progressedEntry, update_progress]
                      exact ⟨hw1, hw2⟩
                    | overwrite =>
                      exact overwriteFile_under _ info _ _ hw1 hw2
                    | rename =>
                      exact createNewFile_under _ _ info _ _ hw1 hw2 hpf
                  · rw [if_neg hty]
                    cases policy with
                    | skip =>
                      simp only [progressedEntry, update_progress]
                      exact ⟨hw1, hw2⟩
                    | rename =>
                      exact createNewFile_under _ _ info _ _ hw1 hw2 hpf
                    | overwrite => exact ⟨hw1, hw2⟩
                | none =>
                  simp only []
                  exact createNewFile_under _ _ info _ _ hw1 hw2 hpf
        · rw [if_neg h3]
          exact ⟨hd, hc⟩

theorem extractZipEntries_under (d0 : Drive) (base : List Nat)
    (policy : CollisionPolicy) (plan : ExtractionPlan) (destination : Item)
    (hdest : base <+: destination.path) :
    ∀ (l : List ZipEntry) (st : EngineSt),
      driveUnder d0 base st.drive → cacheUnder base st.folderCache →
      driveUnder d0 base
        (extractZipEntries policy plan destination l st).1.drive
  | [], st, hd, _ => hd
  | info :: rest, st, hd, hc => by
    rw [extractZipEntries.eq_def]
    simp only []
    obtain ⟨hd', hc'⟩ := processZipEntry_under d0 base policy plan destination
      info st hd hc hdest
    cases hstep : processZipEntry policy plan destination info st with
    | mk st' res =>
      rw [hstep] at hd' hc'
      cases res with
      | none =>
        exact extractZipEntries_under d0 base policy plan destination hdest
          rest st' hd' hc'
      | some e => exact hd'

/-- Subtree confinement of a whole run: every item of the final drive either
keeps a materialized path that already existed in `d0` or lies strictly under
the requested destination folder. -/
theorem extract_run_confined (strict : Bool) (limits : ArchiveExtractionLimits)
    (d0 : Drive) (archive : Item) (zipEntries : List ZipEntry)
    (destination0 : Item) (mode : ArchiveMode) (selection_paths : List Str)
    (policy : CollisionPolicy) (crf : Bool)
    (hdest : destination0.type = ItemType.folder)
    (harch : archive.type = ItemType.file)
    (f : Str) (hf : archive.filename = some f) (hfne : f ≠ [])
    (hzip : is_zip_filename f = true) :
    driveUnder d0 destination0.path
      (extract_zip_archive_to_drive strict limits d0 archive zipEntries
        destination0 mode selection_paths policy crf).st.drive := by
  rw [extract_run_eq strict limits d0 archive zipEntries destination0 mode
    selection_paths policy crf hdest harch f hf hfne hzip]
  simp only []
  generalize hdd : (if crf then
      create_child d0 destination0 .folder
        (default_root_folder_title archive) none none
    else (destination0, d0)) = dd
  have hbase : driveUnder d0 destination0.path d0 := fun i hi =>
    Or.inl (List.mem_map_of_mem _ hi)
  have hd1 : driveUnder d0 destination0.path dd.2 := by
    cases crf with
    | false =>
      rw [if_neg (by simp)] at hdd
      rw [← hdd]
      exact hbase
    | true =>
      rw [if_pos rfl] at hdd
      rw [← hdd]
      exact (create_child_under d0 destination0.path d0 destination0 .folder
        (default_root_folder_title archive) none none hbase
        (List.prefix_refl _)).1
  have hdp : destination0.path <+: dd.1.path := by
    cases crf with
    | false =>
      rw [if_neg (by simp)] at hdd
      rw [← hdd]
    | true =>
      rw [if_pos rfl] at hdd
      rw [← hdd]
      exact (create_child_under d0 destination0.path d0 destination0 .folder
        (default_root_folder_title archive) none none hbase
        (List.prefix_refl _)).2.1
  cases hplan : plan_zip strict limits zipEntries mode selection_paths with
  | error e => exact hd1
  | ok plan =>
    simp only []
    have hrun := extractZipEntries_under d0 destination0.path policy plan dd.1
      hdp zipEntries
      (update_progress
        { initialEngineSt dd.2 with statusLog := [initialRunningStatus] }
        plan.total_files plan.total_bytes)
      hd1 (fun p hp => by cases hp)
    cases hstep : extractZipEntries policy plan dd.1 zipEntries
        (update_progress
          { initialEngineSt dd.2 with statusLog := [initialRunningStatus] }
          plan.total_files plan.total_bytes) with
    | mk st3 res =>
      rw [hstep] at hrun
      cases res with
      | none => exact hrun
      | some e => exact hrun

/-- C2 counterexample: in `mode=all`, a zip entry whose raw name contains a
`..` segment is not "excluded and counted as skipped-unsafe rather than
failing the job": `_plan_zip` normalizes it with no exception handler, the
job fails with the traversal error, and `skipped_unsafe_paths_count` stays
`0` — refuting the claim's "this holds in both mode=all and
mode=selection". -/
theorem unsafe_entry_mode_all_counterexample :
    (extract_zip_archive_to_drive_task false defaultLimits sampleDrive
        sampleArchive [⟨strOf "../evil.txt", 1, 1, 0, [101]⟩] sampleDest
        .all [] .rename false).result =
      some (.planError (.unsafePath .traversal))
    ∧ ((extract_zip_archive_to_drive_task false defaultLimits sampleDrive
        sampleArchive [⟨strOf "../evil.txt", 1, 1, 0, [101]⟩] sampleDest
        .all [] .rename false).st.statusLog.getLastD unknownStatus).state =
      JobState.failed
    ∧ (extract_zip_archive_to_drive_task false defaultLimits sampleDrive
        sampleArchive [⟨strOf "../evil.txt", 1, 1, 0, [101]⟩] sampleDest
        .all [] .rename false).st.skipped_unsafe_paths_count = 0
    ∧ (extract_zip_archive_to_drive_task false defaultLimits sampleDrive
        sampleArchive [⟨strOf "../evil.txt", 1, 1, 0, [101]⟩] sampleDest
        .all [] .rename false).st.drive = sampleDrive := by
  refine ⟨?_, ?_, ?_, ?_⟩ <;> decide

/-- C2 (amended).  (1) In the extraction loop, a non-directory non-symlink
entry whose name fails normalization is skipped and increments
`skipped_unsafe_paths_count` by exactly one, without failing the job.
(2) In `mode=selection`, a raw name that fails normalization is excluded
from the selected set the planner works over.  (3) In `mode=all`, by
contrast, such an entry makes `_plan_zip` fail, failing the job — the
spec's "rather than failing the job" holds only in `mode=selection`.
(4) Every run passing submission validation confines its writes to the
destination subtree: each item of the final drive keeps a pre-existing
materialized path or lies strictly under the destination folder. -/
theorem unsafe_path_entry_handling :
    (∀ (policy : CollisionPolicy) (plan : ExtractionPlan) (destination : Item)
        (info : ZipEntry) (st : EngineSt) (e : UnsafePathError),
      info.isDirEntry = false → zipinfo_is_symlink info = false →
      normalize_archive_path info.filename = .error e →
      processZipEntry policy plan destination info st =
        ({ st with skipped_unsafe_paths_count :=
            st.skipped_unsafe_paths_count + 1 }, none))
    ∧ (∀ (paths selection sel : List Str) (p : Str) (e : UnsafePathError),
      filter_paths paths .selection selection = .ok sel →
      normalize_archive_path p = .error e → p ∉ sel)
    ∧ (∀ (limits : ArchiveExtractionLimits) (entries : List ZipEntry)
        (selection : List Str) (raw : Str) (e : UnsafePathError),
      raw ∈ zipAllPaths entries → normalize_archive_path raw = .error e →
      isErr (plan_zip false limits entries .all selection) = true)
    ∧ (∀ (strict : Bool) (limits : ArchiveExtractionLimits) (d0 : Drive)
        (archive : Item) (zipEntries : List ZipEntry) (destination0 : Item)
        (mode : ArchiveMode) (selection_paths : List Str)
        (policy : CollisionPolicy) (crf : Bool),
      destination0.type = ItemType.folder → archive.type = ItemType.file →
      ∀ f : Str, archive.filename = some f → f ≠ [] →
      is_zip_filename f = true →
      ∀ i ∈ (extract_zip_archive_to_drive strict limits d0 archive zipEntries
          destination0 mode selection_paths policy crf).st.drive.items,
        i.path ∈ d0.items.map (·.path) ∨
          underPath destination0.path i.path) := by
  refine ⟨?_, ?_, ?_, ?_⟩
  · intro policy plan destination info st e h1 h2 hn
    unfold processZipEntry
    rw [if_neg (by simp [h1]), if_neg (by simp [h2])]
    simp only [hn]
  · intro paths selection sel p e hsel hn hmem
    cases hm : selection_matchers selection with
    | error er =>
      have hfe : filter_paths paths .selection selection = .error er := by
        unfold filter_paths
        simp only []
        rw [hm, bindErr]
      rw [hfe] at hsel
      cases hsel
    | ok m =>
      rw [filter_paths_selection_eq paths selection m hm] at hsel
      cases hsel
      have hp := List.of_mem_filter hmem
      unfold selectionPred at hp
      simp only [hn] at hp
      exact absurd hp (by simp)
  · intro limits entries selection raw e hmem hn
    have hsel : filter_paths (zipAllPaths entries) .all selection =
        .ok (zipAllPaths entries) := rfl
    exact (plan_zip_err_iff limits entries .all selection (zipAllPaths entries)
      hsel).mpr (Or.inl ⟨raw, hmem, by simp [zipEntryViolationB, hn]⟩)
  · intro strict limits d0 archive zipEntries destination0 mode selection_paths
      policy crf hdest harch f hf hfne hzip
    exact extract_run_confined strict limits d0 archive zipEntries destination0
      mode selection_paths policy crf hdest harch f hf hfne hzip

/-- Witness for `unsafe_path_entry_handling`: a traversal-named entry is
skipped and counted by the loop; it is dropped from a selection; it fails a
`mode=all` plan; and a concrete passing run keeps its items confined. -/
theorem unsafe_path_entry_handling_witness :
    (processZipEntry .rename ⟨[], 0, 0⟩ sampleDest
        ⟨strOf "../evil.txt", 1, 1, 0, [101]⟩ (initialEngineSt sampleDrive) =
      ({ initialEngineSt sampleDrive with skipped_unsafe_paths_count :=
          (initialEngineSt sampleDrive).skipped_unsafe_paths_count + 1 }, none))
    ∧ strOf "../evil.txt" ∉ [strOf "a.txt"]
    ∧ isErr (plan_zip false defaultLimits
        [⟨strOf "../evil.txt", 1, 1, 0, [101]⟩] .all []) = true
    ∧ (sampleDest.path ∈ sampleDrive.items.map (·.path) ∨
        underPath sampleDest.path sampleDest.path) :=
  ⟨unsafe_path_entry_handling.1 .rename ⟨[], 0, 0⟩ sampleDest
      ⟨strOf "../evil.txt", 1, 1, 0, [101]⟩ (initialEngineSt sampleDrive)
      .traversal (by decide) (by decide) (by decide),
    unsafe_path_entry_handling.2.1
      [strOf "../evil.txt", strOf "a.txt"] [strOf "a.txt"] [strOf "a.txt"]
      (strOf "../evil.txt") .traversal (by decide) (by decide),
    unsafe_path_entry_handling.2.2.1 defaultLimits
      [⟨strOf "../evil.txt", 1, 1, 0, [101]⟩] [] (strOf "../evil.txt")
      .traversal (by decide) (by decide),
    unsafe_path_entry_handling.2.2.2 false defaultLimits sampleDrive
      sampleArchive [⟨strOf "../evil.txt", 1, 1, 0, [101]⟩] sampleDest
      .selection [strOf "a.txt"] .rename false (by decide) (by decide)
      (strOf "arch.zip") (by decide) (by decide) (by decide) sampleDest
      (by decide)⟩

/-! ## Progress monotonicity and terminal totals (C7)

The status payloads published over a run: counters only grow, every appended
payload carries the current counters, and under `rename` the loop advances
the counters for exactly the entries whose normalized path is in the plan. -/

/-- Non-decreasing progress between successive payloads. -/
def logMono (l : List JobStatus) : Prop :=
  List.Chain' (fun a b => a.progress.files_done ≤ b.progress.files_done ∧
    a.progress.bytes_done ≤ b.progress.bytes_done) l

/-- Every published payload's counters are bounded by the current ones. -/
def logDominated (st : EngineSt) : Prop :=
  ∀ s ∈ st.statusLog, s.progress.files_done ≤ st.files_done ∧
    s.progress.bytes_done ≤ st.bytes_done

/-- The loop advances over an entry iff it is a non-directory non-symlink
entry whose name normalizes into the plan's path set. -/
def entryProcessedB (plan : ExtractionPlan) (info : ZipEntry) : Bool :=
  !info.isDirEntry && !zipinfo_is_symlink info &&
    (match normalize_archive_path info.filename with
     | .error _ => false
     | .ok n0 => decide (n0.normalized ∈ plan.paths))

/-- A zip entry the planner counts in `mode=all` when names are unique:
non-directory, non-symlink, and safely normalizable. -/
def entryCleanB (e : ZipEntry) : Bool :=
  !e.isDirEntry && !zipinfo_is_symlink e &&
    !(isErr (normalize_archive_path e.filename))

theorem getLastD_concat {α : Type} (x : α) :
    ∀ (l : List α) (d : α), (l ++ [x]).getLastD d = x
  | [], _ => rfl
  | a :: t, d => by
    rw [List.cons_append, List.getLastD_cons]
    exact getLastD_concat x t a

theorem logMono_append : ∀ (l : List JobStatus) (x : JobStatus),
    logMono l →
    (∀ s ∈ l, s.progress.files_done ≤ x.progress.files_done ∧
      s.progress.bytes_done ≤ x.progress.bytes_done) →
    logMono (l ++ [x])
  | [], x, _, _ => List.chain'_singleton x
  | [a], x, _, hd =>
    List.chain'_cons.mpr ⟨hd a (List.mem_singleton.mpr rfl),
      List.chain'_singleton x⟩
  | a :: b :: rest, x, hm, hd => by
    unfold logMono at hm ⊢
    simp only [List.cons_append]
    refine List.chain'_cons.mpr ⟨(List.chain'_cons.mp hm).1, ?_⟩
    have := logMono_append (b :: rest) x (List.chain'_cons.mp hm).2
      (fun s hs => hd s (List.mem_cons_of_mem a hs))
    simpa [logMono] using this

/-- `walkParents` only touches the drive and the folder cache. -/
theorem walkParents_frame (policy : CollisionPolicy) :
    ∀ (parts : List Str) (st : EngineSt) (parent : Item),
      (walkParents policy parts st parent).1.files_done = st.files_done ∧
      (walkParents policy parts st parent).1.bytes_done = st.bytes_done ∧
      (walkParents policy parts st parent).1.skipped_symlinks_count =
        st.skipped_symlinks_count ∧
      (walkParents policy parts st parent).1.skipped_unsafe_paths_count =
        st.skipped_unsafe_paths_count ∧
      (walkParents policy parts st parent).1.statusLog = st.statusLog
  | [], _, _ => ⟨rfl, rfl, rfl, rfl, rfl⟩
  | part :: rest, st, parent => by
    rw [walkParents.eq_def]
    simp only []
    cases hex : get_existing_child st.drive parent part with
    | some existing =>
      simp only []
      by_cases hty : existing.type = ItemType.folder
      · rw [if_pos hty]
        exact walkParents_frame policy rest _ _
      · rw [if_neg hty]
        by_cases hrn : policy = CollisionPolicy.rename
        · rw [if_pos hrn]
          exact walkParents_frame policy rest _ _
        · rw [if_neg hrn]
          by_cases hsk : policy = CollisionPolicy.skip
          · rw [if_pos hsk]
            exact ⟨rfl, rfl, rfl, rfl, rfl⟩
          · rw [if_neg hsk]
            exact ⟨rfl, rfl, rfl, rfl, rfl⟩
    | none =>
      simp only []
      exact walkParents_frame policy rest _ _

/-- Under `rename` the parent walk always proceeds. -/
theorem walkParents_rename_proceed :
    ∀ (parts : List Str) (st : EngineSt) (parent : Item),
      ∃ st' p', walkParents .rename parts st parent = (st', .proceed p')
  | [], st, parent => ⟨st, parent, rfl⟩
  | part :: rest, st, parent => by
    rw [walkParents.eq_def]
    simp only []
    cases hex : get_existing_child st.drive parent part with
    | some existing =>
      simp only []
      by_cases hty : existing.type = ItemType.folder
      · rw [if_pos hty]
        exact walkParents_rename_proceed rest _ _
      · rw [if_neg hty, if_pos trivial]
        exact walkParents_rename_proceed rest _ _
    | none =>
      simp only []
      exact walkParents_rename_proceed rest _ _

/-- `progressedEntry` bumps the counters and appends one payload carrying
the new counters, relative to a frame-equal state. -/
theorem progressedEntry_shape (st0 st1 : EngineSt) (size tf tb : Nat)
    (hf : st1.files_done = st0.files_done)
    (hb : st1.bytes_done = st0.bytes_done)
    (hl : st1.statusLog = st0.statusLog) :
    st0.files_done ≤ (progressedEntry st1 size tf tb).files_done ∧
    st0.bytes_done ≤ (progressedEntry st1 size tf tb).bytes_done ∧
    ((progressedEntry st1 size tf tb).statusLog = st0.statusLog ∨
      ∃ x : JobStatus,
        (progressedEntry st1 size tf tb).statusLog = st0.statusLog ++ [x] ∧
        x.progress.files_done = (progressedEntry st1 size tf tb).files_done ∧
        x.progress.bytes_done = (progressedEntry st1 size tf tb).bytes_done) := by
  refine ⟨?_, ?_, Or.inr ⟨runningStatus { st1 with
      files_done := st1.files_done + 1,
      bytes_done := st1.bytes_done + size } tf tb, ?_, rfl, rfl⟩⟩
  · rw [← hf]
    exact Nat.le_add_right _ 1
  · rw [← hb]
    exact Nat.le_add_right _ size
  · show st1.statusLog ++ _ = st0.statusLog ++ _
    rw [hl]

/-- One pass of the loop never decreases the counters and appends at most
one payload, which carries the new counters. -/
theorem processZipEntry_progress (policy : CollisionPolicy)
    (plan : ExtractionPlan) (dest : Item) (info : ZipEntry) (st : EngineSt) :
    st.files_done ≤ (processZipEntry policy plan dest info st).1.files_done ∧
    st.bytes_done ≤ (processZipEntry policy plan dest info st).1.bytes_done ∧
    ((processZipEntry policy plan dest info st).1.statusLog = st.statusLog ∨
      ∃ x : JobStatus,
        (processZipEntry policy plan dest info st).1.statusLog =
          st.statusLog ++ [x] ∧
        x.progress.files_done =
          (processZipEntry policy plan dest info st).1.files_done ∧
        x.progress.bytes_done =
          (processZipEntry policy plan dest info st).1.bytes_done) := by
  unfold processZipEntry
  by_cases h1 : info.isDirEntry = true
  · rw [if_pos h1]
    exact ⟨le_refl _, le_refl _, Or.inl rfl⟩
  · rw [if_neg h1]
    by_cases h2 : zipinfo_is_symlink info = true
    · rw [if_pos h2]
      exact ⟨le_refl _, le_refl _, Or.inl rfl⟩
    · rw [if_neg h2]
      cases hn : normalize_archive_path info.filename with
      | error e => exact ⟨le_refl _, le_refl _, Or.inl rfl⟩
      | ok n0 =>
        simp only []
        by_cases h3 : n0.normalized ∈ plan.paths
        · rw [if_pos h3]
          cases hn2 : normalize_archive_path n0.normalized with
          | error e2 => exact ⟨le_refl _, le_refl _, Or.inl rfl⟩
          | ok npath =>
            simp only []
            have hframe := walkParents_frame policy npath.parent_parts st dest
            cases hwalk : walkParents policy npath.parent_parts st dest with
            | mk st1 outcome =>
              rw [hwalk] at hframe
              obtain ⟨hff, hfb, _, _, hfl⟩ := hframe
              cases outcome with
              | fatal =>
                exact ⟨le_of_eq hff.symm, le_of_eq hfb.symm, Or.inl hfl⟩
              | skipEntry =>
                exact progressedEntry_shape st st1 info.file_size
                  plan.total_files plan.total_bytes hff hfb hfl
              | proceed parent_folder =>
                simp only []
                cases hex : get_existing_child st1.drive parent_folder
                    npath.name with
                | some ex =>
                  simp only []
                  by_cases hty : ex.type = ItemType.file
                  · rw [if_pos hty]
                    cases policy with
                    | skip =>
                      exact progressedEntry_shape st st1 info.file_size
                        plan.total_files plan.total_bytes hff hfb hfl
                    | overwrite =>
                      unfold overwriteFile
                      by_cases hfn : ex.filename = none ∨ ex.filename = some []
                      · rw [if_pos hfn]
                        exact ⟨le_of_eq hff.symm, le_of_eq hfb.symm, Or.inl hfl⟩
                      · rw [if_neg hfn]
                        exact progressedEntry_shape st _ info.file_size
                          plan.total_files plan.total_bytes hff hfb hfl
                    | rename =>
                      exact progressedEntry_shape st _ info.file_size
                        plan.total_files plan.total_bytes hff hfb hfl
                  · rw [if_neg hty]
                    cases policy with
                    | skip =>
                      exact progressedEntry_shape st st1 info.file_size
                        plan.total_files plan.total_bytes hff hfb hfl
                    | rename =>
                      exact progressedEntry_shape st _ info.file_size
                        plan.total_files plan.total_bytes hff hfb hfl
                    | overwrite =>
                      exact ⟨le_of_eq hff.symm, le_of_eq hfb.symm, Or.inl hfl⟩
                | none =>
                  simp only []
                  exact progressedEntry_shape st _ info.file_size
                    plan.total_files plan.total_bytes hff hfb hfl
        · rw [if_neg h3]
          exact ⟨le_refl _, le_refl _, Or.inl rfl⟩

/-- The loop preserves payload monotonicity and counter dominance. -/
theorem extractZipEntries_mono (policy : CollisionPolicy)
    (plan : ExtractionPlan) (dest : Item) :
    ∀ (l : List ZipEntry) (st : EngineSt),
      logMono st.statusLog → logDominated st →
      logMono (extractZipEntries policy plan dest l st).1.statusLog ∧
      logDominated (extractZipEntries policy plan dest l st).1
  | [], _, hm, hd => ⟨hm, hd⟩
  | info :: rest, st, hm, hd => by
    rw [extractZipEntries.eq_def]
    simp only []
    obtain ⟨hf, hb, hlog⟩ := processZipEntry_progress policy plan dest info st
    cases hstep : processZipEntry policy plan dest info st with
    | mk st' res =>
      rw [hstep] at hf hb hlog
      have hm' : logMono st'.statusLog := by
        rcases hlog with hsame | ⟨x, hx, hxf, hxb⟩
        · rw [hsame]; exact hm
        · rw [hx]
          refine logMono_append _ _ hm (fun s hs => ⟨?_, ?_⟩)
          · rw [hxf]; exact le_trans (hd s hs).1 hf
          · rw [hxb]; exact le_trans (hd s hs).2 hb
      have hd' : logDominated st' := by
        intro s hs
        rcases hlog with hsame | ⟨x, hx, hxf, hxb⟩
        · rw [hsame] at hs
          exact ⟨le_trans (hd s hs).1 hf, le_trans (hd s hs).2 hb⟩
        · rw [hx] at hs
          rcases List.mem_append.mp hs with hs1 | hs2
          · exact ⟨le_trans (hd s hs1).1 hf, le_trans (hd s hs1).2 hb⟩
          · rcases List.mem_singleton.mp hs2 with rfl
            exact ⟨le_of_eq hxf, le_of_eq hxb⟩
      cases res with
      | none => exact extractZipEntries_mono policy plan dest rest st' hm' hd'
      | some e => exact ⟨hm', hd'⟩

/-- Whole-run payload monotonicity, for every input. -/
theorem run_logMono (strict : Bool) (limits : ArchiveExtractionLimits)
    (d0 : Drive) (archive : Item) (zipEntries : List ZipEntry)
    (destination0 : Item) (mode : ArchiveMode) (selection_paths : List Str)
    (policy : CollisionPolicy) (crf : Bool) :
    logMono (extract_zip_archive_to_drive strict limits d0 archive zipEntries
      destination0 mode selection_paths policy crf).st.statusLog := by
  unfold extract_zip_archive_to_drive
  by_cases h1 : destination0.type ≠ ItemType.folder
  · rw [if_pos h1]
    exact List.chain'_nil
  · rw [if_neg h1]
    by_cases h2 : archive.type ≠ ItemType.file ∨ archive.filename = none ∨
        archive.filename = some []
    · rw [if_pos h2]
      exact List.chain'_nil
    · rw [if_neg h2]
      by_cases h3 : ¬ is_supported_archive archive
      · rw [if_pos h3]
        exact List.chain'_nil
      · rw [if_neg h3]
        simp only []
        generalize (if crf then
            create_child d0 destination0 .folder
              (default_root_folder_title archive) none none
          else (destination0, d0)) = dd
        cases hplan : plan_zip strict limits zipEntries mode selection_paths with
        | error e => exact List.chain'_singleton _
        | ok plan =>
          simp only []
          have hm2 : logMono ((update_progress
              { initialEngineSt dd.2 with statusLog := [initialRunningStatus] }
              plan.total_files plan.total_bytes).statusLog) :=
            List.chain'_cons.mpr ⟨⟨le_refl 0, le_refl 0⟩,
              List.chain'_singleton _⟩
          have hd2 : logDominated (update_progress
              { initialEngineSt dd.2 with statusLog := [initialRunningStatus] }
              plan.total_files plan.total_bytes) := by
            intro s hs
            rcases List.mem_cons.mp hs with rfl | hs2
            · exact ⟨Nat.le_refl 0, Nat.le_refl 0⟩
            · rcases List.mem_singleton.mp hs2 with rfl
              exact ⟨Nat.le_refl 0, Nat.le_refl 0⟩
          obtain ⟨hm3, hd3⟩ := extractZipEntries_mono policy plan dd.1
            zipEntries _ hm2 hd2
          cases hstep : extractZipEntries policy plan dd.1 zipEntries
              (update_progress
                { initialEngineSt dd.2 with
                  statusLog := [initialRunningStatus] }
                plan.total_files plan.total_bytes) with
          | mk st3 res =>
            rw [hstep] at hm3 hd3
            cases res with
            | some e => exact hm3
            | none =>
              refine logMono_append _ _ hm3 (fun s hs => ⟨?_, ?_⟩)
              · exact (hd3 s hs).1
              · exact (hd3 s hs).2

/-- Under `rename` one pass never raises; it bumps `files_done` by one and
`bytes_done` by the entry size exactly when the entry is processed. -/
theorem processZipEntry_rename (plan : ExtractionPlan) (dest : Item)
    (info : ZipEntry) (st : EngineSt) :
    (processZipEntry .rename plan dest info st).2 = none ∧
    (processZipEntry .rename plan dest info st).1.files_done =
      st.files_done + (if entryProcessedB plan info then 1 else 0) ∧
    (processZipEntry .rename plan dest info st).1.bytes_done =
      st.bytes_done + (if entryProcessedB plan info then info.file_size
        else 0) := by
  unfold processZipEntry
  by_cases h1 : info.isDirEntry = true
  · have hpb : entryProcessedB plan info = false := by
      simp [entryProcessedB, h1]
    rw [if_pos h1]
    exact ⟨rfl, by simp [hpb], by simp [hpb]⟩
  · rw [if_neg h1]
    by_cases h2 : zipinfo_is_symlink info = true
    · have hpb : entryProcessedB plan info = false := by
        simp [entryProcessedB, h2]
      rw [if_pos h2]
      exact ⟨rfl, by simp [hpb], by simp [hpb]⟩
    · rw [if_neg h2]
      cases hn : normalize_archive_path info.filename with
      | error e =>
        have hpb : entryProcessedB plan info = false := by
          simp [entryProcessedB, h1, h2, hn]
        exact ⟨rfl, by simp [hpb], by simp [hpb]⟩
      | ok n0 =>
        simp only []
        by_cases h3 : n0.normalized ∈ plan.paths
        · have hpb : entryProcessedB plan info = true := by
            simp [entryProcessedB, h1, h2, hn, h3]
          rw [if_pos h3, renormalize_ok info.filename n0 hn]
          simp only []
          have hframe := walkParents_frame .rename
            (NormalizedArchivePath.parent_parts
              { raw := n0.normalized, normalized := n0.normalized,
                parts := n0.parts }) st dest
          obtain ⟨st1, p', hwp⟩ := walkParents_rename_proceed
            (NormalizedArchivePath.parent_parts
              { raw := n0.normalized, normalized := n0.normalized,
                parts := n0.parts }) st dest
          rw [hwp] at hframe
          obtain ⟨hff, hfb, _, _, _⟩ := hframe
          rw [hwp]
          simp only []
          cases hex : get_existing_child st1.drive p'
              (NormalizedArchivePath.name
                { raw := n0.normalized, normalized := n0.normalized,
                  parts := n0.parts }) with
          | some ex =>
            simp only []
            by_cases hty : ex.type = ItemType.file
            · rw [if_pos hty]
              refine ⟨rfl, ?_, ?_⟩
              · rw [if_pos hpb]
                show st1.files_done + 1 = st.files_done + 1
                rw [hff]
              · rw [if_pos hpb]
                show st1.bytes_done + info.file_size =
                  st.bytes_done + info.file_size
                rw [hfb]
            · rw [if_neg hty]
              refine ⟨rfl, ?_, ?_⟩
              · rw [if_pos hpb]
                show st1.files_done + 1 = st.files_done + 1
                rw [hff]
              · rw [if_pos hpb]
                show st1.bytes_done + info.file_size =
                  st.bytes_done + info.file_size
                rw [hfb]
          | none =>
            simp only []
            refine ⟨by trivial, ?_, ?_⟩
            · rw [if_pos hpb]
              show st1.files_done + 1 = st.files_done + 1
              rw [hff]
            · rw [if_pos hpb]
              show st1.bytes_done + info.file_size =
                st.bytes_done + info.file_size
              rw [hfb]
        · have hpb : entryProcessedB plan info = false := by
            simp [entryProcessedB, h1, h2, hn, h3]
          rw [if_neg h3]
          exact ⟨rfl, by simp [hpb], by simp [hpb]⟩

/-- Under `rename` the loop never raises and advances the counters by
exactly one file / one entry size per processed entry. -/
theorem extractZipEntries_rename (plan : ExtractionPlan) (dest : Item) :
    ∀ (l : List ZipEntry) (st : EngineSt),
      (extractZipEntries .rename plan dest l st).2 = none ∧
      (extractZipEntries .rename plan dest l st).1.files_done =
        st.files_done + (l.filter (entryProcessedB plan)).length ∧
      (extractZipEntries .rename plan dest l st).1.bytes_done =
        st.bytes_done + ((l.filter (entryProcessedB plan)).map
          (·.file_size)).sum
  | [], st => ⟨rfl, by simp [extractZipEntries], by simp [extractZipEntries]⟩
  | info :: rest, st => by
    rw [extractZipEntries.eq_def]
    simp only []
    obtain ⟨hres, hfd, hbd⟩ := processZipEntry_rename plan dest info st
    cases hstep : processZipEntry .rename plan dest info st with
    | mk st' res =>
      rw [hstep] at hres hfd hbd
      simp only [] at hres
      subst hres
      simp only []
      obtain ⟨ih1, ih2, ih3⟩ := extractZipEntries_rename plan dest rest st'
      rw [List.filter_cons]
      by_cases hpb : entryProcessedB plan info = true
      · rw [if_pos hpb]
        refine ⟨ih1, ?_, ?_⟩
        · rw [ih2, hfd, if_pos hpb, List.length_cons]
          omega
        · rw [ih3, hbd, if_pos hpb, List.map_cons, List.sum_cons]
          omega
      · rw [if_neg hpb]
        refine ⟨ih1, ?_, ?_⟩
        · rw [ih2, hfd, if_neg hpb]
          omega
        · rw [ih3, hbd, if_neg hpb]
          omega

theorem filter_filter_and {α : Type} (p q : α → Bool) :
    ∀ l : List α, (l.filter q).filter p = l.filter (fun a => p a && q a)
  | [] => rfl
  | a :: t => by
    rw [List.filter_cons]
    by_cases hq : q a = true
    · rw [if_pos hq, List.filter_cons]
      by_cases hp : p a = true
      · rw [if_pos hp, List.filter_cons, if_pos (by simp [hp, hq]),
          filter_filter_and p q t]
      · rw [if_neg hp, List.filter_cons, if_neg (by simp [hp]),
          filter_filter_and p q t]
    · rw [if_neg hq, List.filter_cons, if_neg (by simp [hq]),
        filter_filter_and p q t]

theorem filter_map_comm {α β : Type} (f : α → β) (q : β → Bool) :
    ∀ l : List α, (l.map f).filter q = (l.filter (fun x => q (f x))).map f
  | [] => rfl
  | a :: t => by
    rw [List.map_cons, List.filter_cons, List.filter_cons]
    by_cases h : q (f a) = true
    · rw [if_pos h, if_pos h, List.map_cons, filter_map_comm f q t]
    · rw [if_neg h, if_neg h, filter_map_comm f q t]

/-- With pairwise-distinct stored names, `getinfo` resolves each entry's own
name to that entry (the last-wins ambiguity disappears). -/
theorem find?_filename_nodup :
    ∀ (l : List ZipEntry) (e : ZipEntry),
      (l.map (·.filename)).Nodup → e ∈ l →
      l.find? (fun x => decide (x.filename = e.filename)) = some e
  | [], e, _, he => absurd he (List.not_mem_nil e)
  | a :: t, e, hnd, he => by
    have hnd' : (a.filename :: t.map (·.filename)).Nodup := by
      simpa using hnd
    rcases List.mem_cons.mp he with rfl | het
    · exact List.find?_cons_of_pos t (by simp)
    · have hne : ¬ (decide (a.filename = e.filename)) = true := by
        simp only [decide_eq_true_eq]
        intro hEq
        exact (List.nodup_cons.mp hnd').1
          (hEq ▸ List.mem_map_of_mem (·.filename) het)
      rw [List.find?_cons_of_neg t (by simpa using hne)]
      exact find?_filename_nodup t e (List.nodup_cons.mp hnd').2 het

theorem getinfo_nodup {entries : List ZipEntry}
    (hnd : (entries.map (·.filename)).Nodup) {e : ZipEntry}
    (he : e ∈ entries) : getinfo entries e.filename = some e := by
  unfold getinfo
  refine find?_filename_nodup entries.reverse e ?_ (List.mem_reverse.mpr he)
  rw [List.map_reverse]
  exact List.nodup_reverse.mpr hnd

/-- With distinct names, the `mode=all` selection the planner counts is
exactly the clean entries' names. -/
theorem zipSelected_filter_eq (entries : List ZipEntry)
    (hnd : (entries.map (·.filename)).Nodup) :
    (zipAllPaths entries).filter (zipCountsEntry entries) =
      (entries.filter entryCleanB).map (·.filename) := by
  show ((entries.filter (fun i => !i.isDirEntry && !zipinfo_is_symlink i)).map
      (·.filename)).filter (zipCountsEntry entries) = _
  rw [filter_map_comm, filter_filter_and]
  congr 1
  apply List.filter_congr
  intro e he
  unfold entryCleanB
  by_cases h1 : e.isDirEntry = true
  · simp [h1]
  · by_cases h2 : zipinfo_is_symlink e = true
    · simp [h2]
    · have hg := getinfo_nodup hnd he
      unfold zipCountsEntry
      cases hn : normalize_archive_path e.filename with
      | error er => simp [hn, hg, h1, h2, isErr]
      | ok n0 => simp [hn, hg, h1, h2, isErr]

theorem zipSelectedFiles_nodup (entries : List ZipEntry)
    (hnd : (entries.map (·.filename)).Nodup) :
    zipSelectedFiles entries (zipAllPaths entries) =
      (entries.filter entryCleanB).length := by
  unfold zipSelectedFiles
  rw [zipSelected_filter_eq entries hnd, List.length_map]

theorem zipSelectedBytes_nodup (entries : List ZipEntry)
    (hnd : (entries.map (·.filename)).Nodup) :
    zipSelectedBytes entries (zipAllPaths entries) =
      ((entries.filter entryCleanB).map (·.file_size)).sum := by
  unfold zipSelectedBytes
  rw [zipSelected_filter_eq entries hnd, List.map_map]
  congr 1
  apply List.map_congr_left
  intro e he
  have hg := getinfo_nodup hnd (List.mem_of_mem_filter he)
  show zipRawSize entries e.filename = e.file_size
  unfold zipRawSize
  rw [hg]

/-- With distinct names and the `mode=all` plan, the loop advances exactly
over the clean entries. -/
theorem entryProcessed_eq_clean (entries : List ZipEntry)
    (hnd : (entries.map (·.filename)).Nodup) (plan : ExtractionPlan)
    (hpaths : plan.paths = zipSelectedPaths entries (zipAllPaths entries)) :
    ∀ e ∈ entries, entryProcessedB plan e = entryCleanB e := by
  intro e he
  unfold entryProcessedB entryCleanB
  by_cases h1 : e.isDirEntry = true
  · simp [h1]
  · by_cases h2 : zipinfo_is_symlink e = true
    · simp [h2]
    · cases hn : normalize_archive_path e.filename with
      | error er => simp [hn, isErr]
      | ok n0 =>
        have hmem : n0.normalized ∈ plan.paths := by
          rw [hpaths]
          have he2 : e ∈ entries.filter
              (fun i => !i.isDirEntry && !zipinfo_is_symlink i) :=
            List.mem_filter.mpr ⟨he, by simp [h1, h2]⟩
          have hraw : e.filename ∈ zipAllPaths entries :=
            List.mem_map_of_mem (·.filename) he2
          have hcount : zipCountsEntry entries e.filename = true := by
            unfold zipCountsEntry
            simp [hn, getinfo_nodup hnd he, h2]
          have hsel : e.filename ∈
              (zipAllPaths entries).filter (zipCountsEntry entries) :=
            List.mem_filter.mpr ⟨hraw, hcount⟩
          have hin := List.mem_map_of_mem zipRawNormalized hsel
          have hzn : zipRawNormalized e.filename = n0.normalized := by
            unfold zipRawNormalized
            rw [hn]
          rw [← hzn]
          exact hin
        simp [hn, h1, h2, hmem, isErr]

/-- A successful `mode=all` zip plan is exactly the selected-characterization
value. -/
theorem plan_zip_all_ok_inv (limits : ArchiveExtractionLimits)
    (entries : List ZipEntry) (selection : List Str) (plan : ExtractionPlan)
    (hplan : plan_zip false limits entries .all selection = .ok plan) :
    plan = { paths := zipSelectedPaths entries (zipAllPaths entries),
             total_files := zipSelectedFiles entries (zipAllPaths entries),
             total_bytes := zipSelectedBytes entries (zipAllPaths entries) } := by
  have hsel : filter_paths (zipAllPaths entries) .all selection =
      .ok (zipAllPaths entries) := rfl
  have herr := plan_zip_err_iff limits entries .all selection
    (zipAllPaths entries) hsel
  have hnov : ∀ raw ∈ zipAllPaths entries,
      zipEntryViolationB limits entries raw = false := by
    intro raw hraw
    cases hv : zipEntryViolationB limits entries raw with
    | false => rfl
    | true =>
      have hc : isErr (plan_zip false limits entries .all selection) = true :=
        herr.mpr (Or.inl ⟨raw, hraw, hv⟩)
      rw [hplan] at hc
      exact absurd hc (by simp [isErr])
  have hfiles : ¬ zipSelectedFiles entries (zipAllPaths entries) >
      limits.max_files := by
    intro hgt
    have hc : isErr (plan_zip false limits entries .all selection) = true :=
      herr.mpr (Or.inr (Or.inl hgt))
    rw [hplan] at hc
    exact absurd hc (by simp [isErr])
  have hbytes : ¬ zipSelectedBytes entries (zipAllPaths entries) >
      limits.max_total_size := by
    intro hgt
    have hc : isErr (plan_zip false limits entries .all selection) = true :=
      herr.mpr (Or.inr (Or.inr hgt))
    rw [hplan] at hc
    exact absurd hc (by simp [isErr])
  have hval := plan_zip_ok_val limits entries .all selection
    (zipAllPaths entries) hsel hnov hfiles hbytes
  rw [hplan] at hval
  exact Except.ok.injEq _ _ ▸ hval

/-- Terminal payload of a successful distinct-names `mode=all` `rename` run:
the job ends `done` and the counters meet the plan totals. -/
theorem run_rename_terminal (limits : ArchiveExtractionLimits) (d0 : Drive)
    (archive : Item) (zipEntries : List ZipEntry) (destination0 : Item)
    (selection_paths : List Str) (crf : Bool) (plan : ExtractionPlan)
    (hdest : destination0.type = ItemType.folder)
    (harch : archive.type = ItemType.file)
    (f : Str) (hf : archive.filename = some f) (hfne : f ≠ [])
    (hzip : is_zip_filename f = true)
    (hplan : plan_zip false limits zipEntries .all selection_paths = .ok plan)
    (hnd : (zipEntries.map (·.filename)).Nodup)
    (r : ExtractRunResult)
    (hr : r = extract_zip_archive_to_drive false limits d0 archive zipEntries
      destination0 .all selection_paths .rename crf) :
    r.result = none ∧
    (r.st.statusLog.getLastD unknownStatus).state = JobState.done ∧
    (r.st.statusLog.getLastD unknownStatus).progress.files_done =
      plan.total_files ∧
    (r.st.statusLog.getLastD unknownStatus).progress.bytes_done =
      plan.total_bytes ∧
    (r.st.statusLog.getLastD unknownStatus).progress.total =
      plan.total_files ∧
    (r.st.statusLog.getLastD unknownStatus).progress.bytes_total =
      plan.total_bytes := by
  subst hr
  have hpv := plan_zip_all_ok_inv limits zipEntries selection_paths plan hplan
  have hproc : List.filter (entryProcessedB plan) zipEntries =
      List.filter entryCleanB zipEntries :=
    List.filter_congr (entryProcessed_eq_clean zipEntries hnd plan
      (by rw [hpv]))
  have hfiles : plan.total_files = (zipEntries.filter entryCleanB).length := by
    rw [hpv]
    exact zipSelectedFiles_nodup zipEntries hnd
  have hbytes : plan.total_bytes =
      ((zipEntries.filter entryCleanB).map (·.file_size)).sum := by
    rw [hpv]
    exact zipSelectedBytes_nodup zipEntries hnd
  rw [extract_run_eq false limits d0 archive zipEntries destination0 .all
    selection_paths .rename crf hdest harch f hf hfne hzip]
  simp only [hplan]
  generalize (if crf then
      create_child d0 destination0 .folder
        (default_root_folder_title archive) none none
    else (destination0, d0)) = dd
  obtain ⟨hres, hfd, hbd⟩ := extractZipEntries_rename plan dd.1 zipEntries
    (update_progress { initialEngineSt dd.2 with
      statusLog := [initialRunningStatus] } plan.total_files plan.total_bytes)
  cases hstep : extractZipEntries .rename plan dd.1 zipEntries
      (update_progress { initialEngineSt dd.2 with
        statusLog := [initialRunningStatus] } plan.total_files
        plan.total_bytes) with
  | mk st3 res =>
    rw [hstep] at hres hfd hbd
    simp only [] at hres
    subst hres
    simp only []
    rw [getLastD_concat]
    refine ⟨by trivial, by trivial, ?_, ?_, by trivial, by trivial⟩
    · show st3.files_done = plan.total_files
      rw [hfd, hproc, hfiles]
      simp [update_progress, initialEngineSt]
    · show st3.bytes_done = plan.total_bytes
      rw [hbd, hproc, hbytes]
      simp [update_progress, initialEngineSt]

/-- Inversion of `zipCountsEntry`: a counted raw name normalizes, resolves
through `getinfo`, and its entry is not a symlink. -/
theorem zipCountsEntry_inv {entries : List ZipEntry} {raw : Str}
    (h : zipCountsEntry entries raw = true) :
    ∃ nr info, normalize_archive_path raw = .ok nr ∧
      getinfo entries raw = some info ∧
      zipinfo_is_symlink info = false := by
  cases hn : normalize_archive_path raw with
  | error e =>
    exfalso
    have hf : zipCountsEntry entries raw = false := by
      unfold zipCountsEntry
      cases hg : getinfo entries raw <;> simp only [hn, hg]
    rw [hf] at h
    exact Bool.noConfusion h
  | ok nr =>
    cases hg : getinfo entries raw with
    | none =>
      exfalso
      have hf : zipCountsEntry entries raw = false := by
        unfold zipCountsEntry
        simp only [hn, hg]
      rw [hf] at h
      exact Bool.noConfusion h
    | some info =>
      have hs : zipCountsEntry entries raw = !zipinfo_is_symlink info := by
        unfold zipCountsEntry
        simp only [hn, hg]
      rw [hs] at h
      exact ⟨nr, info, rfl, rfl, by simpa using h⟩

/-- A raw-name predicate that factors through the normalized form: two raw
names with the same normalization are selected alike. -/
def normFactors (q : Str → Bool) : Prop :=
  ∀ r r' n n', normalize_archive_path r = .ok n →
    normalize_archive_path r' = .ok n' → n.normalized = n'.normalized →
    q r = q r'

theorem selectionPred_factors (m : SelectionMatchers) :
    normFactors (selectionPred m) := by
  intro r r' n n' hr hr' he
  unfold selectionPred
  simp only [hr, hr']
  rw [he]

theorem filter_const_true {α : Type} :
    ∀ l : List α, l.filter (fun _ => true) = l
  | [] => rfl
  | a :: t => by rw [List.filter_cons, if_pos rfl, filter_const_true t]

/-- `_filter_paths` always selects by a predicate on the raw names that
factors through normalization: everything in `mode=all`, the selection
matchers (which test only the normalized string) in `mode=selection`. -/
theorem filter_paths_shape (paths : List Str) (mode : ArchiveMode)
    (selection selected : List Str)
    (hsel : filter_paths paths mode selection = .ok selected) :
    ∃ q : Str → Bool, normFactors q ∧ selected = paths.filter q := by
  cases mode with
  | all =>
    refine ⟨fun _ => true, fun r r' n n' _ _ _ => rfl, ?_⟩
    have h2 : filter_paths paths ArchiveMode.all selection = .ok paths := rfl
    rw [h2] at hsel
    have h3 : paths = selected := Except.ok.injEq _ _ ▸ hsel
    rw [← h3, filter_const_true]
  | selection =>
    cases hm : selection_matchers selection with
    | error er =>
      exfalso
      have hfe : filter_paths paths ArchiveMode.selection selection =
          .error er := by
        unfold filter_paths
        rw [hm, bindErr]
      rw [hfe] at hsel
      exact Except.noConfusion hsel
    | ok m =>
      refine ⟨selectionPred m, selectionPred_factors m, ?_⟩
      have h2 := filter_paths_selection_eq paths selection m hm
      rw [h2] at hsel
      exact (Except.ok.injEq _ _ ▸ hsel).symm

/-- Under any collision policy, a pass of the loop that does not raise bumps
`files_done` by one and `bytes_done` by the entry size exactly when the
entry is processed (all non-fatal branches — written, collision-skipped or
overwritten — advance the counters the same way). -/
theorem processZipEntry_counters (policy : CollisionPolicy)
    (plan : ExtractionPlan) (dest : Item) (info : ZipEntry)
    (st st' : EngineSt)
    (h : processZipEntry policy plan dest info st = (st', none)) :
    st'.files_done = st.files_done +
      (if entryProcessedB plan info then 1 else 0) ∧
    st'.bytes_done = st.bytes_done +
      (if entryProcessedB plan info then info.file_size else 0) := by
  unfold processZipEntry at h
  by_cases h1 : info.isDirEntry = true
  · have hpb : entryProcessedB plan info = false := by
      simp [entryProcessedB, h1]
    rw [if_pos h1] at h
    injection h with ha _
    subst ha
    exact ⟨by simp [hpb], by simp [hpb]⟩
  · rw [if_neg h1] at h
    by_cases h2 : zipinfo_is_symlink info = true
    · have hpb : entryProcessedB plan info = false := by
        simp [entryProcessedB, h2]
      rw [if_pos h2] at h
      injection h with ha _
      subst ha
      exact ⟨by simp [hpb], by simp [hpb]⟩
    · rw [if_neg h2] at h
      cases hn : normalize_archive_path info.filename with
      | error e =>
        have hpb : entryProcessedB plan info = false := by
          simp [entryProcessedB, h1, h2, hn]
        simp only [hn] at h
        injection h with ha _
        subst ha
        exact ⟨by simp [hpb], by simp [hpb]⟩
      | ok n0 =>
        simp only [hn] at h
        by_cases h3 : n0.normalized ∈ plan.paths
        · have hpb : entryProcessedB plan info = true := by
            simp [entryProcessedB, h1, h2, hn, h3]
          rw [if_pos h3] at h
          simp only [renormalize_ok info.filename n0 hn] at h
          have hframe := walkParents_frame policy
            (NormalizedArchivePath.parent_parts
              { raw := n0.normalized, normalized := n0.normalized,
                parts := n0.parts }) st dest
          cases hwalk : walkParents policy
              (NormalizedArchivePath.parent_parts
                { raw := n0.normalized, normalized := n0.normalized,
                  parts := n0.parts }) st dest with
          | mk st1 outcome =>
            rw [hwalk] at hframe h
            obtain ⟨hff, hfb, _, _, _⟩ := hframe
            cases outcome with
            | fatal =>
              simp only [] at h
              injection h with _ hres
              exact Option.noConfusion hres
            | skipEntry =>
              simp only [] at h
              injection h with ha _
              subst ha
              refine ⟨?_, ?_⟩
              · rw [if_pos hpb]
                show st1.files_done + 1 = st.files_done + 1
                rw [hff]
              · rw [if_pos hpb]
                show st1.bytes_done + info.file_size =
                  st.bytes_done + info.file_size
                rw [hfb]
            | proceed parent_folder =>
              simp only [] at h
              cases hex : get_existing_child st1.drive parent_folder
                  (NormalizedArchivePath.name
                    { raw := n0.normalized, normalized := n0.normalized,
                      parts := n0.parts }) with
              | some ex =>
                simp only [hex] at h
                by_cases hty : ex.type = ItemType.file
                · rw [if_pos hty] at h
                  cases policy with
                  | skip =>
                    simp only [] at h
                    injection h with ha _
                    subst ha
                    refine ⟨?_, ?_⟩
                    · rw [if_pos hpb]
                      show st1.files_done + 1 = st.files_done + 1
                      rw [hff]
                    · rw [if_pos hpb]
                      show st1.bytes_done + info.file_size =
                        st.bytes_done + info.file_size
                      rw [hfb]
                  | overwrite =>
                    simp only [] at h
                    unfold overwriteFile at h
                    by_cases hfn : ex.filename = none ∨ ex.filename = some []
                    · rw [if_pos hfn] at h
                      injection h with _ hres
                      exact Option.noConfusion hres
                    · rw [if_neg hfn] at h
                      injection h with ha _
                      subst ha
                      refine ⟨?_, ?_⟩
                      · rw [if_pos hpb]
                        show st1.files_done + 1 = st.files_done + 1
                        rw [hff]
                      · rw [if_pos hpb]
                        show st1.bytes_done + info.file_size =
                          st.bytes_done + info.file_size
                        rw [hfb]
                  | rename =>
                    simp only [] at h
                    injection h with ha _
                    subst ha
                    refine ⟨?_, ?_⟩
                    · rw [if_pos hpb]
                      show st1.files_done + 1 = st.files_done + 1
                      rw [hff]
                    · rw [if_pos hpb]
                      show st1.bytes_done + info.file_size =
                        st.bytes_done + info.file_size
                      rw [hfb]
                · rw [if_neg hty] at h
                  cases policy with
                  | skip =>
                    simp only [] at h
                    injection h with ha _
                    subst ha
                    refine ⟨?_, ?_⟩
                    · rw [if_pos hpb]
                      show st1.files_done + 1 = st.files_done + 1
                      rw [hff]
                    · rw [if_pos hpb]
                      show st1.bytes_done + info.file_size =
                        st.bytes_done + info.file_size
                      rw [hfb]
                  | rename =>
                    simp only [] at h
                    injection h with ha _
                    subst ha
                    refine ⟨?_, ?_⟩
                    · rw [if_pos hpb]
                      show st1.files_done + 1 = st.files_done + 1
                      rw [hff]
                    · rw [if_pos hpb]
                      show st1.bytes_done + info.file_size =
                        st.bytes_done + info.file_size
                      rw [hfb]
                  | overwrite =>
                    simp only [] at h
                    injection h with _ hres
                    exact Option.noConfusion hres
              | none =>
                simp only [hex] at h
                injection h with ha _
                subst ha
                refine ⟨?_, ?_⟩
                · rw [if_pos hpb]
                  show st1.files_done + 1 = st.files_done + 1
                  rw [hff]
                · rw [if_pos hpb]
                  show st1.bytes_done + info.file_size =
                    st.bytes_done + info.file_size
                  rw [hfb]
        · have hpb : entryProcessedB plan info = false := by
            simp [entryProcessedB, h1, h2, hn, h3]
          rw [if_neg h3] at h
          injection h with ha _
          subst ha
          exact ⟨by simp [hpb], by simp [hpb]⟩

/-- Under any collision policy, a loop run that does not raise advances the
counters by exactly one file / one entry size per processed entry. -/
theorem extractZipEntries_counters (policy : CollisionPolicy)
    (plan : ExtractionPlan) (dest : Item) :
    ∀ (l : List ZipEntry) (st st' : EngineSt),
      extractZipEntries policy plan dest l st = (st', none) →
      st'.files_done = st.files_done +
        (l.filter (entryProcessedB plan)).length ∧
      st'.bytes_done = st.bytes_done +
        ((l.filter (entryProcessedB plan)).map (·.file_size)).sum
  | [], st, st', h => by
    have h2 : ((st, none) : EngineSt × Option ExtractError) = (st', none) := h
    injection h2 with ha _
    subst ha
    simp
  | info :: rest, st, st', h => by
    have hstep0 : extractZipEntries policy plan dest (info :: rest) st =
        (match processZipEntry policy plan dest info st with
         | (st1, none) => extractZipEntries policy plan dest rest st1
         | (st1, some e) => (st1, some e)) := rfl
    rw [hstep0] at h
    cases hproc : processZipEntry policy plan dest info st with
    | mk st1 res =>
      rw [hproc] at h
      cases res with
      | some e =>
        simp only [] at h
        injection h with _ hres
        exact Option.noConfusion hres
      | none =>
        simp only [] at h
        obtain ⟨hf1, hb1⟩ :=
          processZipEntry_counters policy plan dest info st st1 hproc
        obtain ⟨ihf, ihb⟩ :=
          extractZipEntries_counters policy plan dest rest st1 st' h
        rw [List.filter_cons]
        by_cases hpb : entryProcessedB plan info = true
        · rw [if_pos hpb]
          rw [if_pos hpb] at hf1 hb1
          refine ⟨?_, ?_⟩
          · rw [ihf, hf1, List.length_cons]
            omega
          · rw [ihb, hb1, List.map_cons, List.sum_cons]
            omega
        · rw [if_neg hpb]
          rw [if_neg hpb] at hf1 hb1
          refine ⟨?_, ?_⟩
          · rw [ihf, hf1]
            omega
          · rw [ihb, hb1]
            omega

/-- With distinct names, the counted part of any normalization-factoring
selection is exactly the clean selected entries' names. -/
theorem zipSelected_filter_eq_q (entries : List ZipEntry)
    (hnd : (entries.map (·.filename)).Nodup) (qf : Str → Bool) :
    ((zipAllPaths entries).filter qf).filter (zipCountsEntry entries) =
      (entries.filter (fun e => entryCleanB e && qf e.filename)).map
        (·.filename) := by
  show (((entries.filter (fun i => !i.isDirEntry && !zipinfo_is_symlink i)).map
      (·.filename)).filter qf).filter (zipCountsEntry entries) = _
  rw [filter_map_comm, filter_map_comm, filter_filter_and, filter_filter_and]
  congr 1
  apply List.filter_congr
  intro e he
  unfold entryCleanB
  by_cases h1 : e.isDirEntry = true
  · simp [h1]
  · by_cases h2 : zipinfo_is_symlink e = true
    · simp [h2]
    · have hg := getinfo_nodup hnd he
      unfold zipCountsEntry
      cases hn : normalize_archive_path e.filename with
      | error er => simp [hn, hg, h1, h2, isErr]
      | ok n0 => simp [hn, hg, h1, h2, isErr]

theorem zipSelectedFiles_nodup_q (entries : List ZipEntry)
    (hnd : (entries.map (·.filename)).Nodup) (qf : Str → Bool) :
    zipSelectedFiles entries ((zipAllPaths entries).filter qf) =
      (entries.filter (fun e => entryCleanB e && qf e.filename)).length := by
  unfold zipSelectedFiles
  rw [zipSelected_filter_eq_q entries hnd qf, List.length_map]

theorem zipSelectedBytes_nodup_q (entries : List ZipEntry)
    (hnd : (entries.map (·.filename)).Nodup) (qf : Str → Bool) :
    zipSelectedBytes entries ((zipAllPaths entries).filter qf) =
      ((entries.filter (fun e => entryCleanB e && qf e.filename)).map
        (·.file_size)).sum := by
  unfold zipSelectedBytes
  rw [zipSelected_filter_eq_q entries hnd qf, List.map_map]
  congr 1
  apply List.map_congr_left
  intro e he
  have hg := getinfo_nodup hnd (List.mem_of_mem_filter he)
  show zipRawSize entries e.filename = e.file_size
  unfold zipRawSize
  rw [hg]

/-- With distinct names and a plan selected by a normalization-factoring
predicate, the loop advances exactly over the clean selected entries: loop
membership is keyed by the same normalized strings the filter used. -/
theorem entryProcessed_eq_sel (entries : List ZipEntry)
    (hnd : (entries.map (·.filename)).Nodup) (qf : Str → Bool)
    (hq : normFactors qf) (plan : ExtractionPlan)
    (hpaths : plan.paths =
      zipSelectedPaths entries ((zipAllPaths entries).filter qf)) :
    ∀ e ∈ entries,
      entryProcessedB plan e = (entryCleanB e && qf e.filename) := by
  intro e he
  unfold entryProcessedB entryCleanB
  by_cases h1 : e.isDirEntry = true
  · simp [h1]
  · by_cases h2 : zipinfo_is_symlink e = true
    · simp [h2]
    · cases hn : normalize_archive_path e.filename with
      | error er => simp [hn, isErr]
      | ok n0 =>
        by_cases hqe : qf e.filename = true
        · have hmem : n0.normalized ∈ plan.paths := by
            rw [hpaths]
            have he2 : e ∈ entries.filter
                (fun i => !i.isDirEntry && !zipinfo_is_symlink i) :=
              List.mem_filter.mpr ⟨he, by simp [h1, h2]⟩
            have hraw : e.filename ∈ zipAllPaths entries :=
              List.mem_map_of_mem (·.filename) he2
            have hsel2 : e.filename ∈ (zipAllPaths entries).filter qf :=
              List.mem_filter.mpr ⟨hraw, hqe⟩
            have hcount : zipCountsEntry entries e.filename = true := by
              unfold zipCountsEntry
              simp [hn, getinfo_nodup hnd he, h2]
            have hsel3 : e.filename ∈
                ((zipAllPaths entries).filter qf).filter
                  (zipCountsEntry entries) :=
              List.mem_filter.mpr ⟨hsel2, hcount⟩
            have hin := List.mem_map_of_mem zipRawNormalized hsel3
            have hzn : zipRawNormalized e.filename = n0.normalized := by
              unfold zipRawNormalized
              rw [hn]
            rw [← hzn]
            exact hin
          simp [hn, h1, h2, hmem, isErr, hqe]
        · have hqe2 : qf e.filename = false := by simpa using hqe
          have hnmem : ¬ n0.normalized ∈ plan.paths := by
            rw [hpaths]
            intro hmm
            obtain ⟨raw, hrawmem, hrn⟩ := List.mem_map.mp hmm
            have hsplit := List.mem_filter.mp hrawmem
            have hrawq := (List.mem_filter.mp hsplit.1).2
            obtain ⟨nr, irr, hnr, _, _⟩ := zipCountsEntry_inv hsplit.2
            have hzr : zipRawNormalized raw = nr.normalized := by
              unfold zipRawNormalized
              rw [hnr]
            have hnn : nr.normalized = n0.normalized := by
              rw [← hzr, hrn]
            have hsame := hq raw e.filename nr n0 hnr hn hnn
            rw [hsame, hqe2] at hrawq
            exact Bool.noConfusion hrawq
          simp [hn, h1, h2, hnmem, isErr, hqe2]

/-- A plan the strict planner accepts is a plan the non-strict planner
accepts (the strict symlink gate is the only difference). -/
theorem plan_zip_ok_nonstrict (strict : Bool)
    (limits : ArchiveExtractionLimits) (entries : List ZipEntry)
    (mode : ArchiveMode) (selection : List Str) (plan : ExtractionPlan)
    (hplan : plan_zip strict limits entries mode selection = .ok plan) :
    plan_zip false limits entries mode selection = .ok plan := by
  unfold plan_zip at hplan ⊢
  rw [if_neg (by simp)]
  by_cases hc : strict = true ∧
      entries.any (fun i => zipinfo_is_symlink i) = true
  · rw [if_pos hc] at hplan
    exact Except.noConfusion hplan
  · rw [if_neg hc] at hplan
    exact hplan

/-- A successful plan presupposes a successful path filter. -/
theorem plan_zip_ok_filter (limits : ArchiveExtractionLimits)
    (entries : List ZipEntry) (mode : ArchiveMode) (selection : List Str)
    (plan : ExtractionPlan)
    (hplan : plan_zip false limits entries mode selection = .ok plan) :
    ∃ selected, filter_paths (zipAllPaths entries) mode selection =
      .ok selected := by
  unfold plan_zip at hplan
  rw [if_neg (by simp)] at hplan
  cases hfp : filter_paths (zipAllPaths entries) mode selection with
  | error e =>
    rw [hfp, bindErr] at hplan
    exact Except.noConfusion hplan
  | ok selected => exact ⟨selected, rfl⟩

/-- A successful zip plan, in either mode, is exactly the
selected-characterization value. -/
theorem plan_zip_ok_inv (limits : ArchiveExtractionLimits)
    (entries : List ZipEntry) (mode : ArchiveMode) (selection : List Str)
    (selected : List Str) (plan : ExtractionPlan)
    (hsel : filter_paths (zipAllPaths entries) mode selection = .ok selected)
    (hplan : plan_zip false limits entries mode selection = .ok plan) :
    plan = { paths := zipSelectedPaths entries selected,
             total_files := zipSelectedFiles entries selected,
             total_bytes := zipSelectedBytes entries selected } := by
  have herr := plan_zip_err_iff limits entries mode selection selected hsel
  have hnov : ∀ raw ∈ selected,
      zipEntryViolationB limits entries raw = false := by
    intro raw hraw
    cases hv : zipEntryViolationB limits entries raw with
    | false => rfl
    | true =>
      have hc : isErr (plan_zip false limits entries mode selection) = true :=
        herr.mpr (Or.inl ⟨raw, hraw, hv⟩)
      rw [hplan] at hc
      exact absurd hc (by simp [isErr])
  have hfiles : ¬ zipSelectedFiles entries selected > limits.max_files := by
    intro hgt
    have hc : isErr (plan_zip false limits entries mode selection) = true :=
      herr.mpr (Or.inr (Or.inl hgt))
    rw [hplan] at hc
    exact absurd hc (by simp [isErr])
  have hbytes : ¬ zipSelectedBytes entries selected >
      limits.max_total_size := by
    intro hgt
    have hc : isErr (plan_zip false limits entries mode selection) = true :=
      herr.mpr (Or.inr (Or.inr hgt))
    rw [hplan] at hc
    exact absurd hc (by simp [isErr])
  have hval := plan_zip_ok_val limits entries mode selection selected hsel
    hnov hfiles hbytes
  rw [hplan] at hval
  exact Except.ok.injEq _ _ ▸ hval

/-- Terminal payload of every successful validation-passing run — any
collision policy, `mode=all` or `mode=selection`, strict or not — with
pairwise-distinct stored names: the job ends `done` and the counters meet
the plan totals. -/
theorem run_terminal_totals (strict : Bool)
    (limits : ArchiveExtractionLimits) (d0 : Drive) (archive : Item)
    (zipEntries : List ZipEntry) (destination0 : Item) (mode : ArchiveMode)
    (selection_paths : List Str) (policy : CollisionPolicy) (crf : Bool)
    (plan : ExtractionPlan)
    (hdest : destination0.type = ItemType.folder)
    (harch : archive.type = ItemType.file)
    (f : Str) (hf : archive.filename = some f) (hfne : f ≠ [])
    (hzip : is_zip_filename f = true)
    (hplan : plan_zip strict limits zipEntries mode selection_paths = .ok plan)
    (hnd : (zipEntries.map (·.filename)).Nodup)
    (r : ExtractRunResult)
    (hr : r = extract_zip_archive_to_drive strict limits d0 archive zipEntries
      destination0 mode selection_paths policy crf)
    (hok : r.result = none) :
    (r.st.statusLog.getLastD unknownStatus).state = JobState.done ∧
    (r.st.statusLog.getLastD unknownStatus).progress.files_done =
      plan.total_files ∧
    (r.st.statusLog.getLastD unknownStatus).progress.bytes_done =
      plan.total_bytes ∧
    (r.st.statusLog.getLastD unknownStatus).progress.total =
      plan.total_files ∧
    (r.st.statusLog.getLastD unknownStatus).progress.bytes_total =
      plan.total_bytes := by
  subst hr
  have hplanF := plan_zip_ok_nonstrict strict limits zipEntries mode
    selection_paths plan hplan
  obtain ⟨selected, hsel⟩ := plan_zip_ok_filter limits zipEntries mode
    selection_paths plan hplanF
  have hpv := plan_zip_ok_inv limits zipEntries mode selection_paths selected
    plan hsel hplanF
  obtain ⟨qf, hq, hqsel⟩ := filter_paths_shape (zipAllPaths zipEntries) mode
    selection_paths selected hsel
  have hproc : List.filter (entryProcessedB plan) zipEntries =
      List.filter (fun e => entryCleanB e && qf e.filename) zipEntries :=
    List.filter_congr (entryProcessed_eq_sel zipEntries hnd qf hq plan
      (by rw [hpv, hqsel]))
  have hfiles : plan.total_files =
      (zipEntries.filter (fun e => entryCleanB e && qf e.filename)).length := by
    rw [hpv]
    show zipSelectedFiles zipEntries selected = _
    rw [hqsel]
    exact zipSelectedFiles_nodup_q zipEntries hnd qf
  have hbytes : plan.total_bytes =
      ((zipEntries.filter (fun e => entryCleanB e && qf e.filename)).map
        (·.file_size)).sum := by
    rw [hpv]
    show zipSelectedBytes zipEntries selected = _
    rw [hqsel]
    exact zipSelectedBytes_nodup_q zipEntries hnd qf
  rw [extract_run_eq strict limits d0 archive zipEntries destination0 mode
    selection_paths policy crf hdest harch f hf hfne hzip] at hok ⊢
  simp only [hplan] at hok ⊢
  revert hok
  generalize (if crf then
      create_child d0 destination0 .folder
        (default_root_folder_title archive) none none
    else (destination0, d0)) = dd
  cases hstep : extractZipEntries policy plan dd.1 zipEntries
      (update_progress { initialEngineSt dd.2 with
        statusLog := [initialRunningStatus] } plan.total_files
        plan.total_bytes) with
  | mk st3 res =>
    intro hok
    cases res with
    | some e =>
      simp only [] at hok
      exact Option.noConfusion hok
    | none =>
      simp only []
      obtain ⟨hfd, hbd⟩ := extractZipEntries_counters policy plan dd.1
        zipEntries _ st3 hstep
      rw [getLastD_concat]
      refine ⟨by trivial, ?_, ?_, by trivial, by trivial⟩
      · show st3.files_done = plan.total_files
        rw [hfd, hproc, hfiles]
        simp [update_progress, initialEngineSt]
      · show st3.bytes_done = plan.total_bytes
        rw [hbd, hproc, hbytes]
        simp [update_progress, initialEngineSt]

/-- C7 counterexample: two entries stored under the same name `x` (sizes 1
and 2) in `mode=all` under `rename`.  `zf.getinfo` is last-wins, so the plan
counts the size-2 entry twice (`total_bytes = 4`), while the loop streams
each stored entry once (`bytes_done = 3`): the job ends `done` with
`bytes_done ≠ bytes_total`, refuting the claimed terminal equality. -/
theorem duplicate_name_progress_counterexample :
    (extract_zip_archive_to_drive false defaultLimits sampleDrive
        sampleArchive [⟨strOf "x", 1, 1, 0, [97]⟩,
          ⟨strOf "x", 2, 2, 0, [98, 99]⟩] sampleDest
        .all [] .rename false).result = none
    ∧ ((extract_zip_archive_to_drive false defaultLimits sampleDrive
        sampleArchive [⟨strOf "x", 1, 1, 0, [97]⟩,
          ⟨strOf "x", 2, 2, 0, [98, 99]⟩] sampleDest
        .all [] .rename false).st.statusLog.getLastD unknownStatus).state =
      JobState.done
    ∧ ((extract_zip_archive_to_drive false defaultLimits sampleDrive
        sampleArchive [⟨strOf "x", 1, 1, 0, [97]⟩,
          ⟨strOf "x", 2, 2, 0, [98, 99]⟩] sampleDest
        .all [] .rename
        false).st.statusLog.getLastD unknownStatus).progress.bytes_done = 3
    ∧ ((extract_zip_archive_to_drive false defaultLimits sampleDrive
        sampleArchive [⟨strOf "x", 1, 1, 0, [97]⟩,
          ⟨strOf "x", 2, 2, 0, [98, 99]⟩] sampleDest
        .all [] .rename
        false).st.statusLog.getLastD unknownStatus).progress.bytes_total =
      4 := by
  refine ⟨?_, ?_, ?_, ?_⟩ <;> decide

/-- C7 (amended).  (1) For every run, `files_done` and `bytes_done` are
non-decreasing across the published status payloads.  (2) For every
successful validation-passing run — any collision policy, `mode=all` or
`mode=selection`, strict or not — whose zip entries carry
pairwise-distinct stored names, the terminal payload is `done` with
`files_done = total_files` and `bytes_done = bytes_total` equal to the plan
totals; with duplicated stored names the terminal equalities can fail (the
plan measures last-wins `getinfo` metadata, the loop streams each stored
entry). -/
theorem progress_monotonic_terminal_totals :
    (∀ (strict : Bool) (limits : ArchiveExtractionLimits) (d0 : Drive)
        (archive : Item) (zipEntries : List ZipEntry) (destination0 : Item)
        (mode : ArchiveMode) (selection_paths : List Str)
        (policy : CollisionPolicy) (crf : Bool),
      logMono (extract_zip_archive_to_drive strict limits d0 archive
        zipEntries destination0 mode selection_paths policy crf).st.statusLog)
    ∧ (∀ (strict : Bool) (limits : ArchiveExtractionLimits) (d0 : Drive)
        (archive : Item) (zipEntries : List ZipEntry) (destination0 : Item)
        (mode : ArchiveMode) (selection_paths : List Str)
        (policy : CollisionPolicy) (crf : Bool) (plan : ExtractionPlan),
      destination0.type = ItemType.folder → archive.type = ItemType.file →
      ∀ f : Str, archive.filename = some f → f ≠ [] →
      is_zip_filename f = true →
      plan_zip strict limits zipEntries mode selection_paths = .ok plan →
      (zipEntries.map (·.filename)).Nodup →
      ∀ r : ExtractRunResult,
        r = extract_zip_archive_to_drive strict limits d0 archive zipEntries
          destination0 mode selection_paths policy crf →
        r.result = none →
        (r.st.statusLog.getLastD unknownStatus).state = JobState.done ∧
        (r.st.statusLog.getLastD unknownStatus).progress.files_done =
          plan.total_files ∧
        (r.st.statusLog.getLastD unknownStatus).progress.bytes_done =
          plan.total_bytes ∧
        (r.st.statusLog.getLastD unknownStatus).progress.total =
          plan.total_files ∧
        (r.st.statusLog.getLastD unknownStatus).progress.bytes_total =
          plan.total_bytes) :=
  ⟨run_logMono,
    fun strict limits d0 archive zipEntries destination0 mode selection_paths
        policy crf plan hdest harch f hf hfne hzip hplan hnd r hr hok =>
      run_terminal_totals strict limits d0 archive zipEntries destination0
        mode selection_paths policy crf plan hdest harch f hf hfne hzip hplan
        hnd r hr hok⟩

/-- Witness for `progress_monotonic_terminal_totals`: a `mode=selection`
run under the `skip` policy over two distinct files is monotone, and its
terminal payload is `done` with `files_done = 2`, `bytes_done = 3`. -/
theorem progress_monotonic_terminal_totals_witness :
    logMono (extract_zip_archive_to_drive false defaultLimits sampleDrive
      sampleArchive [⟨strOf "a.txt", 1, 1, 0, [97]⟩,
        ⟨strOf "b.txt", 2, 2, 0, [98, 99]⟩] sampleDest .selection
      [strOf "a.txt", strOf "b.txt"] .skip false).st.statusLog
    ∧ ((extract_zip_archive_to_drive false defaultLimits sampleDrive
        sampleArchive [⟨strOf "a.txt", 1, 1, 0, [97]⟩,
          ⟨strOf "b.txt", 2, 2, 0, [98, 99]⟩] sampleDest .selection
        [strOf "a.txt", strOf "b.txt"] .skip
        false).st.statusLog.getLastD unknownStatus).state = JobState.done
    ∧ ((extract_zip_archive_to_drive false defaultLimits sampleDrive
        sampleArchive [⟨strOf "a.txt", 1, 1, 0, [97]⟩,
          ⟨strOf "b.txt", 2, 2, 0, [98, 99]⟩] sampleDest .selection
        [strOf "a.txt", strOf "b.txt"] .skip
        false).st.statusLog.getLastD unknownStatus).progress.files_done = 2
    ∧ ((extract_zip_archive_to_drive false defaultLimits sampleDrive
        sampleArchive [⟨strOf "a.txt", 1, 1, 0, [97]⟩,
          ⟨strOf "b.txt", 2, 2, 0, [98, 99]⟩] sampleDest .selection
        [strOf "a.txt", strOf "b.txt"] .skip
        false).st.statusLog.getLastD unknownStatus).progress.bytes_done =
      3 := by
  have h := progress_monotonic_terminal_totals.2 false defaultLimits
    sampleDrive sampleArchive [⟨strOf "a.txt", 1, 1, 0, [97]⟩,
      ⟨strOf "b.txt", 2, 2, 0, [98, 99]⟩] sampleDest .selection
    [strOf "a.txt", strOf "b.txt"] .skip false
    ⟨[strOf "a.txt", strOf "b.txt"], 2, 3⟩ (by decide) (by decide)
    (strOf "arch.zip") (by decide) (by decide) (by decide) (by decide)
    (by decide) _ rfl (by decide)
  exact ⟨progress_monotonic_terminal_totals.1 false defaultLimits sampleDrive
      sampleArchive [⟨strOf "a.txt", 1, 1, 0, [97]⟩,
        ⟨strOf "b.txt", 2, 2, 0, [98, 99]⟩] sampleDest .selection
      [strOf "a.txt", strOf "b.txt"] .skip false,
    h.1, h.2.1, h.2.2.1⟩

/-- C5.  Both planners, evaluated over the filtered (selected) entry set,
fail exactly when a selected entry violates a per-entry check (path too
long/deep, file too large, unsafe path, or — zip only, for entries with
positive size and known nonzero compressed size — uncompressed strictly
greater than `max_compression_ratio` times compressed) or the selected
totals exceed `max_files` / `max_total_size`; and removing an entry the
selection does not match never changes the plan, so unselected entries
cannot trigger a failure.  Stated for non-strict mode (the
`ARCHIVE_FS_STRICT` symlink gate is a separate check, treated in C3). -/
theorem planner_limit_enforcement :
    (∀ (limits : ArchiveExtractionLimits) (entries : List ZipEntry)
        (mode : ArchiveMode) (selection selected : List Str),
      filter_paths (zipAllPaths entries) mode selection = .ok selected →
      (isErr (plan_zip false limits entries mode selection) = true ↔
        ((∃ raw ∈ selected, zipEntryViolationB limits entries raw = true) ∨
          zipSelectedFiles entries selected > limits.max_files ∨
          zipSelectedBytes entries selected > limits.max_total_size)))
    ∧ (∀ (limits : ArchiveExtractionLimits) (members0 : List TarMember)
        (mode : ArchiveMode) (selection selected : List Str),
      filter_paths ((tarFileMembers members0).map (·.name)) mode selection
        = .ok selected →
      (isErr (plan_tar limits members0 mode selection) = true ↔
        ((∃ m ∈ tarFileMembers members0,
            tarMemberViolationB limits selected m = true) ∨
          tarSelectedFiles selected (tarFileMembers members0) >
            limits.max_files ∨
          tarSelectedBytes selected (tarFileMembers members0) >
            limits.max_total_size)))
    ∧ (∀ (limits : ArchiveExtractionLimits) (l1 l2 : List ZipEntry)
        (e : ZipEntry) (selection : List Str) (m : SelectionMatchers),
      selection_matchers selection = .ok m →
      (∀ n, normalize_archive_path e.filename = .ok n →
        matchesSelection m n.normalized = false) →
      plan_zip false limits (l1 ++ e :: l2) .selection selection =
        plan_zip false limits (l1 ++ l2) .selection selection)
    ∧ (∀ (limits : ArchiveExtractionLimits) (l1 l2 : List TarMember)
        (t : TarMember) (selection : List Str) (m : SelectionMatchers),
      selection_matchers selection = .ok m →
      (∀ n, normalize_archive_path t.name = .ok n →
        matchesSelection m n.normalized = false) →
      plan_tar limits (l1 ++ t :: l2) .selection selection =
        plan_tar limits (l1 ++ l2) .selection selection) :=
  ⟨plan_zip_err_iff, plan_tar_err_iff, plan_zip_unselected_invariant,
    plan_tar_unselected_invariant⟩

/-- Witness for `planner_limit_enforcement`: with `max_files = 0` a
one-entry zip fails planning, and removing an unselected entry from a
two-entry zip leaves the selection plan unchanged. -/
theorem planner_limit_enforcement_witness :
    (isErr (plan_zip false ⟨0, 100, 100, 100, 100, 100⟩
      [⟨strOf "a.txt", 1, 1, 0, [97]⟩] .all []) = true)
    ∧ (plan_zip false defaultLimits
        ([] ++ ⟨strOf "pad.bin", 1, 1, 0, [0]⟩ ::
          [⟨strOf "keep.txt", 1, 1, 0, [107]⟩])
        .selection [strOf "keep.txt"] =
      plan_zip false defaultLimits ([] ++ [⟨strOf "keep.txt", 1, 1, 0, [107]⟩])
        .selection [strOf "keep.txt"]) :=
  ⟨(planner_limit_enforcement.1 ⟨0, 100, 100, 100, 100, 100⟩
      [⟨strOf "a.txt", 1, 1, 0, [97]⟩] .all [] [strOf "a.txt"]
      (by decide)).mpr (Or.inr (Or.inl (by decide))),
    planner_limit_enforcement.2.2.1 defaultLimits []
      [⟨strOf "keep.txt", 1, 1, 0, [107]⟩] ⟨strOf "pad.bin", 1, 1, 0, [0]⟩
      [strOf "keep.txt"] ⟨[strOf "keep.txt"], []⟩ (by decide)
      (fun n hn => by
        have hn2 : normalize_archive_path (strOf "pad.bin") = .ok n := hn
        have h2 : normalize_archive_path (strOf "pad.bin") =
            .ok ⟨strOf "pad.bin", strOf "pad.bin", [strOf "pad.bin"]⟩ := by
          decide
        rw [h2] at hn2
        cases hn2
        decide)⟩

/-! ## Zip creation (`core/archive/zip_create.py`)

The container output is embedded as the ordered list of written entry
streams (entry path, bytes): compression and the container byte format are
I/O below the modelled level.  The blob storage of the `Drive` state is a
pure key-value store, so `_source_storage_key_is_safe_to_read` always takes
its non-local branch (`NotImplementedError` → `True`, `zip_create.py` lines
39-42): the safety pre-pass skips nothing and `skipped_unsafe_paths_count`
stays `0`.  The tree store is external to this repository (spec §2), so
`effective_upload_state()` is embedded as the item's own `upload_state`. -/

/-- One `raise` site per distinct `ValueError` of `create_zip_from_items` /
`_iter_zip_entries_for_item` / `_effective_size`; `sourceReadFailed` stands
for storage read errors on a missing key. -/
inductive CreateZipError
  | destinationNotFolder
  | missingSources
  | notAllowed
  | sourceNotReady
  | suspiciousSource
  | unresolvedPathComponent
  | pathTooLong
  | pathTooDeep
  | tooManyFiles
  | sourceNoFilename
  | sourceReadFailed
  | fileTooLarge
  | archiveTooLarge
  deriving DecidableEq, Repr

/-- `_safe_component` (`zip_create.py` lines 119-124). -/
def safe_component (name : Str) : Str :=
  let n := replaceSlashesWithUnderscore (stripWS name)
  if n = [] then strOf "_" else n

/-- Decimal digits of a natural number (`str(int)`), by fuel on the value. -/
def natDecimalAux : Nat → Nat → Str
  | 0, _ => []
  | fuel + 1, n =>
    if n < 10 then [Char.ofNat (48 + n)]
    else natDecimalAux fuel (n / 10) ++ [Char.ofNat (48 + n % 10)]

def natDecimal (n : Nat) : Str := natDecimalAux (n + 1) n

/-- Python `f"{c:02d}"`: zero-pad to two digits. -/
def format02 (c : Nat) : Str :=
  let d := natDecimal c
  if d.length < 2 then '0' :: d else d

/-- `posixpath.split` on the single-slash-separated entry paths this module
builds (components are slash-free and non-empty, so no leading or doubled
separators arise). -/
def posixSplit (p : Str) : Str × Str :=
  let rname := p.reverse.takeWhile (fun c => !(decide (c = '/')))
  if rname.length = p.length then ([], p)
  else (p.take (p.length - rname.length - 1), rname.reverse)

/-- The `while True` retry of `_unique_entry_path` (lines 137-143), with
fuel: `used.length + 1` candidates suffice since candidates are pairwise
distinct. -/
def uniqueLoop (folder stem ext : Str) :
    List Str → Nat → Nat → Str × List Str
  | used, 0, _ => ([], used)
  | used, fuel + 1, counter =>
    let candidate_name := stem ++ ['_'] ++ format02 counter ++ ext
    let candidate :=
      if folder = [] then candidate_name
      else folder ++ ['/'] ++ candidate_name
    if candidate ∈ used then uniqueLoop folder stem ext used fuel (counter + 1)
    else (candidate, candidate :: used)

/-- `_unique_entry_path` (`zip_create.py` lines 127-143); the used set is a
membership list. -/
def unique_entry_path (entry_path : Str) (used : List Str) : Str × List Str :=
  if entry_path ∈ used then
    let fn := posixSplit entry_path
    let stem := splitextBase fn.2
    let ext := fn.2.drop stem.length
    uniqueLoop fn.1 stem ext used (used.length + 1) 1
  else (entry_path, entry_path :: used)

/-- `by_id` lookup of `_iter_zip_entries_for_item` (lines 177-178): the root
overrides, a duplicated descendant id resolves last-wins as in a dict. -/
def byIdGet (root : Item) (descendants : List Item) (segId : Nat) :
    Option Item :=
  if segId = root.id then some root
  else descendants.reverse.find? (fun i => decide (i.id = segId))

/-- The `for seg_id in rel_ids` resolution (lines 193-198). -/
def resolveRelComponents (root : Item) (descendants : List Item) :
    List Nat → Except CreateZipError (List Str)
  | [] => .ok []
  | seg :: rest =>
    match byIdGet root descendants seg with
    | none => .error .unresolvedPathComponent
    | some segItem => do
      let tail ← resolveRelComponents root descendants rest
      .ok (safe_component segItem.title :: tail)

/-- The `for item in descendants` loop (lines 184-199). -/
def iterFilesLoop (root : Item) (descendants : List Item) :
    List Item → Except CreateZipError (List (Item × Str))
  | [] => .ok []
  | item :: rest =>
    if item.type ≠ ItemType.file then iterFilesLoop root descendants rest
    else if ¬ item.retrievable then iterFilesLoop root descendants rest
    else if ¬ (root.path <+: item.path) then iterFilesLoop root descendants rest
    else do
      let rel ← resolveRelComponents root descendants
        (item.path.drop root.path.length)
      let tail ← iterFilesLoop root descendants rest
      .ok ((item, joinSlash (safe_component root.title :: rel)) :: tail)

/-- `_iter_zip_entries_for_item` (`zip_create.py` lines 146-200).  The
descendant query keeps non-deleted items under the root's materialized
path. -/
def iter_zip_entries_for_item (d : Drive) (root : Item) :
    Except CreateZipError (List (Item × Str)) :=
  if root.type = ItemType.file then
    .ok [(root, safe_component (match root.filename with
      | some f => if f = [] then root.title else f
      | none => root.title))]
  else
    let descendants := d.items.filter (fun i =>
      decide (root.path <+: i.path) && !i.deleted)
    iterFilesLoop root descendants descendants

/-- Source resolution (lines 219-238): each id must resolve to a
non-deleted item (ids are assumed pairwise distinct, as the API passes a
deduplicated selection). -/
def resolveSources (d : Drive) : List Nat → Except CreateZipError (List Item)
  | [] => .ok []
  | i :: rest =>
    match d.items.find? (fun it => decide (it.id = i) && !it.deleted) with
    | none => .error .missingSources
    | some it => do
      let tail ← resolveSources d rest
      .ok (it :: tail)

/-- Per-source validation (lines 240-247). -/
def validateSources : List Item → Except CreateZipError Unit
  | [] => .ok ()
  | it :: rest =>
    if ¬ it.retrievable then .error .notAllowed
    else if it.type = ItemType.file ∧ it.upload_state ≠ UploadState.ready then
      .error .sourceNotReady
    else if it.type = ItemType.file ∧ it.upload_state = UploadState.suspicious
      then .error .suspiciousSource
    else validateSources rest

/-- The inner entry loop (lines 252-265): readiness checks, unique path,
per-path length and depth limits. -/
def collectInner (limits : ArchiveExtractionLimits) :
    List (Item × Str) → List Str →
    Except CreateZipError (List (Item × Str) × List Str)
  | [], used => .ok ([], used)
  | (it, p) :: rest, used =>
    if it.upload_state ≠ UploadState.ready then .error .sourceNotReady
    else if it.upload_state = UploadState.suspicious then
      .error .suspiciousSource
    else
      let u := unique_entry_path p used
      if u.1.length > limits.max_path_length then .error .pathTooLong
      else if (u.1.filter (fun c => decide (c = '/'))).length + 1 >
          limits.max_depth then .error .pathTooDeep
      else do
        let tail ← collectInner limits rest u.2
        .ok ((it, u.1) :: tail.1, tail.2)

/-- The outer `for root in sources` loop (lines 249-265). -/
def collectEntries (limits : ArchiveExtractionLimits) (d : Drive) :
    List Item → List Str →
    Except CreateZipError (List (Item × Str) × List Str)
  | [], used => .ok ([], used)
  | root :: rest, used => do
    let lst ← iter_zip_entries_for_item d root
    let es ← collectInner limits lst used
    let tail ← collectEntries limits d rest es.2
    .ok (es.1 ++ tail.1, tail.2)

/-- `_effective_size` (`zip_create.py` lines 289-294). -/
def effective_size (d : Drive) (it : Item) : Except CreateZipError Nat :=
  match it.size with
  | some s => .ok s
  | none =>
    if it.filename = none ∨ it.filename = some [] then .error .sourceNoFilename
    else
      match storageGet d.storage it.id with
      | some c => .ok c.length
      | none => .error .sourceReadFailed

/-- The planning size pass (lines 296-303). -/
def planTotalsLoop (limits : ArchiveExtractionLimits) (d : Drive) :
    List (Item × Str) → Nat → Except CreateZipError Nat
  | [], total => .ok total
  | (it, _) :: rest, total => do
    let size ← effective_size d it
    if size > limits.max_file_size then .error .fileTooLarge
    else if total + size > limits.max_total_size then .error .archiveTooLarge
    else planTotalsLoop limits d rest (total + size)

/-- The per-file chunked copy loop (lines 358-368): 1 MiB chunks, re-checking
the running per-file and total counters after each chunk.  Fuel is the
stream length (each chunk consumes at least one byte). -/
def chunkLoopF (limits : ArchiveExtractionLimits) (bytes_done : Nat) :
    Nat → Bytes → Nat → Except CreateZipError Nat
  | _, [], bytes_this => .ok bytes_this
  | 0, _ :: _, _ => .error .sourceReadFailed
  | fuel + 1, c :: rest0, bytes_this =>
    let chunk := (c :: rest0).take (1024 * 1024)
    let rest := (c :: rest0).drop (1024 * 1024)
    let b := bytes_this + chunk.length
    if b > limits.max_file_size then .error .fileTooLarge
    else if bytes_done + b > limits.max_total_size then .error .archiveTooLarge
    else chunkLoopF limits bytes_done fuel rest b

def chunkLoop (limits : ArchiveExtractionLimits) (bytes_done : Nat)
    (stream : Bytes) : Except CreateZipError Nat :=
  chunkLoopF limits bytes_done stream.length stream 0

/-- The copy pass (lines 347-372): read each source stream from storage,
stream it into the container, advance the counters. -/
def copyPass (limits : ArchiveExtractionLimits) (d : Drive) :
    List (Item × Str) → Nat → Nat → List (Str × Bytes) →
    Except CreateZipError (List (Str × Bytes) × Nat × Nat)
  | [], files_done, bytes_done, outAcc => .ok (outAcc, files_done, bytes_done)
  | (it, p) :: rest, files_done, bytes_done, outAcc =>
    match storageGet d.storage it.id with
    | none => .error .sourceReadFailed
    | some content => do
      let n ← chunkLoop limits bytes_done content
      copyPass limits d rest (files_done + 1) (bytes_done + n)
        (outAcc ++ [(p, content)])

/-- Result of a successful zip creation: the written entries, the final
counters, the planned totals, and the mutated drive (the container blob's
byte size, `os.path.getsize` of the temp file at line 398, is
container-format I/O and not modelled). -/
structure ZipCreateResult where
  zipEntries : List (Str × Bytes)
  files_done : Nat
  bytes_done : Nat
  total_files : Nat
  bytes_total : Nat
  skipped_unsafe_paths_count : Nat
  drive : Drive
  deriving DecidableEq, Repr

/-- `create_zip_from_items` (`zip_create.py` lines 203-423), non-strict
mode over the pure key-value storage (safety pre-pass skips nothing). -/
def create_zip_from_items (limits : ArchiveExtractionLimits) (d : Drive)
    (source_item_ids : List Nat) (destination : Item) (archive_name : Str) :
    Except CreateZipError ZipCreateResult :=
  if destination.type ≠ ItemType.folder then .error .destinationNotFolder
  else do
    let sources ← resolveSources d source_item_ids
    let _ ← validateSources sources
    let es ← collectEntries limits d sources []
    let entries := es.1
    if entries.length > limits.max_files then .error .tooManyFiles
    else do
      let total_bytes ← planTotalsLoop limits d entries 0
      let res ← copyPass limits d entries 0 0 []
      let zi := create_child d destination .file archive_name
        (some archive_name) (some (strOf "application/zip"))
      let d2 := updateItem zi.2 zi.1.id
        (fun it => { it with upload_state := .ready })
      .ok { zipEntries := res.1, files_done := res.2.1,
            bytes_done := res.2.2, total_files := entries.length,
            bytes_total := total_bytes, skipped_unsafe_paths_count := 0,
            drive := d2 }

/-! ### Round-trip fixtures (C6) and copy-pass bounds (C8) -/

def rtMyFolder : Item :=
  { id := 1, path := [1], type := .folder, title := strOf "MyFolder"
    filename := none, mimetype := none, size := none, upload_state := .ready
    deleted := false, retrievable := true }

def rtA : Item :=
  { id := 2, path := [1, 2], type := .file, title := strOf "a.txt"
    filename := some (strOf "a.txt"), mimetype := some (strOf "text/plain")
    size := some 1, upload_state := .ready, deleted := false
    retrievable := true }

def rtSub : Item :=
  { id := 3, path := [1, 3], type := .folder, title := strOf "Sub"
    filename := none, mimetype := none, size := none, upload_state := .ready
    deleted := false, retrievable := true }

def rtB : Item :=
  { id := 4, path := [1, 3, 4], type := .file, title := strOf "b.txt"
    filename := some (strOf "b.txt"), mimetype := some (strOf "text/plain")
    size := some 1, upload_state := .ready, deleted := false
    retrievable := true }

/-- Source drive: `MyFolder` holding `a.txt`("a") and `Sub/b.txt`("b"). -/
def rtCreateDrive : Drive :=
  { items := [sampleDest, rtMyFolder, rtA, rtSub, rtB], nextId := 5
    storage := [(2, [97]), (4, [98])] }

/-- The zip container produced by the round trip, as parsed entries: the
recorded compressed sizes `ca`, `cb` are whatever deflate produced
(positive for non-empty streams); nothing else in the container matters to
extraction. -/
def rtEntries (ca cb : Nat) : List ZipEntry :=
  [⟨strOf "MyFolder/a.txt", 1, ca, 0, [97]⟩,
   ⟨strOf "MyFolder/Sub/b.txt", 1, cb, 0, [98]⟩]

def rtOutFolder : Item :=
  { id := 1, path := [0, 1], type := .folder, title := strOf "MyFolder"
    filename := none, mimetype := none, size := none, upload_state := .pending
    deleted := false, retrievable := true }

def rtOutA : Item :=
  { id := 2, path := [0, 1, 2], type := .file, title := strOf "a.txt"
    filename := some (strOf "a.txt")
    mimetype := some (strOf "application/octet-stream"), size := some 1
    upload_state := .ready, deleted := false, retrievable := true }

def rtOutSub : Item :=
  { id := 3, path := [0, 1, 3], type := .folder, title := strOf "Sub"
    filename := none, mimetype := none, size := none, upload_state := .pending
    deleted := false, retrievable := true }

def rtOutB : Item :=
  { id := 4, path := [0, 1, 3, 4], type := .file, title := strOf "b.txt"
    filename := some (strOf "b.txt")
    mimetype := some (strOf "application/octet-stream"), size := some 1
    upload_state := .ready, deleted := false, retrievable := true }

/-- `compress_size` normalization: the extraction loop never reads the
recorded compressed size (only the planner's ratio check does). -/
def scrubCompress (e : ZipEntry) : ZipEntry :=
  { e with compress_size := 0 }

theorem processZipEntry_scrub (policy : CollisionPolicy)
    (plan : ExtractionPlan) (dest : Item) (e : ZipEntry) (st : EngineSt) :
    processZipEntry policy plan dest (scrubCompress e) st =
      processZipEntry policy plan dest e st := by
  cases e
  rfl

theorem extractZipEntries_scrub (policy : CollisionPolicy)
    (plan : ExtractionPlan) (dest : Item) :
    ∀ (l : List ZipEntry) (st : EngineSt),
      extractZipEntries policy plan dest (l.map scrubCompress) st =
        extractZipEntries policy plan dest l st
  | [], _ => rfl
  | e :: rest, st => by
    have hL : extractZipEntries policy plan dest
        ((e :: rest).map scrubCompress) st =
        (match processZipEntry policy plan dest (scrubCompress e) st with
         | (st1, none) =>
           extractZipEntries policy plan dest (rest.map scrubCompress) st1
         | (st1, some e2) => (st1, some e2)) := rfl
    have hR : extractZipEntries policy plan dest (e :: rest) st =
        (match processZipEntry policy plan dest e st with
         | (st1, none) => extractZipEntries policy plan dest rest st1
         | (st1, some e2) => (st1, some e2)) := rfl
    rw [hL, hR, processZipEntry_scrub]
    cases hstep : processZipEntry policy plan dest e st with
    | mk st' res =>
      cases res with
      | none => exact extractZipEntries_scrub policy plan dest rest st'
      | some e2 => rfl

/-- Evaluation helper: a selected raw name with a resolving non-symlink
entry inside every per-entry bound is no planner violation. -/
theorem zipEntryViolationB_eval (limits : ArchiveExtractionLimits)
    (entries : List ZipEntry) (raw : Str) (n : NormalizedArchivePath)
    (info : ZipEntry)
    (hn : normalize_archive_path raw = .ok n)
    (hg : getinfo entries raw = some info)
    (h1 : decide (n.normalized.length > limits.max_path_length) = false)
    (h2 : decide (n.depth > limits.max_depth) = false)
    (h3 : zipinfo_is_symlink info = false)
    (h4 : decide (info.file_size > limits.max_file_size) = false)
    (h5 : decide (info.file_size >
      limits.max_compression_ratio * info.compress_size) = false) :
    zipEntryViolationB limits entries raw = false := by
  unfold zipEntryViolationB
  simp only [hn, hg, h1, h2, h3, h4, h5]
  simp

/-- C6.  Zipping `MyFolder` (holding `a.txt` with content "a" and
`Sub/b.txt` with content "b") produces exactly the entries
`MyFolder/a.txt ↦ "a"` and `MyFolder/Sub/b.txt ↦ "b"`; extracting a zip
holding exactly those entries (with any positive recorded compressed sizes
and regular-file attributes, as `zipfile` writes) in `mode=all` into an
empty destination folder succeeds and recreates exactly the two files,
byte-identical, under the same relative paths. -/
theorem zip_roundtrip :
    ((create_zip_from_items defaultLimits rtCreateDrive [1] sampleDest
        (strOf "MyFolder.zip")).map ZipCreateResult.zipEntries =
      .ok [(strOf "MyFolder/a.txt", [97]), (strOf "MyFolder/Sub/b.txt", [98])])
    ∧ (∀ ca cb : Nat, 0 < ca → 0 < cb →
      ∀ r : ExtractRunResult,
        r = extract_zip_archive_to_drive false defaultLimits sampleDrive
          sampleArchive (rtEntries ca cb) sampleDest .all [] .rename false →
        r.result = none ∧
        r.st.drive.items =
          [sampleDest, rtOutFolder, rtOutA, rtOutSub, rtOutB] ∧
        r.st.drive.storage = [(2, [97]), (4, [98])]) := by
  refine ⟨by decide, ?_⟩
  intro ca cb hca hcb r hr
  subst hr
  have hsym1 : zipinfo_is_symlink ⟨strOf "MyFolder/a.txt", 1, ca, 0, [97]⟩ =
      false := by
    show decide (((0 : Nat) >>> 16) &&& 0o170000 = 0o120000) = false
    decide
  have hsym2 : zipinfo_is_symlink
      ⟨strOf "MyFolder/Sub/b.txt", 1, cb, 0, [98]⟩ = false := by
    show decide (((0 : Nat) >>> 16) &&& 0o170000 = 0o120000) = false
    decide
  have hd1 : ZipEntry.isDirEntry ⟨strOf "MyFolder/a.txt", 1, ca, 0, [97]⟩ =
      false := by
    show decide ((strOf "MyFolder/a.txt").getLast? = some '/') = false
    decide
  have hd2 : ZipEntry.isDirEntry
      ⟨strOf "MyFolder/Sub/b.txt", 1, cb, 0, [98]⟩ = false := by
    show decide ((strOf "MyFolder/Sub/b.txt").getLast? = some '/') = false
    decide
  have hz : zipAllPaths (rtEntries ca cb) =
      [strOf "MyFolder/a.txt", strOf "MyFolder/Sub/b.txt"] := by
    show ((rtEntries ca cb).filter
      (fun i => !i.isDirEntry && !zipinfo_is_symlink i)).map (·.filename) =
      [strOf "MyFolder/a.txt", strOf "MyFolder/Sub/b.txt"]
    rw [show rtEntries ca cb = ⟨strOf "MyFolder/a.txt", 1, ca, 0, [97]⟩ ::
        [⟨strOf "MyFolder/Sub/b.txt", 1, cb, 0, [98]⟩] from rfl]
    rw [List.filter_cons, List.filter_cons, List.filter_nil]
    rw [if_pos (show _ = true by
        show (!ZipEntry.isDirEntry ⟨strOf "MyFolder/a.txt", 1, ca, 0, [97]⟩ &&
          !zipinfo_is_symlink ⟨strOf "MyFolder/a.txt", 1, ca, 0, [97]⟩) = true
        rw [hd1, hsym1]
        decide)]
    rw [if_pos (show _ = true by
        show (!ZipEntry.isDirEntry
            ⟨strOf "MyFolder/Sub/b.txt", 1, cb, 0, [98]⟩ &&
          !zipinfo_is_symlink ⟨strOf "MyFolder/Sub/b.txt", 1, cb, 0, [98]⟩) =
          true
        rw [hd2, hsym2]
        decide)]
    rfl
  have hnov : ∀ raw ∈ zipAllPaths (rtEntries ca cb),
      zipEntryViolationB defaultLimits (rtEntries ca cb) raw = false := by
    rw [hz]
    intro raw hraw
    rcases List.mem_cons.mp hraw with rfl | hraw3
    · exact zipEntryViolationB_eval defaultLimits (rtEntries ca cb)
        (strOf "MyFolder/a.txt")
        ⟨strOf "MyFolder/a.txt", strOf "MyFolder/a.txt",
          [strOf "MyFolder", strOf "a.txt"]⟩
        ⟨strOf "MyFolder/a.txt", 1, ca, 0, [97]⟩
        (by decide) rfl (by decide) (by decide) hsym1
        (by
          show decide ((1 : Nat) > defaultLimits.max_file_size) = false
          decide)
        (decide_eq_false (by
          show ¬ (1 : Nat) > 1000 * ca
          omega))
    · rcases List.mem_singleton.mp hraw3 with rfl
      exact zipEntryViolationB_eval defaultLimits (rtEntries ca cb)
        (strOf "MyFolder/Sub/b.txt")
        ⟨strOf "MyFolder/Sub/b.txt", strOf "MyFolder/Sub/b.txt",
          [strOf "MyFolder", strOf "Sub", strOf "b.txt"]⟩
        ⟨strOf "MyFolder/Sub/b.txt", 1, cb, 0, [98]⟩
        (by decide) rfl (by decide) (by decide) hsym2
        (by
          show decide ((1 : Nat) > defaultLimits.max_file_size) = false
          decide)
        (decide_eq_false (by
          show ¬ (1 : Nat) > 1000 * cb
          omega))
  have hc1 : zipCountsEntry (rtEntries ca cb) (strOf "MyFolder/a.txt") =
      true := by
    unfold zipCountsEntry
    rw [show normalize_archive_path (strOf "MyFolder/a.txt") =
        .ok ⟨strOf "MyFolder/a.txt", strOf "MyFolder/a.txt",
          [strOf "MyFolder", strOf "a.txt"]⟩ from by decide,
      show getinfo (rtEntries ca cb) (strOf "MyFolder/a.txt") =
        some ⟨strOf "MyFolder/a.txt", 1, ca, 0, [97]⟩ from rfl]
    simp only []
    rw [hsym1]
    decide
  have hc2 : zipCountsEntry (rtEntries ca cb) (strOf "MyFolder/Sub/b.txt") =
      true := by
    unfold zipCountsEntry
    rw [show normalize_archive_path (strOf "MyFolder/Sub/b.txt") =
        .ok ⟨strOf "MyFolder/Sub/b.txt", strOf "MyFolder/Sub/b.txt",
          [strOf "MyFolder", strOf "Sub", strOf "b.txt"]⟩ from by decide,
      show getinfo (rtEntries ca cb) (strOf "MyFolder/Sub/b.txt") =
        some ⟨strOf "MyFolder/Sub/b.txt", 1, cb, 0, [98]⟩ from rfl]
    simp only []
    rw [hsym2]
    decide
  have hsf : zipSelectedFiles (rtEntries ca cb)
      [strOf "MyFolder/a.txt", strOf "MyFolder/Sub/b.txt"] = 2 := by
    unfold zipSelectedFiles
    rw [List.filter_cons, if_pos hc1, List.filter_cons, if_pos hc2,
      List.filter_nil]
    rfl
  have hsb : zipSelectedBytes (rtEntries ca cb)
      [strOf "MyFolder/a.txt", strOf "MyFolder/Sub/b.txt"] = 2 := by
    unfold zipSelectedBytes
    rw [List.filter_cons, if_pos hc1, List.filter_cons, if_pos hc2,
      List.filter_nil]
    rfl
  have hsp : zipSelectedPaths (rtEntries ca cb)
      [strOf "MyFolder/a.txt", strOf "MyFolder/Sub/b.txt"] =
      [strOf "MyFolder/a.txt", strOf "MyFolder/Sub/b.txt"] := by
    unfold zipSelectedPaths
    rw [List.filter_cons, if_pos hc1, List.filter_cons, if_pos hc2,
      List.filter_nil]
    rfl
  have hplan : plan_zip false defaultLimits (rtEntries ca cb) .all [] =
      .ok ⟨[strOf "MyFolder/a.txt", strOf "MyFolder/Sub/b.txt"], 2, 2⟩ := by
    have h := plan_zip_ok_val defaultLimits (rtEntries ca cb) .all []
      (zipAllPaths (rtEntries ca cb)) rfl hnov
      (by
        rw [hz, hsf]
        decide)
      (by
        rw [hz, hsb]
        decide)
    rw [hz, hsf, hsb, hsp] at h
    exact h
  rw [extract_run_eq false defaultLimits sampleDrive sampleArchive
    (rtEntries ca cb) sampleDest .all [] .rename false (by decide) (by decide)
    (strOf "arch.zip") (by decide) (by decide) (by decide)]
  simp only [hplan]
  rw [← extractZipEntries_scrub, show (rtEntries ca cb).map scrubCompress =
    (rtEntries 1 1).map scrubCompress from rfl, extractZipEntries_scrub]
  exact ⟨by decide, by decide, by decide⟩

/-- Witness for `zip_roundtrip` at compressed sizes 1/1: the extraction half
of the round trip succeeds and stores the two byte streams. -/
theorem zip_roundtrip_witness :
    (extract_zip_archive_to_drive false defaultLimits sampleDrive
        sampleArchive (rtEntries 1 1) sampleDest .all [] .rename
        false).result = none ∧
    (extract_zip_archive_to_drive false defaultLimits sampleDrive
        sampleArchive (rtEntries 1 1) sampleDest .all [] .rename
        false).st.drive.storage = [(2, [97]), (4, [98])] := by
  have h := zip_roundtrip.2 1 1 (by decide) (by decide) _ rfl
  exact ⟨h.1, h.2.2⟩

/-- Bounds carried by a successful chunked per-file copy. -/
theorem chunkLoopF_ok (limits : ArchiveExtractionLimits) (bytes_done : Nat) :
    ∀ (fuel : Nat) (stream : Bytes) (bytes_this n : Nat),
      chunkLoopF limits bytes_done fuel stream bytes_this = .ok n →
      n = bytes_this + stream.length ∧
      (stream = [] ∨ (n ≤ limits.max_file_size ∧
        bytes_done + n ≤ limits.max_total_size))
  | fuel, [], bt, n, h => by
    cases fuel with
    | zero =>
      injection h with h2
      subst h2
      exact ⟨by simp, Or.inl rfl⟩
    | succ fuel2 =>
      injection h with h2
      subst h2
      exact ⟨by simp, Or.inl rfl⟩
  | 0, c :: r0, bt, n, h => by
    exact absurd h (by simp [chunkLoopF])
  | fuel + 1, c :: r0, bt, n, h => by
    have hstep : chunkLoopF limits bytes_done (fuel + 1) (c :: r0) bt =
        (if bt + ((c :: r0).take (1024 * 1024)).length >
            limits.max_file_size then .error .fileTooLarge
         else if bytes_done + (bt + ((c :: r0).take (1024 * 1024)).length) >
            limits.max_total_size then .error .archiveTooLarge
         else chunkLoopF limits bytes_done fuel ((c :: r0).drop (1024 * 1024))
           (bt + ((c :: r0).take (1024 * 1024)).length)) := rfl
    rw [hstep] at h
    by_cases h1 : bt + ((c :: r0).take (1024 * 1024)).length >
        limits.max_file_size
    · rw [if_pos h1] at h
      exact absurd h (by simp)
    · rw [if_neg h1] at h
      by_cases h2 : bytes_done + (bt + ((c :: r0).take (1024 * 1024)).length) >
          limits.max_total_size
      · rw [if_pos h2] at h
        exact absurd h (by simp)
      · rw [if_neg h2] at h
        obtain ⟨ihn, ihb⟩ := chunkLoopF_ok limits bytes_done fuel
          ((c :: r0).drop (1024 * 1024))
          (bt + ((c :: r0).take (1024 * 1024)).length) n h
        have hlen : ((c :: r0).take (1024 * 1024)).length +
            ((c :: r0).drop (1024 * 1024)).length = (c :: r0).length := by
          rw [List.length_take, List.length_drop]
          omega
        constructor
        · omega
        · right
          rcases ihb with hrest | hb
          · rw [hrest, List.length_nil] at ihn
            omega
          · exact hb

/-- A successful copy pass keeps the running total inside
`max_total_size` and every streamed file inside `max_file_size`. -/
theorem copyPass_ok (limits : ArchiveExtractionLimits) (d : Drive) :
    ∀ (entries : List (Item × Str)) (fdi bdi : Nat)
      (outAcc : List (Str × Bytes)) (res : List (Str × Bytes) × Nat × Nat),
      copyPass limits d entries fdi bdi outAcc = .ok res →
      bdi ≤ limits.max_total_size →
      (∀ e ∈ outAcc, e.2.length ≤ limits.max_file_size) →
      res.2.2 ≤ limits.max_total_size ∧
      ∀ e ∈ res.1, e.2.length ≤ limits.max_file_size
  | [], fdi, bdi, outAcc, res, h, hb, ha => by
    injection h with h2
    subst h2
    exact ⟨hb, ha⟩
  | (it, p) :: rest, fdi, bdi, outAcc, res, h, hb, ha => by
    have hstep : copyPass limits d ((it, p) :: rest) fdi bdi outAcc =
        (match storageGet d.storage it.id with
         | none => .error .sourceReadFailed
         | some content => do
            let n ← chunkLoop limits bdi content
            copyPass limits d rest (fdi + 1) (bdi + n)
              (outAcc ++ [(p, content)])) := rfl
    rw [hstep] at h
    cases hsg : storageGet d.storage it.id with
    | none =>
      rw [hsg] at h
      exact absurd h (by simp)
    | some content =>
      rw [hsg] at h
      simp only [] at h
      cases hcl : chunkLoop limits bdi content with
      | error e =>
        rw [hcl, bindErr] at h
        exact absurd h (by simp)
      | ok n =>
        rw [hcl, bindOk] at h
        obtain ⟨hn, hbounds⟩ := chunkLoopF_ok limits bdi content.length
          content 0 n hcl
        have hb' : bdi + n ≤ limits.max_total_size := by
          rcases hbounds with hemp | hine
          · rw [hemp] at hn
            simp at hn
            omega
          · exact hine.2
        have ha' : ∀ e ∈ outAcc ++ [(p, content)],
            e.2.length ≤ limits.max_file_size := by
          intro e he
          rcases List.mem_append.mp he with hm | hm
          · exact ha e hm
          · rcases List.mem_singleton.mp hm with rfl
            show content.length ≤ limits.max_file_size
            rcases hbounds with hemp | hine
            · rw [hemp]
              simp
            · have hcn : n = content.length := by omega
              omega
        exact copyPass_ok limits d rest (fdi + 1) (bdi + n)
          (outAcc ++ [(p, content)]) res h hb' ha'

def c8File : Item :=
  { id := 1, path := [1], type := .file, title := strOf "f.bin"
    filename := some (strOf "f.bin"), mimetype := none, size := some 10
    upload_state := .ready, deleted := false, retrievable := true }

/-- A drive whose file node records `size = 10` while its stored stream
holds 4 bytes (concurrent mutation after the size was recorded). -/
def c8Drive : Drive :=
  { items := [sampleDest, c8File], nextId := 2
    storage := [(1, [9, 9, 9, 9])] }

/-- The successful creation result over `c8Drive`. -/
def c8Result : ZipCreateResult :=
  { zipEntries := [(strOf "f.bin", [9, 9, 9, 9])], files_done := 1
    bytes_done := 4, total_files := 1, bytes_total := 10
    skipped_unsafe_paths_count := 0
    drive :=
      { items := [sampleDest, c8File,
          { id := 2, path := [0, 2], type := .file, title := strOf "out.zip"
            filename := some (strOf "out.zip")
            mimetype := some (strOf "application/zip"), size := none
            upload_state := .ready, deleted := false, retrievable := true }]
        nextId := 3, storage := [(1, [9, 9, 9, 9])] } }

/-- C8 counterexample: the planned size (10, from the stale recorded
`item.size`) differs from the observed streamed size (4 bytes), yet the
copy pass succeeds — the loop re-checks only the running counters against
`max_file_size` / `max_total_size` and never compares planned with
observed. -/
theorem size_mismatch_success_counterexample :
    (create_zip_from_items defaultLimits c8Drive [1] sampleDest
      (strOf "out.zip")).map
        (fun r => (r.zipEntries, r.bytes_done, r.bytes_total)) =
    .ok ([(strOf "f.bin", [9, 9, 9, 9])], 4, 10) := by
  decide

/-- C8 (amended).  The copy pass re-checks the running per-file and total
byte counters against `max_file_size` / `max_total_size` after every chunk,
so every successful creation has its final `bytes_done` within
`max_total_size` and every written stream within `max_file_size`; it does
not compare observed sizes with the planned ones, so a planned/observed
mismatch inside the limits does not fail the job. -/
theorem copy_pass_limit_rechecks :
    ∀ (limits : ArchiveExtractionLimits) (d : Drive)
      (source_item_ids : List Nat) (destination : Item) (archive_name : Str)
      (res : ZipCreateResult),
      create_zip_from_items limits d source_item_ids destination archive_name
        = .ok res →
      res.bytes_done ≤ limits.max_total_size ∧
      ∀ e ∈ res.zipEntries, e.2.length ≤ limits.max_file_size := by
  intro limits d ids dest aname res h
  unfold create_zip_from_items at h
  by_cases h1 : dest.type ≠ ItemType.folder
  · rw [if_pos h1] at h
    exact absurd h (by simp)
  · rw [if_neg h1] at h
    cases hs : resolveSources d ids with
    | error e =>
      rw [hs, bindErr] at h
      exact absurd h (by simp)
    | ok sources =>
      rw [hs, bindOk] at h
      cases hv : validateSources sources with
      | error e =>
        rw [hv, bindErr] at h
        exact absurd h (by simp)
      | ok u =>
        rw [hv, bindOk] at h
        cases hc : collectEntries limits d sources [] with
        | error e =>
          rw [hc, bindErr] at h
          exact absurd h (by simp)
        | ok es =>
          rw [hc, bindOk] at h
          by_cases h2 : es.1.length > limits.max_files
          · rw [if_pos h2] at h
            exact absurd h (by simp)
          · rw [if_neg h2] at h
            cases ht : planTotalsLoop limits d es.1 0 with
            | error e =>
              rw [ht, bindErr] at h
              exact absurd h (by simp)
            | ok total =>
              rw [ht, bindOk] at h
              cases hcp : copyPass limits d es.1 0 0 [] with
              | error e =>
                rw [hcp, bindErr] at h
                exact absurd h (by simp)
              | ok cres =>
                rw [hcp, bindOk] at h
                simp only [] at h
                injection h with h3
                subst h3
                obtain ⟨hbd, hents⟩ := copyPass_ok limits d es.1 0 0 [] cres
                  hcp (Nat.zero_le _)
                  (fun e he => absurd he (List.not_mem_nil e))
                exact ⟨hbd, hents⟩

/-- Witness for `copy_pass_limit_rechecks` on the mismatch run: the
observed 4 bytes sit inside both limits. -/
theorem copy_pass_limit_rechecks_witness :
    (4 : Nat) ≤ defaultLimits.max_total_size ∧
    ([9, 9, 9, 9] : Bytes).length ≤ defaultLimits.max_file_size := by
  have h := copy_pass_limit_rechecks defaultLimits c8Drive [1] sampleDest
    (strOf "out.zip") c8Result (by decide)
  exact ⟨h.1, h.2 (strOf "f.bin", [9, 9, 9, 9]) (by decide)⟩

/-! ## Mount-targeted extraction (`core/archive/extract_mount.py`)

The destination provider is the local-filesystem provider
(`core/mounts/providers/localfs.py`), embedded as a flat map from
normalized `/`-rooted paths to nodes.  `normalize_mount_path` lives in
`core/mounts/paths.py`, which is not part of the repository snapshot, and
is modelled from the spec; `safe_str_hash` (`core/utils/no_leak.py`, also
absent) is threaded as a function parameter — it only names the temp
file. -/

inductive MountNode
  | folder
  | file (content : Bytes)
  deriving DecidableEq, Repr

def MountNode.isFile : MountNode → Bool
  | .file _ => true
  | .folder => false

structure MountFS where
  entries : List (Str × MountNode)
  deriving DecidableEq, Repr

def lookupFS (fs : MountFS) (p : Str) : Option MountNode :=
  (fs.entries.find? (fun q => decide (q.1 = p))).map (·.2)

def fsSet (fs : MountFS) (p : Str) (n : MountNode) : MountFS :=
  { entries := (p, n) :: fs.entries.filter (fun q => !(decide (q.1 = p))) }

def fsRemove (fs : MountFS) (p : Str) : MountFS :=
  { entries := fs.entries.filter (fun q => !(decide (q.1 = p))) }

/-- One constructor per raise site of the mount extraction loop and the
provider operations it calls. -/
inductive MountError
  | pathNotFound
  | mkdirFailed
  | renameFailed
  | invalidPath (e : UnsafePathError)
  | cannotOverwriteFolderWithFile
  | targetExists
  deriving DecidableEq, Repr

/-- Modelled from the spec: `normalize_mount_path` (`core/mounts/paths.py`
is not included in the repository snapshot).  Spec §4.1: mount-path
normalization "follows the same rule set but allows (and requires) a
leading root marker" — the path must be `/`-rooted, the remainder passes
the archive rule set, and the bare root stays `/`. -/
def normalize_mount_path (p : Str) : Except UnsafePathError Str :=
  match p with
  | '/' :: rest =>
    if rest = [] then .ok ['/']
    else
      match normalize_archive_path rest with
      | .error e => .error e
      | .ok n => .ok ('/' :: n.normalized)
  | _ => .error .invalid

/-- `posixpath.join` for one extra component. -/
def posixJoin (a b : Str) : Str :=
  if isAbsoluteStr b then b
  else if a = [] then b
  else if a.getLast? = some '/' then a ++ b
  else a ++ ['/'] ++ b

/-- `provider.mkdirs` (`localfs.py` lines 159-163):
`mkdir(parents=True, exist_ok=True)`; creating over an existing file
raises.  Implicitly created ancestors are not consulted by any other
modelled operation and are left implicit. -/
def mkdirs (fs : MountFS) (p : Str) : Except MountError MountFS :=
  match lookupFS fs p with
  | some (.file _) => .error .mkdirFailed
  | some .folder => .ok fs
  | none => .ok { entries := (p, .folder) :: fs.entries }

/-- `provider.rename`, an `os.replace` (`localfs.py` lines 166-192). -/
def renameFS (fs : MountFS) (src dst : Str) : Except MountError MountFS :=
  match lookupFS fs src with
  | none => .error .pathNotFound
  | some node => .ok (fsSet (fsRemove fs src) dst node)

structure MountSt where
  fs : MountFS
  files_done : Nat
  bytes_done : Nat
  skipped_symlinks_count : Nat
  skipped_unsafe_paths_count : Nat
  deriving DecidableEq, Repr

/-- One pass of the mount extraction loop over a single entry
(`extract_mount.py` lines 215-284): skip directories/symlinks/unsafe
names, create parent folders, compute the final and temp paths, refuse any
existing entry at the final path, else write-to-temp and rename.  The
`uuid4` fallback for an empty hash is a fixed placeholder name. -/
def processMountEntry (hash : Str → Str) (planPaths : List Str)
    (dest_normalized : Str) (info : ZipEntry) (st : MountSt) :
    MountSt × Option MountError :=
  if info.isDirEntry then (st, none)
  else if zipinfo_is_symlink info then
    ({ st with skipped_symlinks_count := st.skipped_symlinks_count + 1 },
      none)
  else
    match normalize_archive_path info.filename with
    | .error _ =>
      ({ st with skipped_unsafe_paths_count :=
          st.skipped_unsafe_paths_count + 1 }, none)
    | .ok n0 =>
      if n0.normalized ∈ planPaths then
        match normalize_archive_path n0.normalized with
        | .error e => (st, some (.invalidPath e))
        | .ok npath =>
          match (if joinSlash npath.parent_parts = [] then
              Except.ok dest_normalized
            else normalize_mount_path
              (posixJoin dest_normalized (joinSlash npath.parent_parts))) with
          | .error e => (st, some (.invalidPath e))
          | .ok dest_folder =>
            match mkdirs st.fs dest_folder with
            | .error e => (st, some e)
            | .ok fs1 =>
              match normalize_mount_path
                  (posixJoin dest_folder npath.name) with
              | .error e => ({ st with fs := fs1 }, some (.invalidPath e))
              | .ok dst_path =>
                match normalize_mount_path (posixJoin dest_folder
                    (strOf ".drive-extract-" ++
                      (if hash dst_path = [] then strOf "uuid"
                       else hash dst_path) ++ strOf ".tmp")) with
                | .error e => ({ st with fs := fs1 }, some (.invalidPath e))
                | .ok tmp_path =>
                  match lookupFS fs1 dst_path with
                  | some existing =>
                    if existing.isFile then
                      ({ st with fs := fs1 }, some .targetExists)
                    else
                      ({ st with fs := fs1 },
                        some .cannotOverwriteFolderWithFile)
                  | none =>
                    let fs2 := fsSet fs1 tmp_path (.file info.content)
                    match renameFS fs2 tmp_path dst_path with
                    | .error e =>
                      ({ st with fs := fsRemove fs2 tmp_path }, some e)
                    | .ok fs3 =>
                      ({ st with
                          fs := fs3
                          files_done := st.files_done + 1
                          bytes_done := st.bytes_done + info.file_size },
                        none)
      else (st, none)

/-- The `for info in zf.infolist()` loop of `extract_archive_to_mount`:
any raised entry error aborts the job. -/
def extractMountEntries (hash : Str → Str) (planPaths : List Str)
    (dest_normalized : Str) :
    List ZipEntry → MountSt → MountSt × Option MountError
  | [], st => (st, none)
  | info :: rest, st =>
    match processMountEntry hash planPaths dest_normalized info st with
    | (st', none) =>
      extractMountEntries hash planPaths dest_normalized rest st'
    | (st', some e) => (st', some e)

/-- C9.  A planned mount entry whose computed final destination path
already exists — file or folder — is a hard conflict: processing returns
the conflict error with the filesystem exactly as the parent `mkdirs` left
it (nothing written to the final path, no temp file created, the existing
entry intact; the mount loop takes no collision policy to consult), and
the loop stops there with that error, failing the job. -/
theorem mount_collision_hard_conflict :
    (∀ (hash : Str → Str) (planPaths : List Str) (dest_normalized : Str)
        (info : ZipEntry) (st : MountSt) (n0 npath : NormalizedArchivePath)
        (dest_folder dst_path tmp_path : Str) (fs1 : MountFS)
        (existing : MountNode),
      info.isDirEntry = false → zipinfo_is_symlink info = false →
      normalize_archive_path info.filename = .ok n0 →
      n0.normalized ∈ planPaths →
      normalize_archive_path n0.normalized = .ok npath →
      (if joinSlash npath.parent_parts = [] then Except.ok dest_normalized
       else normalize_mount_path
         (posixJoin dest_normalized (joinSlash npath.parent_parts))) =
        .ok dest_folder →
      mkdirs st.fs dest_folder = .ok fs1 →
      normalize_mount_path (posixJoin dest_folder npath.name) =
        .ok dst_path →
      normalize_mount_path (posixJoin dest_folder
        (strOf ".drive-extract-" ++
          (if hash dst_path = [] then strOf "uuid" else hash dst_path) ++
          strOf ".tmp")) = .ok tmp_path →
      lookupFS fs1 dst_path = some existing →
      processMountEntry hash planPaths dest_normalized info st =
        ({ st with fs := fs1 },
          some (if existing.isFile then MountError.targetExists
            else MountError.cannotOverwriteFolderWithFile)) ∧
      lookupFS
        (processMountEntry hash planPaths dest_normalized info st).1.fs
        dst_path = some existing)
    ∧ (∀ (hash : Str → Str) (planPaths : List Str) (dest : Str)
        (info : ZipEntry) (rest : List ZipEntry) (st st' : MountSt)
        (e : MountError),
      processMountEntry hash planPaths dest info st = (st', some e) →
      extractMountEntries hash planPaths dest (info :: rest) st =
        (st', some e)) := by
  constructor
  · intro hash planPaths dest_normalized info st n0 npath dest_folder
      dst_path tmp_path fs1 existing h1 h2 hn0 hmem hnp hdf hmk hdst htmp hex
    have hmain : processMountEntry hash planPaths dest_normalized info st =
        ({ st with fs := fs1 },
          some (if existing.isFile then MountError.targetExists
            else MountError.cannotOverwriteFolderWithFile)) := by
      unfold processMountEntry
      rw [if_neg (by simp [h1]), if_neg (by simp [h2])]
      simp only [hn0]
      rw [if_pos hmem]
      simp only [hnp, hdf, hmk, hdst, htmp, hex]
      by_cases hf : existing.isFile = true
      · rw [if_pos hf, if_pos hf]
      · rw [if_neg hf, if_neg hf]
    refine ⟨hmain, ?_⟩
    rw [hmain]
    exact hex
  · intro hash planPaths dest info rest st st' e hproc
    unfold extractMountEntries
    simp only [hproc]

/-- Witness for `mount_collision_hard_conflict`: extracting `x.txt` into
`/data` where `/data/x.txt` already holds a file is refused with
`Target already exists.`, and the loop aborts with that error. -/
theorem mount_collision_hard_conflict_witness :
    processMountEntry (fun _ => strOf "h") [strOf "x.txt"] (strOf "/data")
        ⟨strOf "x.txt", 1, 1, 0, [97]⟩
        ⟨⟨[(strOf "/data", .folder), (strOf "/data/x.txt", .file [98])]⟩,
          0, 0, 0, 0⟩ =
      (⟨⟨[(strOf "/data", .folder), (strOf "/data/x.txt", .file [98])]⟩,
          0, 0, 0, 0⟩, some MountError.targetExists) ∧
    extractMountEntries (fun _ => strOf "h") [strOf "x.txt"] (strOf "/data")
        [⟨strOf "x.txt", 1, 1, 0, [97]⟩]
        ⟨⟨[(strOf "/data", .folder), (strOf "/data/x.txt", .file [98])]⟩,
          0, 0, 0, 0⟩ =
      (⟨⟨[(strOf "/data", .folder), (strOf "/data/x.txt", .file [98])]⟩,
          0, 0, 0, 0⟩, some MountError.targetExists) := by
  have h := mount_collision_hard_conflict.1 (fun _ => strOf "h")
    [strOf "x.txt"] (strOf "/data") ⟨strOf "x.txt", 1, 1, 0, [97]⟩
    ⟨⟨[(strOf "/data", .folder), (strOf "/data/x.txt", .file [98])]⟩,
      0, 0, 0, 0⟩
    ⟨strOf "x.txt", strOf "x.txt", [strOf "x.txt"]⟩
    ⟨strOf "x.txt", strOf "x.txt", [strOf "x.txt"]⟩
    (strOf "/data") (strOf "/data/x.txt")
    (strOf "/data/.drive-extract-h.tmp")
    ⟨[(strOf "/data", .folder), (strOf "/data/x.txt", .file [98])]⟩
    (.file [98]) (by decide) (by decide) (by decide) (by decide) (by decide)
    (by decide) (by decide) (by decide) (by decide) (by decide)
  refine ⟨h.1, ?_⟩
  exact mount_collision_hard_conflict.2 (fun _ => strOf "h")
    [strOf "x.txt"] (strOf "/data") ⟨strOf "x.txt", 1, 1, 0, [97]⟩ []
    ⟨⟨[(strOf "/data", .folder), (strOf "/data/x.txt", .file [98])]⟩,
      0, 0, 0, 0⟩
    ⟨⟨[(strOf "/data", .folder), (strOf "/data/x.txt", .file [98])]⟩,
      0, 0, 0, 0⟩ MountError.targetExists h.1

end DriveSpec
